import Mathlib

/-!
Verification development for the domain-term substitution engine
(`app/terms_store.py` and `app/textnorm.py`).

Python strings are modelled as `List Char`; Python `int` as `Int` (or `Nat`
where the source value is always non-negative); Python dict payloads as a
structure of optional fields covering exactly the keys the code reads;
raised exceptions as `Except` / explicit error-plus-state results.

Character-level conventions: `str.lower` is modelled character by character
(`pyLowerCharFull`, one character to a possibly longer string) covering
ASCII letters and the Turkish letters appearing in the accent map of the
source; other characters are left unchanged.  Following CPython's Unicode
special casing, the dotted capital `İ` (U+0130) lowers to the
two-character sequence `i` followed by the combining dot above (U+0307);
every other covered character lowers to a single character
(`pyLowerChar`, which is also the per-codepoint simple lowercase used by
`re.IGNORECASE` matching).  The accent map itself
(`ACCENT_MAP` / `_strip_accents`) is translated verbatim.
-/

/-- Simple per-codepoint lowercase: ASCII uppercase and the Turkish
uppercase letters used by the store are mapped to their single lowercase
codepoint (the `UnicodeData` simple mapping, `İ` included), all other
characters are unchanged.  This is the folding CPython's `re.IGNORECASE`
applies to each character when matching; it is not the full `str.lower`,
which expands `İ` (see `pyLowerCharFull`). -/
def pyLowerChar (c : Char) : Char :=
  if c = 'İ' then 'i'
  else if c = 'Ş' then 'ş'
  else if c = 'Ğ' then 'ğ'
  else if c = 'Ü' then 'ü'
  else if c = 'Ö' then 'ö'
  else if c = 'Ç' then 'ç'
  else if 'A' ≤ c ∧ c ≤ 'Z' then Char.ofNat (c.toNat + 32)
  else c

/-- Model of Python `str.lower` on a single character.  CPython applies the
Unicode `SpecialCasing` rules, under which the dotted capital `İ` (U+0130)
lowers to the two-character sequence `i` + combining dot above (U+0307);
every other character of the repertoire lowers to its single
`pyLowerChar` image. -/
def pyLowerCharFull (c : Char) : List Char :=
  if c = 'İ' then ['i', '\u0307'] else [pyLowerChar c]

/-- Model of Python `str.lower` on a string: each character lowers to its
(possibly two-character) lowercase expansion. -/
def pyLower (s : List Char) : List Char := s.flatMap pyLowerCharFull

/-- The `ACCENT_MAP` table of `app/terms_store.py` (lines 19 to 34) as a
character function: Turkish accented letters fold to their ASCII
counterparts, every other character is unchanged. -/
def accentFoldChar (c : Char) : Char :=
  if c = 'ı' then 'i'
  else if c = 'İ' then 'i'
  else if c = 'ş' then 's'
  else if c = 'Ş' then 's'
  else if c = 'ğ' then 'g'
  else if c = 'Ğ' then 'g'
  else if c = 'ü' then 'u'
  else if c = 'Ü' then 'u'
  else if c = 'ö' then 'o'
  else if c = 'Ö' then 'o'
  else if c = 'ç' then 'c'
  else if c = 'Ç' then 'c'
  else c

/-- Model of `_strip_accents` (`app/terms_store.py` lines 67 to 70):
`value.translate(ACCENT_MAP)` applied character by character. -/
def stripAccents (s : List Char) : List Char := s.map accentFoldChar

/-- The composition `_strip_accents(x.lower())` used throughout the store
for accent-insensitive comparison. -/
def foldLower (s : List Char) : List Char := stripAccents (pyLower s)

/-- Unit-cost Levenshtein edit distance (insert, delete, substitute each of
cost one), the mathematical reference for the bounded matcher.  Defined via
the Mathlib edit-distance development with its default cost structure. -/
def levDist (a b : List Char) : Nat := levenshtein Levenshtein.defaultCost a b

/-- Inner loop of `_levenshtein_limited` (`app/terms_store.py` lines 82 to
88): given the character `ca` of `a` being processed, the remaining
characters of `b`, the entry `previous[j-1]`, the list `previous[j:]` and the
value `current[j-1]`, produce the values appended to `current`.  Each value
is `min(insertion, deletion, substitution)` exactly as in the source. -/
def levRowAux (ca : Char) : List Char → Nat → List Nat → Nat → List Nat
  | cb :: bRest, prevj1, pj :: pRest, curj1 =>
      let cost : Nat := if ca = cb then 0 else 1
      let value := min (min (curj1 + 1) (pj + 1)) (prevj1 + cost)
      value :: levRowAux ca bRest pj pRest value
  | _, _, _, _ => []

/-- Outer loop of `_levenshtein_limited` (`app/terms_store.py` lines 79 to
93): iterate over the characters of `a` (with `i` counting from 1),
maintaining the row `previous`; track the row minimum `least` over the
appended values and abort with `max_dist + 1` as soon as it exceeds
`max_dist`; after the loop return `previous[-1]`. -/
def levLoop (b : List Char) (maxDist : Nat) : List Char → Nat → List Nat → Nat
  | [], _, previous => previous.getLastD 0
  | ca :: aRest, i, previous =>
      let current := i :: levRowAux ca b (previous.headD 0) previous.tail i
      let least := current.tail.foldl min (maxDist + 1)
      if maxDist < least then maxDist + 1 else levLoop b maxDist aRest (i + 1) current

/-- Model of `_levenshtein_limited` (`app/terms_store.py` lines 73 to 93):
identity fast path, length fast reject, then the row dynamic programming
loop with early abort. -/
def levenshteinLimited (a b : List Char) (maxDist : Nat) : Nat :=
  if a = b then 0
  else if maxDist < Int.natAbs ((a.length : Int) - (b.length : Int)) then maxDist + 1
  else levLoop b maxDist a 1 (List.range (b.length + 1))

/-- Spec-side description of a DP row tail: the distances from `u` to the
successive extensions of the reversed prefix `w` by the characters of `b`. -/
def levRowSpec (u : List Char) : List Char → List Char → List Nat
  | _, [] => []
  | w, cb :: bRest => levDist u (cb :: w) :: levRowSpec u (cb :: w) bRest

/-- Kind of a term entry: the `type` field, always `exact` or `regex` after
validation. -/
inductive EKind
  | exact
  | regex
deriving DecidableEq, Repr

/-- A validated term entry, the `TermEntry` dataclass of `app/terms_store.py`
(lines 45 to 64).  Stored entries are kept in this validated form: the
source stores `entry.to_dict()` dictionaries whose fields always come from
`_validate_payload`. -/
structure TermEntry where
  id : List Char
  src : List Char
  dst : List Char
  type : EKind
  priority : Int
  notes : List Char
  active : Bool
deriving DecidableEq, Repr

/-- A dynamically typed scalar sitting in a payload field. -/
inductive PyVal
  | int (i : Int)
  | str (s : List Char)
deriving DecidableEq, Repr

/-- Untyped payload dictionary as read by `_validate_payload`: only the keys
the source reads are modelled, a missing key is `none`.  For `src`, `dst` and
`notes` the source computes `str(payload.get(key, "") or "")`, whose falsy
fallback is folded into the optional field (absent and empty both read as
the empty string). -/
structure Payload where
  src : Option (List Char) := none
  dst : Option (List Char) := none
  notes : Option (List Char) := none
  type : Option (List Char) := none
  priority : Option PyVal := none
  active : Option Bool := none
  id : Option (List Char) := none

/-- Errors raised by the store: the `TermsValidationError` messages
`INVALID_TERM`, `BAD_REGEX`, `NOT_FOUND`, the `TermsLimitError`
(`TERMS_LIMIT`), and `valueError`, which models the uncaught Python
`ValueError` raised by `int()` on a non-coercible `priority`
(`_validate_payload` line 436). -/
inductive TermsError
  | invalidTerm
  | badRegex
  | notFound
  | limit
  | valueError
deriving DecidableEq, Repr

deriving instance DecidableEq for Except

/-- Python whitespace as stripped by `str.strip` (ASCII repertoire). -/
def pyIsSpace (c : Char) : Bool :=
  c = ' ' || c = '\t' || c = '\n' || c = '\r' || c = Char.ofNat 11 || c = Char.ofNat 12

/-- Model of `str.strip()`: drop whitespace from both ends. -/
def pyStrip (s : List Char) : List Char :=
  ((s.dropWhile pyIsSpace).reverse.dropWhile pyIsSpace).reverse

/-- Numeric value of a run of ASCII digits. -/
def digitsVal (s : List Char) : Nat :=
  s.foldl (fun a c => a * 10 + (c.toNat - 48)) 0

/-- Model of Python `int(x)` on a payload scalar: an `int` is returned as
is; a string is stripped and parsed as an optional sign followed by a
non-empty run of ASCII digits (digit-group underscores are not modelled);
anything else is a `ValueError`, modelled as `none`. -/
def pyToInt : PyVal → Option Int
  | .int i => some i
  | .str s =>
      match pyStrip s with
      | '+' :: rest =>
          if !rest.isEmpty && rest.all Char.isDigit then some (digitsVal rest) else none
      | '-' :: rest =>
          if !rest.isEmpty && rest.all Char.isDigit then some (-(digitsVal rest : Int)) else none
      | t => if !t.isEmpty && t.all Char.isDigit then some (digitsVal t) else none

/-- Abstract interface to the Python `re` engine for entries of kind regex:
`compiles pat` models whether `re.compile(pat)` succeeds and
`findFrom pat cs text pos` models searching for the next match of the
user-supplied pattern at or after `pos`, returning its span.  Exact-kind
patterns are matched by the concrete word-boundary matcher defined below and
never use this interface; no claim depends on the behaviour of user regex
patterns beyond flag gating and state framing, which hold for every engine. -/
structure RegexEngine where
  compiles : List Char → Bool
  findFrom : List Char → Bool → List Char → Nat → Option (Nat × Nat)

/-- The falsy-or chain `a or b` for optional strings, as in
`entry_id = existing_id or payload.get("id") or str(uuid.uuid4())`. -/
def falsyOr (v : Option (List Char)) (dflt : List Char) : List Char :=
  match v with
  | none => dflt
  | some s => if s = [] then dflt else s

/-- Model of `TermsStore._validate_payload` (lines 425 to 452).  The checks
run in source order: strip and reject empty or oversized `src` and `dst`,
normalise and check `type`, coerce `priority` with `int()` (raising the
modelled `ValueError` when not coercible), read `active`, choose the id
(`fresh` stands for the generated `uuid4` string), and compile-check regex
sources. -/
def validatePayload (rx : RegexEngine) (payload : Payload)
    (existingId : Option (List Char)) (fresh : List Char) : Except TermsError TermEntry :=
  let src := pyStrip (payload.src.getD [])
  let dst := pyStrip (payload.dst.getD [])
  let notes := pyStrip (payload.notes.getD [])
  if src = [] ∨ dst = [] then .error .invalidTerm
  else if 512 < src.length ∨ 512 < dst.length then .error .invalidTerm
  else
    let entryType := pyLower (falsyOr payload.type "exact".toList)
    if entryType ≠ "exact".toList ∧ entryType ≠ "regex".toList then .error .invalidTerm
    else
      match (match payload.priority with | none => some (100 : Int) | some v => pyToInt v) with
      | none => .error .valueError
      | some priority =>
          let active := payload.active.getD true
          let entryId := falsyOr existingId (falsyOr payload.id fresh)
          if entryType = "regex".toList ∧ rx.compiles src = false then .error .badRegex
          else
            .ok { id := entryId, src := src, dst := dst,
                  type := if entryType = "exact".toList then .exact else .regex,
                  priority := priority, notes := notes, active := active }

/-- The tuple rank `0 if e["type"] == "exact" else 1` of the sort key. -/
def kindRank (e : TermEntry) : Nat :=
  match e.type with
  | .exact => 0
  | .regex => 1

/-- Non-strict comparison of the sort keys
`(-priority, kind rank, src)` of `_rebuild_indexes` (line 403), compared
lexicographically as Python compares tuples, with Python string comparison
modelled by the code-point lexicographic order on `List Char`. -/
def entryLe (a b : TermEntry) : Prop :=
  -a.priority < -b.priority ∨
    (-a.priority = -b.priority ∧
      (kindRank a < kindRank b ∨ (kindRank a = kindRank b ∧ a.src ≤ b.src)))

instance : DecidableRel entryLe := fun a b => by unfold entryLe; infer_instance

/-- Association list lookup, modelling Python `dict.get`. -/
def alGet {K V : Type} [DecidableEq K] : List (K × V) → K → Option V
  | [], _ => none
  | (k, v) :: rest, key => if k = key then some v else alGet rest key

/-- Association list insert-or-replace, modelling Python `dict` item
assignment (an existing key keeps its position, a new key is appended,
matching insertion order semantics). -/
def alPut {K V : Type} [DecidableEq K] : List (K × V) → K → V → List (K × V)
  | [], k, v => [(k, v)]
  | (k0, v0) :: rest, k, v =>
      if k0 = k then (k0, v) :: rest else (k0, v0) :: alPut rest k v

/-- Append an entry to the length bucket of the exact index, modelling
`by_length.setdefault(length, []).append(entry)` (line 416). -/
def bucketInsert : List (Nat × List TermEntry) → Nat → TermEntry → List (Nat × List TermEntry)
  | [], n, e => [(n, [e])]
  | (m, l) :: rest, n, e =>
      if m = n then (m, l ++ [e]) :: rest else (m, l) :: bucketInsert rest n e

/-- Insert an exact entry into the first-character index, modelling
`exact_index.setdefault(first_char, {})` followed by the bucket append
(lines 413 to 416).  Keys are the possibly-empty folded one-character
strings produced by `_strip_accents(src[:1].lower())`. -/
def exactIndexInsert :
    List (List Char × List (Nat × List TermEntry)) → List Char → Nat → TermEntry →
      List (List Char × List (Nat × List TermEntry))
  | [], c, n, e => [(c, bucketInsert [] n e)]
  | (d, bs) :: rest, c, n, e =>
      if d = c then (d, bucketInsert bs n e) :: rest
      else (d, bs) :: exactIndexInsert rest c n e

/-- History record payloads of `_record_history` calls. -/
inductive HistInfo
  | addInfo (id src : List Char)
  | updateInfo (id src : List Char)
  | deleteInfo (id src : List Char)
  | importInfo (added updated : Nat)
  | saveInfo (count : Nat)
deriving DecidableEq, Repr

/-- One history event: timestamp, action name and payload. -/
structure HistEvent where
  ts : Int
  action : List Char
  info : HistInfo
deriving DecidableEq, Repr

/-- The in-memory and on-disk state of a `TermsStore`.  `entries` is
`_data["entries"]`, `disk` is the persisted document written by
`_atomic_write`, and the remaining fields are the derived indexes and
caches with their source names. -/
structure Store where
  maxEntries : Nat
  entries : List TermEntry
  orderedEntries : List TermEntry
  exactIndex : List (List Char × List (Nat × List TermEntry))
  accentIndex : List (List Char × List Char)
  compiledExact : List ((List Char × Bool) × List Char)
  compiledRegex : List ((List Char × Bool) × List Char)
  history : List HistEvent
  fuzzyExactEntries : List TermEntry
  fuzzyEnabled : Bool
  disk : List TermEntry

/-- The fixed fuzzy candidate ceiling `self._fuzzy_threshold = 512`. -/
def fuzzyThreshold : Nat := 512

/-- The per-entry body of the index rebuild loop (lines 408 to 416):
extend the accent index, and for exact entries extend the fuzzy candidate
list (when active) and the first-character and length index. -/
def rebuildStep (acc : List (List Char × List (Nat × List TermEntry)) ×
      List (List Char × List Char) × List TermEntry) (e : TermEntry) :
    List (List Char × List (Nat × List TermEntry)) ×
      List (List Char × List Char) × List TermEntry :=
  let (ei, ai, fz) := acc
  let ai := ai ++ [(e.id, foldLower e.src)]
  if e.type = .exact then
    let fz := if e.active then fz ++ [e] else fz
    let ei := exactIndexInsert ei (foldLower (e.src.take 1)) e.src.length e
    (ei, ai, fz)
  else (ei, ai, fz)

/-- Model of `TermsStore._rebuild_indexes` (lines 401 to 422): sort the
entries by the canonical key (Python `list.sort` is a stable sort, modelled
by `List.mergeSort`), then rebuild the accent index, the exact
first-character and length index, and the active-exact fuzzy candidate
list in one pass, clear both compiled-pattern caches, and recompute the
fuzzy-enabled flag.  Re-validation of the stored entries (line 402) is the
identity on entries that already passed `_validate_payload`, which holds
for every store state in this model, and is therefore not repeated here.
Python `list.sort` is a stable sort by this key; stable sorts of a list
under a fixed total preorder coincide, and the model uses insertion sort,
which is stable in the same sense (an earlier entry with an equal key stays
in front of a later one). -/
def rebuildIndexes (s : Store) : Store :=
  let entries := List.insertionSort entryLe s.entries
  let built := entries.foldl rebuildStep ([], [], [])
  { s with
    orderedEntries := entries
    exactIndex := built.1
    accentIndex := built.2.1
    compiledExact := []
    compiledRegex := []
    fuzzyExactEntries := built.2.2
    fuzzyEnabled := entries.length ≤ fuzzyThreshold }

/-- Model of `TermsStore._collect_exact_ids` (lines 293 to 305): for every
character of the folded lowered text, look up the first-character buckets,
skip length buckets longer than the text, and collect the entry ids.  The
source collects into a Python `set` over a set of characters; the model
collects into a list, an adequate model because the result is only ever
used for membership tests, which are insensitive to order and
duplicates. -/
def collectBucketStep (textLen : Nat) (cands2 : List (List Char))
    (bucket : Nat × List TermEntry) : List (List Char) :=
  if textLen < bucket.1 then cands2 else cands2 ++ bucket.2.map (fun e => e.id)

def collectStep (idx : List (List Char × List (Nat × List TermEntry))) (textLen : Nat)
    (cands : List (List Char)) (ch : Char) : List (List Char) :=
  match alGet idx [ch] with
  | none => cands
  | some buckets =>
      if buckets = [] then cands
      else buckets.foldl (collectBucketStep textLen) cands

def collectExactIds (s : Store) (text : List Char) : List (List Char) :=
  (foldLower text).foldl (collectStep s.exactIndex text.length) []

/-- Python regex word characters (`\w` under `re.UNICODE`), restricted to
the character repertoire of the model: ASCII alphanumerics, underscore and
the Turkish letters of the accent map. -/
def isWordChar (c : Char) : Bool :=
  c.isAlphanum || c = '_' ||
    ['ı', 'İ', 'ş', 'Ş', 'ğ', 'Ğ', 'ü', 'Ü', 'ö', 'Ö', 'ç', 'Ç'].contains c

/-- Whether position `i` of `t` holds a word character (out of range counts
as non-word). -/
def isWordAt (t : List Char) (i : Nat) : Bool :=
  match t[i]? with
  | some c => isWordChar c
  | none => false

/-- The regex word-boundary predicate: a boundary stands at `i` exactly when
the wordness of the character before `i` differs from the wordness of the
character at `i`. -/
def boundaryAt (t : List Char) (i : Nat) : Bool :=
  (match i with
   | 0 => false
   | j + 1 => isWordAt t j) != isWordAt t i

/-- Single-character pattern comparison: exact when `cs` (case sensitive)
holds, otherwise the case-insensitive comparison of `re.IGNORECASE`,
modelled by comparing lowered characters. -/
def matchChar (cs : Bool) (a b : Char) : Bool :=
  if cs then a = b else pyLowerChar a = pyLowerChar b

/-- Whether the literal `pat` matches `text` starting at position `i`. -/
def matchesAt (cs : Bool) : List Char → List Char → Nat → Bool
  | [], _, _ => true
  | p :: ps, text, i =>
      match text[i]? with
      | some c => matchChar cs p c && matchesAt cs ps text (i + 1)
      | none => false

/-- Whether the compiled exact pattern `\b src \b` matches `text` at `i`. -/
def fullMatchAt (cs : Bool) (src text : List Char) (i : Nat) : Bool :=
  matchesAt cs src text i && boundaryAt text i && boundaryAt text (i + src.length)

/-- Leftmost match position of the word-bounded literal at or after `pos`;
`fuel` bounds the scan (`text.length + 1 - pos` suffices). -/
def findMatchAux (cs : Bool) (src text : List Char) : Nat → Nat → Option Nat
  | 0, _ => none
  | fuel + 1, pos =>
      if text.length < pos then none
      else if fullMatchAt cs src text pos then some pos
      else findMatchAux cs src text fuel (pos + 1)

/-- Python slice `t[a:b]`. -/
def pySlice (t : List Char) (a b : Nat) : List Char := (t.take b).drop a

/-- Scanning loop of `re.Pattern.subn` for the word-bounded literal: find
the leftmost match at or after `pos`, splice in `dst`, record the span (in
coordinates of the input text of the call, exactly as `match.start()` and
`match.end()` report them), and continue after the match.  `fuel` bounds
the number of replacements (`text.length + 1` suffices for a non-empty
pattern). -/
def subnExactAux (cs : Bool) (src dst text : List Char) :
    Nat → Nat → List Char × List (Nat × Nat)
  | 0, pos => (text.drop pos, [])
  | fuel + 1, pos =>
      match findMatchAux cs src text (text.length + 1 - pos) pos with
      | none => (text.drop pos, [])
      | some i =>
          let rest := subnExactAux cs src dst text fuel (i + src.length)
          (pySlice text pos i ++ dst ++ rest.1, (i, i + src.length) :: rest.2)

/-- A change record `{id, src, dst, start, end, kind}`; the Python key
`end` is spelled `endPos` here because `end` is reserved. -/
structure Change where
  id : List Char
  src : List Char
  dst : List Char
  start : Nat
  endPos : Nat
  kind : List Char
deriving DecidableEq, Repr

/-- Model of `TermsStore._apply_pattern` (lines 307 to 332) applied to a
compiled exact pattern `\b patSrc \b`: replace every non-overlapping match
by `entry["dst"]` and emit one change record per match with the offsets of
`match.start()` and `match.end()`, which are positions in the text given to
this call.  When no match fires the text is returned unchanged with no
records. -/
def applyExactPattern (cs : Bool) (patSrc : List Char) (e : TermEntry)
    (kind : List Char) (text : List Char) : List Char × List Change :=
  if patSrc = [] then (text, [])
  else
    let r := subnExactAux cs patSrc e.dst text (text.length + 1) 0
    if r.2 = [] then (text, [])
    else
      (r.1, r.2.map (fun sp =>
        { id := e.id, src := e.src, dst := e.dst,
          start := sp.1, endPos := sp.2, kind := kind }))

/-- Model of `TermsStore._apply_pattern` for a user regex pattern, driven by
the abstract engine: repeatedly ask for the next span at or after the
current position, splice in `dst` and record the span.  Ill-formed spans
stop the scan; the position always advances so the fuelled loop is total
for every engine. -/
def applyRegexAux (rx : RegexEngine) (cs : Bool) (patSrc dst text : List Char) :
    Nat → Nat → List Char × List (Nat × Nat)
  | 0, pos => (text.drop pos, [])
  | fuel + 1, pos =>
      match rx.findFrom patSrc cs text pos with
      | none => (text.drop pos, [])
      | some (st, en) =>
          if st < pos ∨ en < st ∨ text.length < en then (text.drop pos, [])
          else
            let nxt := max en (st + 1)
            let rest := applyRegexAux rx cs patSrc dst text fuel nxt
            (pySlice text pos st ++ dst ++ rest.1, (st, en) :: rest.2)

/-- Regex arm of `_apply_pattern`. -/
def applyRegexPattern (rx : RegexEngine) (cs : Bool) (patSrc : List Char)
    (e : TermEntry) (text : List Char) : List Char × List Change :=
  let r := applyRegexAux rx cs patSrc e.dst text (text.length + 1) 0
  if r.2 = [] then (text, [])
  else
    (r.1, r.2.map (fun sp =>
      { id := e.id, src := e.src, dst := e.dst,
        start := sp.1, endPos := sp.2, kind := "regex".toList }))

/-- Model of `TermsStore._compile_exact` (lines 377 to 387): look up the
cache under `(entry id, case sensitivity)` and return the cached pattern
source, otherwise compile (the compiled exact pattern is determined by its
literal source) and append to the cache. -/
def compileExact (cache : List ((List Char × Bool) × List Char))
    (e : TermEntry) (cs : Bool) : List ((List Char × Bool) × List Char) × List Char :=
  match alGet cache (e.id, cs) with
  | some pat => (cache, pat)
  | none => (cache ++ [((e.id, cs), e.src)], e.src)

/-- Model of `TermsStore._compile_regex` (lines 389 to 399), same caching
discipline on the regex cache. -/
def compileRegex (cache : List ((List Char × Bool) × List Char))
    (e : TermEntry) (cs : Bool) : List ((List Char × Bool) × List Char) × List Char :=
  match alGet cache (e.id, cs) with
  | some pat => (cache, pat)
  | none => (cache ++ [((e.id, cs), e.src)], e.src)

/-- Tokenizer for the fuzzy pass: `\b\w+\b` under `finditer` matches
exactly the maximal runs of word characters; each token is reported with
its span.  The fuel argument (at least the text length plus one at the
entry point) only serves structural termination: every step consumes at
least one character. -/
def tokensFromAux : Nat → List Char → Nat → List (Nat × Nat × List Char)
  | 0, _, _ => []
  | _ + 1, [], _ => []
  | fuel + 1, c :: rest, i =>
      if isWordChar c then
        let run := c :: rest.takeWhile isWordChar
        (i, i + run.length, run) ::
          tokensFromAux fuel (rest.drop (rest.takeWhile isWordChar).length) (i + run.length)
      else tokensFromAux fuel rest (i + 1)

/-- Candidate scan of `_apply_fuzzy` (lines 348 to 357): walk the fuzzy
candidates keeping the best entry and distance seen, skip candidates by the
length pre-check, update on a strictly smaller admissible distance, and
break immediately on distance zero. -/
def bestFuzzyAux (accIdx : List (List Char × List Char)) (tok : List Char) (fd : Nat) :
    List TermEntry → Option TermEntry → Nat → Option TermEntry × Nat
  | [], best, bd => (best, bd)
  | e :: rest, best, bd =>
      let cand := (alGet accIdx e.id).getD []
      if fd < Int.natAbs ((cand.length : Int) - (tok.length : Int)) then
        bestFuzzyAux accIdx tok fd rest best bd
      else
        let d := levenshteinLimited tok cand fd
        if d ≤ fd ∧ d < bd then
          if d = 0 then (some e, d)
          else bestFuzzyAux accIdx tok fd rest (some e) d
        else bestFuzzyAux accIdx tok fd rest best bd

/-- Model of `TermsStore._apply_fuzzy` (lines 334 to 375): tokenize the
working text, fold each token (lowered unless case sensitive, then accent
folded), scan the candidates, and when a winner within the distance bound
exists splice its `dst` over the token span, recording a change tagged
fuzzy. -/
def applyFuzzy (s : Store) (text : List Char) (cs : Bool) (fd : Nat) :
    List Char × List Change :=
  if s.fuzzyEnabled = false ∨ s.fuzzyExactEntries = [] then (text, [])
  else
    let step := fun (acc : List Char × List Change × Nat) (tk : Nat × Nat × List Char) =>
      let (pieces, chgs, lastEnd) := acc
      let (st, en, tok) := tk
      let baseline := if cs then tok else pyLower tok
      let accl := stripAccents baseline
      let best := bestFuzzyAux s.accentIndex accl fd s.fuzzyExactEntries none (fd + 1)
      match best.1 with
      | some e =>
          if best.2 ≤ fd then
            (pieces ++ pySlice text lastEnd st ++ e.dst,
             chgs ++ [{ id := e.id, src := e.src, dst := e.dst,
                        start := st, endPos := en, kind := "fuzzy".toList }],
             en)
          else (pieces, chgs, lastEnd)
      | none => (pieces, chgs, lastEnd)
    let r := (tokensFromAux (text.length + 1) text 0).foldl step ([], [], 0)
    if r.2.1 = [] then (text, [])
    else (r.1 ++ text.drop r.2.2, r.2.1)

/-- One step of the main pass of `replace` (lines 267 to 281): skip
inactive entries, apply prefiltered exact entries through the exact cache,
apply regex entries through the regex cache when the regex flag is on,
threading the working text, the change list and the two caches. -/
def replaceStep (rx : RegexEngine) (allowed : List (List Char)) (cs enableRegex : Bool)
    (acc : List Char × List Change ×
      List ((List Char × Bool) × List Char) × List ((List Char × Bool) × List Char))
    (e : TermEntry) :
    List Char × List Change ×
      List ((List Char × Bool) × List Char) × List ((List Char × Bool) × List Char) :=
  let (w, chs, cE, cR) := acc
  if e.active = false then acc
  else if e.type = .exact then
    if allowed.contains e.id = false then acc
    else
      let comp := compileExact cE e cs
      let app := applyExactPattern cs comp.2 e "exact".toList w
      (app.1, chs ++ app.2, comp.1, cR)
  else
    if enableRegex = false then acc
    else
      let comp := compileRegex cR e cs
      let app := applyRegexPattern rx cs comp.2 e w
      (app.1, chs ++ app.2, cE, comp.1)

/-- Model of `TermsStore.replace` (lines 251 to 289).  Empty text returns
immediately; otherwise the candidate prefilter runs on the original text,
the main pass folds over the ordered entries threading the working text,
the change list and both compiled-pattern caches (the only store state the
call writes), and the fuzzy pass runs last when enabled.  The returned
store carries the possibly-grown caches. -/
def Store.replace (rx : RegexEngine) (s : Store) (text : List Char)
    (cs enableRegex enableFuzzy : Bool) (fuzzyDist : Int) :
    Store × List Char × List Change :=
  if text = [] then (s, text, [])
  else
    let allowed := collectExactIds s text
    let m := s.orderedEntries.foldl (replaceStep rx allowed cs enableRegex)
      (text, [], s.compiledExact, s.compiledRegex)
    let withFuzzy :=
      if enableFuzzy = true ∧ 0 < fuzzyDist ∧ s.fuzzyEnabled = true then
        let f := applyFuzzy s m.1 cs fuzzyDist.toNat
        (f.1, m.2.1 ++ f.2.map (fun c => { c with kind := "fuzzy".toList }))
      else (m.1, m.2.1)
    ({ s with compiledExact := m.2.2.1, compiledRegex := m.2.2.2 },
     withFuzzy.1, withFuzzy.2)

/-- Model of `TermsStore._ensure_limit` (lines 454 to 456). -/
def ensureLimit (maxEntries newCount : Nat) : Option TermsError :=
  if maxEntries < newCount then some .limit else none

/-- Model of `TermsStore._record_history` (lines 464 to 465): prepend to
the bounded history deque (`maxlen = 200`). -/
def recordHistory (s : Store) (ev : HistEvent) : Store :=
  { s with history := (ev :: s.history).take 200 }

/-- Model of `TermsStore.save` (lines 155 to 161): re-check the limit
(raising leaves the store untouched), atomically write the entries to disk
and append a history record. -/
def Store.save (s : Store) (now : Int) : Option TermsError × Store :=
  match ensureLimit s.maxEntries s.entries.length with
  | some err => (some err, s)
  | none =>
      let s1 := { s with disk := s.entries }
      let s2 := recordHistory s1
        { ts := now, action := "save".toList, info := .saveInfo s1.entries.length }
      (none, s2)

/-- Model of `TermsStore.add_entry` (lines 179 to 188): validate, enforce
the entry ceiling before touching any state, append, record history,
rebuild indexes, save.  The returned store is the state at the point the
call returns or raises. -/
def addEntry (rx : RegexEngine) (s : Store) (payload : Payload)
    (fresh : List Char) (now : Int) : Except TermsError TermEntry × Store :=
  match validatePayload rx payload none fresh with
  | .error e => (.error e, s)
  | .ok entry =>
      match ensureLimit s.maxEntries (s.entries.length + 1) with
      | some err => (.error err, s)
      | none =>
          let s1 := { s with entries := s.entries ++ [entry] }
          let s2 := recordHistory s1
            { ts := now, action := "add".toList, info := .addInfo entry.id entry.src }
          let s3 := rebuildIndexes s2
          match s3.save now with
          | (some err, s4) => (.error err, s4)
          | (none, s4) => (.ok entry, s4)

/-- `TermsStore._normalize_src` (lines 467 to 468). -/
def normalizeSrc (src : List Char) : List Char := foldLower (pyStrip src)

/-- The `by_src` map built at the top of `import_entries` (lines 219 to
222): a dict comprehension over the enumerated entries, later entries
overwriting earlier ones with the same normalized source key. -/
def buildBySrc (entries : List TermEntry) : List (List Char × (Nat × TermEntry)) :=
  entries.enum.foldl (fun m ie => alPut m (normalizeSrc ie.2.src) (ie.1, ie.2)) []

/-- The per-item loop of `import_entries` (lines 223 to 242).  Validation
failures of the `TermsValidationError` kind are skipped; the modelled
`ValueError` propagates, as it is not caught by the source.  A key
collision updates in place when the incoming priority is at least the
stored one; a new key appends after the per-entry limit check, whose
failure raises out of the loop carrying the entries mutated so far. -/
def importLoop (rx : RegexEngine) (maxEntries : Nat) :
    List (Payload × List Char) → List TermEntry →
      List (List Char × (Nat × TermEntry)) → Nat → Nat →
      Except (TermsError × List TermEntry) (List TermEntry × Nat × Nat)
  | [], entries, _, added, updated => .ok (entries, added, updated)
  | (p, fresh) :: rest, entries, bySrc, added, updated =>
      match validatePayload rx p none fresh with
      | .error .valueError => .error (.valueError, entries)
      | .error _ => importLoop rx maxEntries rest entries bySrc added updated
      | .ok entry =>
          let key := normalizeSrc entry.src
          match alGet bySrc key with
          | some cur =>
              if cur.2.priority ≤ entry.priority then
                importLoop rx maxEntries rest (entries.set cur.1 entry)
                  (alPut bySrc key (cur.1, entry)) added (updated + 1)
              else importLoop rx maxEntries rest entries bySrc added updated
          | none =>
              match ensureLimit maxEntries (entries.length + 1) with
              | some err => .error (err, entries)
              | none =>
                  importLoop rx maxEntries rest (entries ++ [entry])
                    (alPut bySrc key (entries.length, entry)) (added + 1) updated

/-- Model of `TermsStore.import_entries` (lines 215 to 247): run the loop;
a raise propagates with the mutated in-memory entries and nothing else
touched (no history record, no reindex, no save); on success record
history, rebuild and save, returning the counts. -/
def importEntries (rx : RegexEngine) (s : Store) (batch : List (Payload × List Char))
    (now : Int) : Except TermsError (Nat × Nat) × Store :=
  match importLoop rx s.maxEntries batch s.entries (buildBySrc s.entries) 0 0 with
  | .error (err, entries1) => (.error err, { s with entries := entries1 })
  | .ok (entries1, added, updated) =>
      let s1 := { s with entries := entries1 }
      let s2 := recordHistory s1
        { ts := now, action := "import".toList, info := .importInfo added updated }
      let s3 := rebuildIndexes s2
      match s3.save now with
      | (some err, s4) => (.error err, s4)
      | (none, s4) => (.ok (added, updated), s4)

instance : IsTotal TermEntry entryLe := by
  constructor
  intro a b
  unfold entryLe
  rcases lt_trichotomy (-a.priority) (-b.priority) with h | h | h
  · exact Or.inl (Or.inl h)
  · rcases lt_trichotomy (kindRank a) (kindRank b) with g | g | g
    · exact Or.inl (Or.inr ⟨h, Or.inl g⟩)
    · rcases le_total a.src b.src with f | f
      · exact Or.inl (Or.inr ⟨h, Or.inr ⟨g, f⟩⟩)
      · exact Or.inr (Or.inr ⟨h.symm, Or.inr ⟨g.symm, f⟩⟩)
    · exact Or.inr (Or.inr ⟨h.symm, Or.inl g⟩)
  · exact Or.inr (Or.inl h)

instance : IsTrans TermEntry entryLe := by
  constructor
  intro a b c hab hbc
  unfold entryLe at hab hbc ⊢
  rcases hab with h1 | ⟨h1, h2⟩
  · rcases hbc with g1 | ⟨g1, _⟩
    · exact Or.inl (h1.trans g1)
    · exact Or.inl (g1 ▸ h1)
  · rcases hbc with g1 | ⟨g1, g2⟩
    · exact Or.inl (h1 ▸ g1)
    · refine Or.inr ⟨h1.trans g1, ?_⟩
      rcases h2 with h2 | ⟨h2, h3⟩
      · rcases g2 with g2 | ⟨g2, _⟩
        · exact Or.inl (h2.trans g2)
        · exact Or.inl (g2 ▸ h2)
      · rcases g2 with g2 | ⟨g2, g3⟩
        · exact Or.inl (h2 ▸ g2)
        · exact Or.inr ⟨h2.trans g2, h3.trans g3⟩

/-- A trivial regex engine for stating concrete examples: every pattern
compiles and nothing ever matches.  The stores in the concrete examples
hold no regex entries, so the engine choice does not affect them. -/
def noRegex : RegexEngine :=
  { compiles := fun _ => true, findFrom := fun _ _ _ _ => none }

/-- A freshly loaded store over the given entries: the effect of
`TermsStore.load` on a well-formed document (lines 121 to 150), with the
history and timestamps elided: the entries are adopted, the indexes
rebuilt, and the document is on disk. -/
def mkStore (maxEntries : Nat) (entries : List TermEntry) : Store :=
  rebuildIndexes
    { maxEntries := maxEntries, entries := entries, orderedEntries := [],
      exactIndex := [], accentIndex := [], compiledExact := [], compiledRegex := [],
      history := [], fuzzyExactEntries := [], fuzzyEnabled := true, disk := entries }

/-- The high-priority exact entry of the priority-precedence example. -/
def entryAiHigh : TermEntry :=
  { id := "e1".toList, src := "ai".toList, dst := "A.I.".toList,
    type := .exact, priority := 200, notes := [], active := true }

/-- The low-priority exact entry of the priority-precedence example. -/
def entryAiLow : TermEntry :=
  { id := "e2".toList, src := "ai".toList, dst := "artificial intelligence".toList,
    type := .exact, priority := 50, notes := [], active := true }

/-- The store holding exactly the two `ai` entries. -/
def storeAi : Store := mkStore 1000 [entryAiLow, entryAiHigh]

/-- A single exact entry rewriting `a` to `bb`, used to exercise offset
bookkeeping across several replacements of one entry. -/
def entryAtoBB : TermEntry :=
  { id := "x".toList, src := "a".toList, dst := "bb".toList,
    type := .exact, priority := 100, notes := [], active := true }

/-- The store holding only `entryAtoBB`. -/
def storeAtoBB : Store := mkStore 1000 [entryAtoBB]

/-- An active exact entry whose source starts with the dotted capital `İ`:
its bucket key in the rebuilt index is the two-character folded lowercase
of `İ`, which no single text character ever equals. -/
def entryIs : TermEntry :=
  { id := "e3".toList, src := "İş".toList, dst := "is".toList,
    type := .exact, priority := 100, notes := [], active := true }

/-- The store holding only `entryIs`. -/
def storeIs : Store := mkStore 1000 [entryIs]

/-- Replace only the leftmost match of the word-bounded literal, the state
of the working text right after the first replacement of a substitution
call; used to state offset properties against the progressively-mutated
string. -/
def replaceFirstOnly (cs : Bool) (src dst text : List Char) : List Char :=
  match findMatchAux cs src text (text.length + 1) 0 with
  | none => text
  | some i => pySlice text 0 i ++ dst ++ text.drop (i + src.length)

/-- The bounded distance of one fuzzy candidate against a folded token, as
computed by the scan (`_levenshtein_limited` against the accent-index form
of the candidate).  The length pre-check of the scan is absorbed: when it
fires, the bounded distance itself is `fd + 1`. -/
def fuzzyCandDist (accIdx : List (List Char × List Char)) (tok : List Char)
    (fd : Nat) (e : TermEntry) : Nat :=
  levenshteinLimited tok ((alGet accIdx e.id).getD []) fd

/-- Declarative description of the fuzzy winner, following the
specification text: among candidates with bounded distance within the
threshold, the winner is the first candidate in list order attaining the
minimal distance; no admissible candidate means no winner (and the best
distance rests at `fd + 1`). -/
def fuzzySelectSpec (accIdx : List (List Char × List Char)) (tok : List Char)
    (fd : Nat) (cands : List TermEntry) : Option TermEntry × Nat :=
  let m := (cands.map (fuzzyCandDist accIdx tok fd)).foldl min (fd + 1)
  if m ≤ fd then (cands.find? (fun e => fuzzyCandDist accIdx tok fd e = m), m)
  else (none, fd + 1)

-- ## Text normalizer (app/textnorm.py) : pipeline model ##

def isPunctChar (c : Char) : Bool :=
  c = ',' || c = '.' || c = ';' || c = ':' || c = '!' || c = '?'

def isQuoteChar (c : Char) : Bool := c = '"' || c = '\''

def isSepChar (c : Char) : Bool := c = '.' || c = ','

def isBangChar (c : Char) : Bool := c = '!' || c = '?'

/-- Stage `_WHITESPACE_RE.sub(" ", ...)`: every maximal whitespace run
becomes a single space. -/
def wCollapse : List Char → List Char
  | [] => []
  | c :: rest =>
      if pyIsSpace c then ' ' :: wCollapse (rest.dropWhile pyIsSpace)
      else c :: wCollapse rest
termination_by l => l.length
decreasing_by
  · simp only [List.length_cons]
    have := List.Sublist.length_le (List.dropWhile_sublist (l := rest) (p := pyIsSpace))
    omega
  · simp

/-- Attempt to match `\s*([.,])\s*(\d)` directly after a digit: the greedy
space runs are forced because a space can never stand where the separator
or digit is expected. -/
def dTry (rest : List Char) : Option (Char × Char × List Char) :=
  match rest.dropWhile pyIsSpace with
  | sep :: r2 =>
      if isSepChar sep then
        match r2.dropWhile pyIsSpace with
        | d2 :: r4 => if d2.isDigit then some (sep, d2, r4) else none
        | [] => none
      else none
  | [] => none

/-- Stage `_NUMBER_GROUP_RE.sub`: contract `digit [spaces] separator
[spaces] digit` to `digit separator digit`, consuming the whole match and
scanning on after it. -/
def dScan : List Char → List Char
  | [] => []
  | c :: rest =>
      if c.isDigit then
        match hd : dTry rest with
        | some (sep, d2, r4) => c :: sep :: d2 :: dScan r4
        | none => c :: dScan rest
      else c :: dScan rest
termination_by l => l.length
decreasing_by
  · simp only [List.length_cons]
    have hlt : r4.length < rest.length := by
      unfold dTry at hd
      cases h1 : rest.dropWhile pyIsSpace with
      | nil => rw [h1] at hd; cases hd
      | cons sep0 r2 =>
          rw [h1] at hd
          dsimp only at hd
          have hr2 : r2.length < rest.length := by
            have h2 := List.Sublist.length_le
              (List.dropWhile_sublist (l := rest) (p := pyIsSpace))
            rw [h1] at h2
            simp at h2
            omega
          by_cases hs : isSepChar sep0 = true
          · rw [if_pos hs] at hd
            cases h3 : r2.dropWhile pyIsSpace with
            | nil => rw [h3] at hd; cases hd
            | cons d0 r40 =>
                rw [h3] at hd
                dsimp only at hd
                have hr4 : r40.length < r2.length + 1 := by
                  have h4 := List.Sublist.length_le
                    (List.dropWhile_sublist (l := r2) (p := pyIsSpace))
                  rw [h3] at h4
                  simp at h4
                  omega
                by_cases hdig : d0.isDigit = true
                · rw [if_pos hdig] at hd
                  cases hd
                  omega
                · rw [if_neg hdig] at hd; cases hd
          · rw [if_neg hs] at hd; cases hd
    omega
  · simp
  · simp

/-- Stage `_PUNCT_SPACING_RE.sub`: `\s* P \s*` becomes `P` followed by one
space; a position where no match starts emits its character unchanged. -/
def pScan : List Char → List Char
  | [] => []
  | c :: rest =>
      match hm : (c :: rest).dropWhile pyIsSpace with
      | p :: r2 =>
          if isPunctChar p then p :: ' ' :: pScan (r2.dropWhile pyIsSpace)
          else if pyIsSpace c then c :: pScan rest
          else c :: pScan rest
      | [] => c :: pScan rest
termination_by l => l.length
decreasing_by
  · simp only [List.length_cons]
    have h1 := List.Sublist.length_le (List.dropWhile_sublist (l := c :: rest) (p := pyIsSpace))
    rw [hm] at h1
    simp only [List.length_cons] at h1
    have h2 := List.Sublist.length_le (List.dropWhile_sublist (l := r2) (p := pyIsSpace))
    omega
  · simp
  · simp
  · simp

/-- Model of `str.replace` for a two-character pattern replaced by one
character: scan left to right, skipping past each replacement. -/
def replacePair (a b r : Char) : List Char → List Char
  | [] => []
  | [c] => [c]
  | c1 :: c2 :: rest =>
      if c1 = a ∧ c2 = b then r :: replacePair a b r rest
      else c1 :: replacePair a b r (c2 :: rest)
termination_by l => l.length
decreasing_by
  · simp only [List.length_cons]; omega
  · simp only [List.length_cons]; omega

/-- Stage `re.sub(r"\s+\)", ")")`: a whitespace run directly before a
closing parenthesis is removed together with it, emitting the
parenthesis. -/
def closeParen : List Char → List Char
  | [] => []
  | c :: rest =>
      if pyIsSpace c then
        match hm : rest.dropWhile pyIsSpace with
        | ')' :: r2 => ')' :: closeParen r2
        | _ => c :: closeParen rest
      else c :: closeParen rest
termination_by l => l.length
decreasing_by
  · simp only [List.length_cons]
    have h1 := List.Sublist.length_le (List.dropWhile_sublist (l := rest) (p := pyIsSpace))
    rw [hm] at h1
    simp at h1
    omega
  · simp
  · simp

/-- Stage `re.sub(r"\(\s+", "(")`: an opening parenthesis absorbs a
following whitespace run. -/
def openParen : List Char → List Char
  | [] => []
  | '(' :: d :: rest =>
      if pyIsSpace d then '(' :: openParen ((d :: rest).dropWhile pyIsSpace)
      else '(' :: openParen (d :: rest)
  | c :: rest => c :: openParen rest
termination_by l => l.length
decreasing_by
  · simp only [List.length_cons]
    have h1 := List.Sublist.length_le (List.dropWhile_sublist (l := d :: rest) (p := pyIsSpace))
    simp only [List.length_cons] at h1
    omega
  · simp
  · simp

/-- Stage `_QUOTE_FIX_RE.sub`: `\s* q \s*` collapses to the bare quote
character (the replacement lambda of the source maps each quote to
itself). -/
def qScan : List Char → List Char
  | [] => []
  | c :: rest =>
      match hm : (c :: rest).dropWhile pyIsSpace with
      | q :: r2 =>
          if isQuoteChar q then q :: qScan (r2.dropWhile pyIsSpace)
          else c :: qScan rest
      | [] => c :: qScan rest
termination_by l => l.length
decreasing_by
  · simp only [List.length_cons]
    have h1 := List.Sublist.length_le (List.dropWhile_sublist (l := c :: rest) (p := pyIsSpace))
    rw [hm] at h1
    simp only [List.length_cons] at h1
    have h2 := List.Sublist.length_le (List.dropWhile_sublist (l := r2) (p := pyIsSpace))
    omega
  · simp
  · simp

/-- Stage `_ELLIPSIS_RE.sub`: a maximal run of three or more dots becomes
exactly three dots. -/
def eScan : List Char → List Char
  | [] => []
  | c :: rest =>
      if c = '.' then
        if 2 ≤ (rest.takeWhile (fun d => d = '.')).length then
          '.' :: '.' :: '.' ::
            eScan (rest.drop (rest.takeWhile (fun d => d = '.')).length)
        else c :: eScan rest
      else c :: eScan rest
termination_by l => l.length
decreasing_by
  · simp only [List.length_cons]
    have h1 := List.length_drop (rest.takeWhile (fun d => d = '.')).length rest
    omega
  · simp
  · simp

/-- Stage `_MULTI_PUNCT_RE.sub`: a maximal run of two or more bang or
question characters collapses to its last character (the last capture of
the repeated group). -/
def mScan : List Char → List Char
  | [] => []
  | c :: rest =>
      if isBangChar c then
        if 1 ≤ (rest.takeWhile isBangChar).length then
          ((rest.takeWhile isBangChar).getLastD c) ::
            mScan (rest.drop (rest.takeWhile isBangChar).length)
        else c :: mScan rest
      else c :: mScan rest
termination_by l => l.length
decreasing_by
  · simp only [List.length_cons]
    have h1 := List.length_drop (rest.takeWhile isBangChar).length rest
    omega
  · simp
  · simp

/-- Model of `normalize_text` (`app/textnorm.py` lines 15 to 29): strip,
empty check, whitespace collapse, decimal-separator repair, punctuation
spacing, the six literal space-before-punctuation replacements,
parenthesis spacing, quote spacing, ellipsis folding, repeated-bang
folding, final strip. -/
def normalizeText (text : List Char) : List Char :=
  let cleaned := pyStrip text
  if cleaned = [] then []
  else
    let c1 := wCollapse cleaned
    let c2 := dScan c1
    let c3 := pScan c2
    let c4 := replacePair ' ' ';' ';'
      (replacePair ' ' ':' ':'
        (replacePair ' ' '?' '?'
          (replacePair ' ' '!' '!'
            (replacePair ' ' '.' '.'
              (replacePair ' ' ',' ',' c3)))))
    let c5 := closeParen c4
    let c6 := openParen c5
    let c7 := qScan c6
    let c8 := eScan c7
    let c9 := mScan c8
    pyStrip c9

def noPair (bad : Char → Char → Bool) : List Char → Bool
  | a :: b :: rest => !bad a b && noPair bad (b :: rest)
  | _ => true

def wsOkC (c : Char) : Bool := !pyIsSpace c || c == ' '

def wsOkB (l : List Char) : Bool := l.all wsOkC

def dblBad (a b : Char) : Bool := a == ' ' && b == ' '

def spBad (t : Char) (a b : Char) : Bool := a == ' ' && b == t

def pasBad (a b : Char) : Bool := a == '(' && b == ' '

def qspBad (a b : Char) : Bool :=
  (a == ' ' && isQuoteChar b) || (isQuoteChar a && b == ' ')

def bangBad (a b : Char) : Bool := isBangChar a && isBangChar b

def pfBad (S : Char → Bool) (a b : Char) : Bool := isPunctChar a && !S b

def followerSet (d : Char) : Bool :=
  d == ' ' || isPunctChar d || d == ')' || isQuoteChar d

def no4dots : List Char → Bool
  | a :: b :: c :: d :: rest =>
      !(a == '.' && b == '.' && c == '.' && d == '.') && no4dots (b :: c :: d :: rest)
  | _ => true

def stripOkB (l : List Char) : Bool :=
  (match l.head? with | some c => !pyIsSpace c | none => true) &&
  (match l.getLast? with | some c => !pyIsSpace c | none => true)

def normInv (l : List Char) : Bool :=
  wsOkB l && noPair dblBad l &&
  noPair (spBad ',') l && noPair (spBad '.') l && noPair (spBad '!') l &&
  noPair (spBad '?') l && noPair (spBad ':') l && noPair (spBad ';') l &&
  noPair (spBad ')') l && noPair pasBad l && noPair qspBad l &&
  noPair bangBad l && noPair (pfBad followerSet) l && no4dots l && stripOkB l

def contract : List Char → List Char
  | [] => []
  | [c] => [c]
  | [c, s] => [c, s]
  | [c, s, sp] => [c, s, sp]
  | c :: s :: sp :: d2 :: r4 =>
      if c.isDigit && isSepChar s && sp == ' ' && d2.isDigit then
        c :: s :: d2 :: contract r4
      else c :: contract (s :: sp :: d2 :: r4)

def expandK (K : Char → Bool) : List Char → List Char
  | [] => []
  | c :: rest =>
      if isPunctChar c then
        match rest with
        | [] => [c, ' ']
        | d :: _ =>
            if d == ' ' then c :: expandK K rest
            else if K d then c :: ' ' :: expandK K rest
            else c :: expandK K rest
      else c :: expandK K rest

def pendSpace : List Char → List Char
  | [] => []
  | [c] => if isPunctChar c then [c, ' '] else [c]
  | c :: rest => c :: pendSpace rest

def Kp1 (d : Char) : Bool := true && !(d == ',')

def Kp2 (d : Char) : Bool := Kp1 d && !(d == '.')

def Kp3 (d : Char) : Bool := Kp2 d && !(d == '!')

def Kp4 (d : Char) : Bool := Kp3 d && !(d == '?')

def Kp5 (d : Char) : Bool := Kp4 d && !(d == ':')

def K6 (d : Char) : Bool := Kp5 d && !(d == ';')

def K7 (d : Char) : Bool := K6 d && !(d == ')')

def K8 (d : Char) : Bool := K7 d && !isQuoteChar d

def spPunctBad (a b : Char) : Bool := a == ' ' && isPunctChar b

-- ### Theorems ###

theorem levDist_nil_left (b : List Char) : levDist [] b = b.length := by
  induction b with
  | nil => simp [levDist, levenshtein_nil_nil]
  | cons y ys ih => simp [levDist, levenshtein_nil_cons] at ih ⊢; omega

theorem levDist_nil_right (a : List Char) : levDist a [] = a.length := by
  induction a with
  | nil => simp [levDist, levenshtein_nil_nil]
  | cons x xs ih => simp [levDist, levenshtein_cons_nil] at ih ⊢; omega

theorem levDist_cons_cons (x : Char) (u : List Char) (y : Char) (w : List Char) :
    levDist (x :: u) (y :: w) =
      min (min (levDist (x :: u) w + 1) (levDist u (y :: w) + 1))
        (levDist u w + if x = y then 0 else 1) := by
  have h := levenshtein_cons_cons (C := Levenshtein.defaultCost) x u y w
  simp only [levDist, h, Levenshtein.defaultCost_delete, Levenshtein.defaultCost_insert,
    Levenshtein.defaultCost_substitute, inf_eq_min]
  by_cases hxy : x = y <;> simp [hxy] <;> omega

theorem levDist_self (a : List Char) : levDist a a = 0 := by
  induction a with
  | nil => simp [levDist, levenshtein_nil_nil]
  | cons x xs ih => rw [levDist_cons_cons]; simp [ih]

theorem levRowAux_spec (ca : Char) :
    ∀ (b w u : List Char),
      levRowAux ca b (levDist u w) (levRowSpec u w b) (levDist (ca :: u) w)
        = levRowSpec (ca :: u) w b := by
  intro b
  induction b with
  | nil => intro w u; rfl
  | cons cb bRest ih =>
      intro w u
      simp only [levRowSpec, levRowAux]
      have hv : min (min (levDist (ca :: u) w + 1) (levDist u (cb :: w) + 1))
          (levDist u w + if ca = cb then 0 else 1) = levDist (ca :: u) (cb :: w) :=
        (levDist_cons_cons ca u cb w).symm
      rw [hv]
      congr 1
      exact ih (cb :: w) u

theorem levRowSpec_getLast :
    ∀ (b w u : List Char) (d : Nat),
      (levDist u w :: levRowSpec u w b).getLastD d = levDist u (b.reverse ++ w) := by
  intro b
  induction b with
  | nil => intro w u d; simp [levRowSpec]
  | cons cb bRest ih =>
      intro w u d
      simp only [levRowSpec, List.getLastD_cons]
      have := ih (cb :: w) u (levDist u w)
      simp only [List.getLastD_cons] at this
      rw [this]
      simp

theorem levLoop_spec (b : List Char) (m : Nat) :
    ∀ (aRest u : List Char),
      levLoop b m aRest (u.length + 1) (levDist u [] :: levRowSpec u [] b) ≤ m →
      levLoop b m aRest (u.length + 1) (levDist u [] :: levRowSpec u [] b)
        = levDist (aRest.reverseAux u) b.reverse := by
  intro aRest
  induction aRest with
  | nil =>
      intro u _
      show (levDist u [] :: levRowSpec u [] b).getLastD 0
          = levDist (List.reverseAux [] u) b.reverse
      rw [levRowSpec_getLast b [] u 0]
      simp only [List.reverseAux, List.append_nil]
  | cons ca aRest ih =>
      intro u h
      rw [levLoop] at h ⊢
      have hhead : (levDist u [] :: levRowSpec u [] b).headD 0 = levDist u [] := rfl
      have htail : (levDist u [] :: levRowSpec u [] b).tail = levRowSpec u [] b := rfl
      rw [hhead, htail] at h ⊢
      have hlen : u.length + 1 = levDist (ca :: u) [] := by
        rw [levDist_nil_right]; simp
      have hrow : levRowAux ca b (levDist u []) (levRowSpec u [] b) (u.length + 1)
          = levRowSpec (ca :: u) [] b := by
        rw [hlen]; exact levRowAux_spec ca b [] u
      rw [hrow] at h ⊢
      by_cases hab : m < ((u.length + 1) :: levRowSpec (ca :: u) [] b).tail.foldl min (m + 1)
      · rw [if_pos hab] at h; omega
      · rw [if_neg hab] at h ⊢
        have hstep : u.length + 1 + 1 = (ca :: u).length + 1 := by simp
        rw [hstep] at h ⊢
        have hh : levLoop b m aRest ((ca :: u).length + 1)
            (levDist (ca :: u) [] :: levRowSpec (ca :: u) [] b) ≤ m := by
          rw [← hlen]
          exact h
        have hres := ih (ca :: u) hh
        rw [← hlen] at hres
        exact hres

theorem levRowSpec_nil_left :
    ∀ (b w : List Char),
      levRowSpec [] w b = (List.range b.length).map (fun j => w.length + 1 + j) := by
  intro b
  induction b with
  | nil => intro w; simp [levRowSpec]
  | cons cb bRest ih =>
      intro w
      simp only [levRowSpec, levDist_nil_left, List.length_cons, List.length_range]
      rw [ih (cb :: w)]
      rw [List.range_succ_eq_map]
      simp only [List.map_cons, List.map_map]
      refine List.cons_eq_cons.mpr ⟨by omega, ?_⟩
      apply List.map_congr_left
      intro j _
      simp only [Function.comp_apply, List.length_cons]
      omega

theorem init_row (b : List Char) :
    List.range (b.length + 1) = levDist [] [] :: levRowSpec [] [] b := by
  rw [levRowSpec_nil_left b []]
  rw [List.range_succ_eq_map]
  have h0 : levDist [] [] = 0 := by simp [levDist, levenshtein_nil_nil]
  rw [h0]
  refine List.cons_eq_cons.mpr ⟨rfl, ?_⟩
  apply List.map_congr_left
  intro j _
  simp only [List.length_nil, Nat.succ_eq_add_one]
  omega

/-- Rearrangement identity for nine-way minimums used in the last-column
recurrence of the edit distance. -/
theorem min_nine_shuffle (A B C D E F G H K c1 c2 : Nat) :
    min (min (min (min (A+1) (B+1)) (C+c1) + 1) (min (min (D+1) (E+1)) (F+c1) + 1))
      (min (min (G+1) (H+1)) (K+c1) + c2)
    = min (min (min (min (A+1) (D+1)) (G+c2) + 1) (min (min (B+1) (E+1)) (H+c2) + 1))
      (min (min (C+1) (F+1)) (K+c2) + c1) := by
  simp only [← min_add_add_right]
  ring_nf
  ac_rfl

set_option maxHeartbeats 1600000 in
theorem levDist_append_append :
    ∀ (u v : List Char) (x y : Char),
      levDist (u ++ [x]) (v ++ [y]) =
        min (min (levDist (u ++ [x]) v + 1) (levDist u (v ++ [y]) + 1))
          (levDist u v + if x = y then 0 else 1) := by
  intro u
  induction u with
  | nil =>
      intro v
      induction v with
      | nil =>
          intro x y
          simp only [List.nil_append]
          rw [levDist_cons_cons]
      | cons w vRest ihv =>
          intro x y
          simp only [List.nil_append] at ihv ⊢
          rw [List.cons_append]
          rw [levDist_cons_cons x [] w (vRest ++ [y])]
          rw [ihv x y]
          rw [levDist_cons_cons x [] w vRest]
          rw [levDist_nil_left, levDist_nil_left, levDist_nil_left, levDist_nil_left]
          simp only [List.length_append, List.length_cons, List.length_nil]
          omega
  | cons z uRest ihu =>
      intro v
      induction v with
      | nil =>
          intro x y
          rw [List.cons_append]
          simp only [List.nil_append]
          rw [levDist_cons_cons z (uRest ++ [x]) y []]
          have h2 := ihu [] x y
          simp only [List.nil_append] at h2
          rw [h2]
          rw [levDist_cons_cons z uRest y []]
          rw [levDist_nil_right, levDist_nil_right, levDist_nil_right, levDist_nil_right]
          simp only [List.length_append, List.length_cons, List.length_nil]
          omega
      | cons w vRest ihv =>
          intro x y
          rw [List.cons_append, List.cons_append]
          rw [levDist_cons_cons z (uRest ++ [x]) w (vRest ++ [y])]
          have h4 := ihv x y
          rw [List.cons_append] at h4
          rw [h4]
          have h3 := ihu (w :: vRest) x y
          rw [List.cons_append] at h3
          rw [h3]
          rw [ihu vRest x y]
          rw [levDist_cons_cons z (uRest ++ [x]) w vRest]
          rw [levDist_cons_cons z uRest w (vRest ++ [y])]
          rw [levDist_cons_cons z uRest w vRest]
          exact min_nine_shuffle _ _ _ _ _ _ _ _ _ _ _

theorem levDist_reverse : ∀ (a b : List Char), levDist a.reverse b.reverse = levDist a b := by
  intro a
  induction a with
  | nil => intro b; simp [levDist_nil_left]
  | cons x aRest iha =>
      intro b
      induction b with
      | nil => simp [levDist_nil_right]
      | cons y bRest ihb =>
          rw [List.reverse_cons, List.reverse_cons]
          rw [levDist_append_append]
          rw [← List.reverse_cons x aRest, ← List.reverse_cons y bRest]
          rw [ihb, iha (y :: bRest), iha bRest]
          rw [levDist_cons_cons]

theorem levenshteinLimited_eq_of_le (a b : List Char) (m : Nat)
    (h : levenshteinLimited a b m ≤ m) : levenshteinLimited a b m = levDist a b := by
  unfold levenshteinLimited at h ⊢
  by_cases hab : a = b
  · rw [if_pos hab]; subst hab; rw [levDist_self]
  · rw [if_neg hab] at h ⊢
    by_cases hlen : m < Int.natAbs ((a.length : Int) - (b.length : Int))
    · rw [if_pos hlen] at h; omega
    · rw [if_neg hlen] at h ⊢
      rw [init_row b] at h ⊢
      have h1 : (1 : Nat) = List.length ([] : List Char) + 1 := rfl
      rw [h1] at h ⊢
      rw [levLoop_spec b m a [] h]
      have : a.reverseAux [] = a.reverse := by simp [List.reverseAux_eq]
      rw [this, levDist_reverse]

theorem levenshteinLimited_reject (a b : List Char) (m : Nat)
    (h : m < Int.natAbs ((a.length : Int) - (b.length : Int))) :
    levenshteinLimited a b m = m + 1 := by
  unfold levenshteinLimited
  by_cases hab : a = b
  · subst hab; simp at h
  · rw [if_neg hab, if_pos h]

/-- C4: the bounded matcher returns 0 on equal strings, the overflow value
on the length fast reject, and agrees with the true Levenshtein distance
whenever its result is within the bound; the two concrete evaluations of
the specification hold. -/
theorem C4_bounded_distance :
    (∀ (a b : List Char) (m : Nat), a = b → levenshteinLimited a b m = 0) ∧
    (∀ (a b : List Char) (m : Nat),
      m < Int.natAbs ((a.length : Int) - (b.length : Int)) →
      levenshteinLimited a b m = m + 1) ∧
    (∀ (a b : List Char) (m : Nat),
      levenshteinLimited a b m ≤ m → levenshteinLimited a b m = levDist a b) ∧
    levenshteinLimited "kitap".toList "kitab".toList 1 = 1 ∧
    levenshteinLimited "kitap".toList "kitaplar".toList 1 = 2 := by
  refine ⟨?_, levenshteinLimited_reject, levenshteinLimited_eq_of_le, by decide, by decide⟩
  intro a b m h
  subst h
  simp [levenshteinLimited]

/-- Closed witness for C4, applying each conditional part at a concrete
input. -/
theorem C4_bounded_distance_witness :
    levenshteinLimited "abc".toList "abc".toList 3 = 0 ∧
    levenshteinLimited "ab".toList "abcdef".toList 2 = 3 ∧
    levenshteinLimited "kitap".toList "kitab".toList 1
      = levDist "kitap".toList "kitab".toList :=
  ⟨C4_bounded_distance.1 _ _ 3 rfl,
   C4_bounded_distance.2.1 _ _ 2 (by decide),
   C4_bounded_distance.2.2.1 _ _ 1 (by decide)⟩

theorem replace_fuzzy_guard (rx : RegexEngine) (s : Store) (text : List Char)
    (cs er ef : Bool) (fd : Int)
    (h : ¬(ef = true ∧ 0 < fd ∧ s.fuzzyEnabled = true)) :
    Store.replace rx s text cs er ef fd = Store.replace rx s text cs er false fd := by
  have h2 : ¬((false : Bool) = true ∧ 0 < fd ∧ s.fuzzyEnabled = true) := by
    rintro ⟨h1, -⟩
    simp at h1
  unfold Store.replace
  by_cases ht : text = []
  · rw [if_pos ht, if_pos ht]
  · rw [if_neg ht, if_neg ht]
    dsimp only
    rw [if_neg h, if_neg h2]

/-- C1 (amended): after every rebuild the ordered entry list is sorted by
priority descending, then exact before regex, then source ascending (the
relation `entryLe` spells out this key), and the priority-precedence
example rewrites `ai is great` to `A.I. is great` for either regex flag
provided the fuzzy pass is inert (disabled flag or non-positive distance);
with fuzzy enabled at a positive distance the fuzzy pass additionally
rewrites the tokens `A` and `I` (see the counterexample), which is the one
deviation from the claim as frozen. -/
theorem C1_canonical_order_and_example :
    (∀ s : Store, List.Pairwise entryLe (rebuildIndexes s).orderedEntries) ∧
    (∀ (er ef : Bool) (fd : Int), ef = false ∨ fd ≤ 0 →
      (storeAi.replace noRegex "ai is great".toList false er ef fd).2.1
        = "A.I. is great".toList) := by
  constructor
  · intro s
    exact List.sorted_insertionSort entryLe s.entries
  · intro er ef fd h
    have hc : ¬(ef = true ∧ 0 < fd ∧ storeAi.fuzzyEnabled = true) := by
      rcases h with h | h
      · rintro ⟨h1, -⟩
        rw [h] at h1
        simp at h1
      · rintro ⟨-, h2, -⟩
        omega
    rw [replace_fuzzy_guard _ _ _ _ _ _ _ hc]
    rfl

/-- Counterexample to C1 as frozen: with the fuzzy pass enabled at distance
one (an allowed setting under the claim, which quantifies over all regex
and fuzzy flags), the call rewrites the text further and does not return
`A.I. is great`. -/
theorem C1_fuzzy_flag_counterexample :
    (storeAi.replace noRegex "ai is great".toList false true true 1).2.1
      = "A.I..A.I.. is great".toList ∧
    ¬((storeAi.replace noRegex "ai is great".toList false true true 1).2.1
      = "A.I. is great".toList) := by
  constructor
  · decide
  · decide

/-- Closed witness for C1. -/
theorem C1_canonical_order_and_example_witness :
    List.Pairwise entryLe (rebuildIndexes storeAi).orderedEntries ∧
    (storeAi.replace noRegex "ai is great".toList false true false 1).2.1
      = "A.I. is great".toList :=
  ⟨C1_canonical_order_and_example.1 storeAi,
   C1_canonical_order_and_example.2 true false 1 (Or.inl rfl)⟩

theorem findMatchAux_sound (cs : Bool) (src text : List Char) :
    ∀ (fuel pos i : Nat), findMatchAux cs src text fuel pos = some i →
      pos ≤ i ∧ i ≤ text.length ∧ fullMatchAt cs src text i = true := by
  intro fuel
  induction fuel with
  | zero => intro pos i h; simp [findMatchAux] at h
  | succ fuel ih =>
      intro pos i h
      rw [findMatchAux] at h
      by_cases h1 : text.length < pos
      · rw [if_pos h1] at h; cases h
      · rw [if_neg h1] at h
        by_cases h2 : fullMatchAt cs src text pos = true
        · rw [if_pos h2] at h
          cases h
          exact ⟨le_refl _, by omega, h2⟩
        · rw [if_neg h2] at h
          have h3 := ih (pos + 1) i h
          exact ⟨by omega, h3.2.1, h3.2.2⟩

theorem matchesAt_le (cs : Bool) (text : List Char) :
    ∀ (src : List Char) (i : Nat), src ≠ [] → matchesAt cs src text i = true →
      i + src.length ≤ text.length := by
  intro src
  induction src with
  | nil => intro i h; exact absurd rfl h
  | cons p ps ih =>
      intro i _ h
      rw [matchesAt] at h
      cases hg : text[i]? with
      | none => rw [hg] at h; cases h
      | some c =>
          rw [hg] at h
          have hi : i < text.length := by
            have := List.getElem?_eq_some_iff.mp hg
            exact this.1
          have hand := Bool.and_eq_true_iff.mp h
          by_cases hps : ps = []
          · subst hps
            simp only [List.length_cons, List.length_nil]
            omega
          · have := ih (i + 1) hps hand.2
            simp only [List.length_cons]
            omega

theorem subnExactAux_spans (cs : Bool) (src dst text : List Char) (hsrc : src ≠ []) :
    ∀ (fuel pos : Nat), ∀ sp ∈ (subnExactAux cs src dst text fuel pos).2,
      pos ≤ sp.1 ∧ sp.2 = sp.1 + src.length ∧ sp.1 + src.length ≤ text.length ∧
        fullMatchAt cs src text sp.1 = true := by
  intro fuel
  induction fuel with
  | zero => intro pos sp h; simp [subnExactAux] at h
  | succ fuel ih =>
      intro pos sp h
      rw [subnExactAux] at h
      cases hf : findMatchAux cs src text (text.length + 1 - pos) pos with
      | none => rw [hf] at h; simp at h
      | some i =>
          rw [hf] at h
          simp only [List.mem_cons] at h
          obtain ⟨hpos, hle, hmatch⟩ := findMatchAux_sound cs src text _ _ _ hf
          have hmm : matchesAt cs src text i = true := by
            unfold fullMatchAt at hmatch
            exact (Bool.and_eq_true_iff.mp (Bool.and_eq_true_iff.mp hmatch).1).1
          have hbound := matchesAt_le cs text src i hsrc hmm
          rcases h with rfl | h
          · exact ⟨hpos, rfl, hbound, hmatch⟩
          · have h2 := ih (i + src.length) sp h
            have hlen : 1 ≤ src.length := by
              cases src with
              | nil => exact absurd rfl hsrc
              | cons _ _ => simp
            exact ⟨by omega, h2.2⟩

/-- C3 (amended): every change record emitted by an exact substitution call
refers to the text handed to that call: its end offset is its start plus
the pattern length, the span lies inside that text, and the pattern matches
that text at the recorded start.  Within the main pass this input text is
the working string after all earlier entries finished, but the offsets are
not further adjusted for earlier replacements made by the same entry inside
the same call (see the counterexample), which is the one deviation from the
claim as frozen. -/
theorem C3_offsets_entry_local :
    ∀ (cs : Bool) (patSrc : List Char) (e : TermEntry) (kind text : List Char),
      ∀ c ∈ (applyExactPattern cs patSrc e kind text).2,
        c.endPos = c.start + patSrc.length ∧ c.start + patSrc.length ≤ text.length ∧
          fullMatchAt cs patSrc text c.start = true := by
  intro cs patSrc e kind text c hc
  by_cases hpat : patSrc = []
  · unfold applyExactPattern at hc
    rw [if_pos hpat] at hc
    simp at hc
  · unfold applyExactPattern at hc
    rw [if_neg hpat] at hc
    dsimp only at hc
    split at hc
    · simp at hc
    · simp only [List.mem_map] at hc
      obtain ⟨sp, hsp, rfl⟩ := hc
      have h := subnExactAux_spans cs patSrc e.dst text hpat (text.length + 1) 0 sp hsp
      exact ⟨h.2.1.symm ▸ rfl, h.2.2.1, h.2.2.2⟩

/-- Counterexample to C3 as frozen: with the single entry rewriting `a` to
`bb` on the text `a a`, the two change records carry spans `(0,1)` and
`(2,3)`; after the first replacement the progressively-mutated string is
`bb a`, in which the pattern does not match at offset 2 (the second
replacement actually lands at offset 3 there), so the second record's
offsets are not positions in the progressively-mutated string. -/
theorem C3_progressive_offsets_counterexample :
    (storeAtoBB.replace noRegex "a a".toList false false false 0).2.1 = "bb bb".toList ∧
    (storeAtoBB.replace noRegex "a a".toList false false false 0).2.2.map
      (fun c => (c.start, c.endPos)) = [(0, 1), (2, 3)] ∧
    replaceFirstOnly false "a".toList "bb".toList "a a".toList = "bb a".toList ∧
    fullMatchAt false "a".toList "bb a".toList 2 = false ∧
    fullMatchAt false "a".toList "bb a".toList 3 = true := by
  refine ⟨by decide, by decide, by decide, by decide, by decide⟩

/-- Closed witness for C3. -/
theorem C3_offsets_entry_local_witness :
    ({ id := "x".toList, src := "a".toList, dst := "bb".toList, start := 2,
       endPos := 3, kind := "exact".toList } : Change).endPos
        = 2 + ("a".toList).length ∧
    2 + ("a".toList).length ≤ ("a a".toList).length ∧
    fullMatchAt false "a".toList "a a".toList 2 = true := by
  have h := C3_offsets_entry_local false "a".toList entryAtoBB "exact".toList "a a".toList
    { id := "x".toList, src := "a".toList, dst := "bb".toList, start := 2,
      endPos := 3, kind := "exact".toList } (by decide)
  exact h

/-- C6 (amended): for a store already holding `max_entries` entries and a
payload that passes validation, `add_entry` raises `TERMS_LIMIT` before
mutating anything: the store it leaves behind, in-memory entry list and
on-disk document included, is exactly the input store.  A payload that
fails validation raises the validation error instead (see the
counterexample), which is the one deviation from the claim as frozen. -/
theorem C6_limit_before_mutation :
    ∀ (rx : RegexEngine) (s : Store) (p : Payload) (fresh : List Char) (now : Int)
      (e : TermEntry),
      s.entries.length = s.maxEntries →
      validatePayload rx p none fresh = .ok e →
      addEntry rx s p fresh now = (.error .limit, s) := by
  intro rx s p fresh now e hlen hval
  unfold addEntry
  rw [hval]
  have hlim : ensureLimit s.maxEntries (s.entries.length + 1) = some .limit := by
    unfold ensureLimit
    rw [if_pos (by omega)]
  rw [hlim]

/-- Counterexample to C6 as frozen: the claim quantifies over every
payload, but at capacity an invalid payload (here an empty source) raises
`INVALID_TERM` from validation, not the `TERMS_LIMIT` limit error. -/
theorem C6_invalid_payload_counterexample :
    (addEntry noRegex (mkStore 0 []) { src := some [], dst := some "x".toList }
      "f".toList 0).1 = .error .invalidTerm ∧
    (Except.error TermsError.invalidTerm : Except TermsError TermEntry)
      ≠ .error .limit := by
  refine ⟨by decide, by decide⟩

/-- Closed witness for C6. -/
theorem C6_limit_before_mutation_witness :
    addEntry noRegex (mkStore 0 []) { src := some "a".toList, dst := some "b".toList }
      "f".toList 0 = (.error .limit, mkStore 0 []) := by
  have h := C6_limit_before_mutation noRegex (mkStore 0 [])
    { src := some "a".toList, dst := some "b".toList } "f".toList 0
    { id := "f".toList, src := "a".toList, dst := "b".toList, type := .exact,
      priority := 100, notes := [], active := true } (by decide) (by decide)
  exact h

/-- C7 (amended): a batch that would cross the entry ceiling partway
through the loop makes `import_entries` raise `TERMS_LIMIT` for the whole
call instead of returning `{added, updated}` counts: the loop error
propagates, the store keeps the entries appended before the overflow in
memory, and the history, ordered entries (hence indexes) and on-disk
document are left untouched because the record, rebuild and save steps are
skipped. -/
theorem C7_limit_aborts_import :
    ∀ (rx : RegexEngine) (s : Store) (batch : List (Payload × List Char)) (now : Int)
      (err : TermsError) (entries1 : List TermEntry),
      importLoop rx s.maxEntries batch s.entries (buildBySrc s.entries) 0 0
        = .error (err, entries1) →
      importEntries rx s batch now = (.error err, { s with entries := entries1 }) ∧
      ({ s with entries := entries1 } : Store).disk = s.disk ∧
      ({ s with entries := entries1 } : Store).history = s.history ∧
      ({ s with entries := entries1 } : Store).orderedEntries = s.orderedEntries ∧
      ({ s with entries := entries1 } : Store).exactIndex = s.exactIndex := by
  intro rx s batch now err entries1 h
  unfold importEntries
  rw [h]
  exact ⟨rfl, rfl, rfl, rfl, rfl⟩

/-- Counterexample to C7 as frozen: importing two brand-new valid entries
into an empty store with a ceiling of one raises `TERMS_LIMIT` for the
whole call rather than completing with counts; the first entry remains
appended in memory while nothing is persisted. -/
theorem C7_batch_counterexample :
    (importEntries noRegex (mkStore 1 [])
      [({ src := some "aa".toList, dst := some "x".toList }, "f1".toList),
       ({ src := some "bb".toList, dst := some "y".toList }, "f2".toList)] 0).1
      = .error .limit ∧
    ((importEntries noRegex (mkStore 1 [])
      [({ src := some "aa".toList, dst := some "x".toList }, "f1".toList),
       ({ src := some "bb".toList, dst := some "y".toList }, "f2".toList)] 0).2.entries.map
        (fun e => e.src)) = ["aa".toList] ∧
    (importEntries noRegex (mkStore 1 [])
      [({ src := some "aa".toList, dst := some "x".toList }, "f1".toList),
       ({ src := some "bb".toList, dst := some "y".toList }, "f2".toList)] 0).2.disk
      = (mkStore 1 []).disk := by
  refine ⟨by decide, by decide, by decide⟩

/-- Closed witness for C7. -/
theorem C7_limit_aborts_import_witness :
    importEntries noRegex (mkStore 1 [])
      [({ src := some "aa".toList, dst := some "x".toList }, "f1".toList),
       ({ src := some "bb".toList, dst := some "y".toList }, "f2".toList)] 0
      = (.error .limit,
         { mkStore 1 [] with entries :=
            [{ id := "f1".toList, src := "aa".toList, dst := "x".toList,
               type := .exact, priority := 100, notes := [], active := true }] }) := by
  have h := C7_limit_aborts_import noRegex (mkStore 1 [])
    [({ src := some "aa".toList, dst := some "x".toList }, "f1".toList),
     ({ src := some "bb".toList, dst := some "y".toList }, "f2".toList)] 0 .limit
    [{ id := "f1".toList, src := "aa".toList, dst := "x".toList,
       type := .exact, priority := 100, notes := [], active := true }] (by decide)
  exact h.1

/-- C8 (amended): a `priority` field that `int()` cannot coerce makes
validation raise (the uncaught Python `ValueError`, `valueError` in the
model) even when all other fields are valid; there is no silent fallback.
Only an absent `priority` key falls back to the default 100. -/
theorem C8_priority_coercion :
    (∀ (rx : RegexEngine) (p : Payload) (fresh : List Char) (v : PyVal),
      p.priority = some v → pyToInt v = none →
      ¬(pyStrip (p.src.getD []) = [] ∨ pyStrip (p.dst.getD []) = []) →
      ¬(512 < (pyStrip (p.src.getD [])).length ∨ 512 < (pyStrip (p.dst.getD [])).length) →
      ¬(pyLower (falsyOr p.type "exact".toList) ≠ "exact".toList ∧
        pyLower (falsyOr p.type "exact".toList) ≠ "regex".toList) →
      validatePayload rx p none fresh = .error .valueError) ∧
    (∀ (rx : RegexEngine) (p : Payload) (fresh : List Char) (e : TermEntry),
      p.priority = none → validatePayload rx p none fresh = .ok e →
      e.priority = 100) := by
  constructor
  · intro rx p fresh v hp hv h1 h2 h3
    unfold validatePayload
    dsimp only
    rw [if_neg h1, if_neg h2, if_neg h3, hp]
    dsimp only
    rw [hv]
  · intro rx p fresh e hp hok
    unfold validatePayload at hok
    dsimp only at hok
    rw [hp] at hok
    dsimp only at hok
    repeat' split at hok
    all_goals cases hok
    all_goals rfl

/-- Counterexample to C8 as frozen: a payload whose priority is the string
`abc` (all other fields valid) makes validation raise the modelled
`ValueError` instead of returning a well-formed entry with priority 100. -/
theorem C8_priority_counterexample :
    validatePayload noRegex
      { src := some "ai".toList, dst := some "x".toList,
        priority := some (.str "abc".toList) }
      none "f".toList = .error .valueError ∧
    (∀ e : TermEntry,
      validatePayload noRegex
        { src := some "ai".toList, dst := some "x".toList,
          priority := some (.str "abc".toList) }
        none "f".toList ≠ .ok e) := by
  constructor
  · decide
  · intro e h
    rw [show validatePayload noRegex
        { src := some "ai".toList, dst := some "x".toList,
          priority := some (.str "abc".toList) }
        none "f".toList = .error .valueError from by decide] at h
    cases h

/-- Closed witness for C8. -/
theorem C8_priority_coercion_witness :
    validatePayload noRegex
      { src := some "ai".toList, dst := some "x".toList,
        priority := some (.str "zz".toList) }
      none "f".toList = .error .valueError ∧
    ({ id := "f".toList, src := "ai".toList, dst := "x".toList, type := .exact,
       priority := 100, notes := [], active := true } : TermEntry).priority = 100 := by
  constructor
  · exact C8_priority_coercion.1 noRegex
      { src := some "ai".toList, dst := some "x".toList,
        priority := some (.str "zz".toList) }
      "f".toList (.str "zz".toList) rfl (by decide) (by decide) (by decide) (by decide)
  · exact C8_priority_coercion.2 noRegex
      { src := some "ai".toList, dst := some "x".toList } "f".toList
      { id := "f".toList, src := "ai".toList, dst := "x".toList, type := .exact,
        priority := 100, notes := [], active := true } rfl (by decide)

theorem foldl_min_le_init : ∀ (l : List Nat) (a : Nat), l.foldl min a ≤ a := by
  intro l
  induction l with
  | nil => intro a; exact le_refl a
  | cons x l ih =>
      intro a
      rw [List.foldl_cons]
      exact le_trans (ih (min a x)) (min_le_left a x)

theorem foldl_min_zero : ∀ l : List Nat, l.foldl min 0 = 0 := by
  intro l
  induction l with
  | nil => rfl
  | cons x l ih =>
      rw [List.foldl_cons, Nat.zero_min]
      exact ih

theorem bestFuzzyAux_spec (accIdx : List (List Char × List Char)) (tok : List Char)
    (fd : Nat) :
    ∀ (cands : List TermEntry) (best : Option TermEntry) (bd : Nat), bd ≤ fd + 1 →
      bestFuzzyAux accIdx tok fd cands best bd =
        (if (cands.map (fuzzyCandDist accIdx tok fd)).foldl min bd < bd
         then (cands.find? (fun e => fuzzyCandDist accIdx tok fd e
                  = (cands.map (fuzzyCandDist accIdx tok fd)).foldl min bd),
               (cands.map (fuzzyCandDist accIdx tok fd)).foldl min bd)
         else (best, bd)) := by
  intro cands
  induction cands with
  | nil =>
      intro best bd _
      simp [bestFuzzyAux]
  | cons e rest ih =>
      intro best bd hbd
      rw [bestFuzzyAux]
      simp only [List.map_cons, List.foldl_cons]
      have hcd : fuzzyCandDist accIdx tok fd e
          = levenshteinLimited tok ((alGet accIdx e.id).getD []) fd := rfl
      by_cases hskip :
          fd < Int.natAbs ((((alGet accIdx e.id).getD []).length : Int) - (tok.length : Int))
      · rw [if_pos hskip]
        have hd : fuzzyCandDist accIdx tok fd e = fd + 1 := by
          rw [hcd]
          apply levenshteinLimited_reject
          omega
        rw [ih best bd hbd]
        have hmin : min bd (fuzzyCandDist accIdx tok fd e) = bd := by
          rw [hd]; omega
        simp only [hmin]
        by_cases hm : (List.map (fuzzyCandDist accIdx tok fd) rest).foldl min bd < bd
        · rw [if_pos hm, if_pos hm]
          have hne : ¬(fuzzyCandDist accIdx tok fd e
              = (List.map (fuzzyCandDist accIdx tok fd) rest).foldl min bd) := by
            rw [hd]; omega
          rw [List.find?_cons_of_neg _ (by simpa using hne)]
        · rw [if_neg hm, if_neg hm]
      · rw [if_neg hskip]
        by_cases hupd : levenshteinLimited tok ((alGet accIdx e.id).getD []) fd ≤ fd ∧
            levenshteinLimited tok ((alGet accIdx e.id).getD []) fd < bd
        · rw [if_pos hupd]
          by_cases hz : levenshteinLimited tok ((alGet accIdx e.id).getD []) fd = 0
          · rw [if_pos hz]
            have hmin : min bd (fuzzyCandDist accIdx tok fd e) = 0 := by
              rw [hcd, hz]; omega
            simp only [hmin, foldl_min_zero]
            have hlt : (0 : Nat) < bd := by omega
            rw [if_pos hlt]
            rw [List.find?_cons_of_pos _ (by simp [hcd, hz])]
            rw [hz]
          · rw [if_neg hz]
            rw [← hcd]
            have hdle : fuzzyCandDist accIdx tok fd e ≤ fd + 1 := by
              rw [hcd]; omega
            rw [ih (some e) _ hdle]
            have hmin : min bd (fuzzyCandDist accIdx tok fd e)
                = fuzzyCandDist accIdx tok fd e := by
              rw [hcd]; omega
            simp only [hmin]
            have hle2 := foldl_min_le_init (List.map (fuzzyCandDist accIdx tok fd) rest)
              (fuzzyCandDist accIdx tok fd e)
            by_cases hm : (List.map (fuzzyCandDist accIdx tok fd) rest).foldl min
                (fuzzyCandDist accIdx tok fd e) < fuzzyCandDist accIdx tok fd e
            · rw [if_pos hm, if_pos (by omega)]
              have hne : ¬(fuzzyCandDist accIdx tok fd e
                  = (List.map (fuzzyCandDist accIdx tok fd) rest).foldl min
                      (fuzzyCandDist accIdx tok fd e)) := by
                omega
              rw [List.find?_cons_of_neg _ (by simpa using hne)]
            · have heq : (List.map (fuzzyCandDist accIdx tok fd) rest).foldl min
                  (fuzzyCandDist accIdx tok fd e) = fuzzyCandDist accIdx tok fd e := by
                omega
              rw [if_neg hm]
              simp only [heq]
              rw [if_pos (by omega)]
              rw [List.find?_cons_of_pos _ (by simp)]
        · rw [if_neg hupd]
          have hge : bd ≤ levenshteinLimited tok ((alGet accIdx e.id).getD []) fd := by
            by_contra hlt
            push_neg at hlt
            exact hupd ⟨by omega, hlt⟩
          rw [ih best bd hbd]
          have hmin : min bd (fuzzyCandDist accIdx tok fd e) = bd := by
            rw [hcd]; omega
          simp only [hmin]
          by_cases hm : (List.map (fuzzyCandDist accIdx tok fd) rest).foldl min bd < bd
          · rw [if_pos hm, if_pos hm]
            have hne : ¬(fuzzyCandDist accIdx tok fd e
                = (List.map (fuzzyCandDist accIdx tok fd) rest).foldl min bd) := by
              rw [hcd]; omega
            rw [List.find?_cons_of_neg _ (by simpa using hne)]
          · rw [if_neg hm, if_neg hm]

/-- C9: the candidate scan of the fuzzy pass computes exactly the
declarative selection: the first candidate in canonical list order
attaining the minimal bounded distance, provided that minimum is within
the threshold, and no winner otherwise.  The zero-distance short circuit
and the strict-improvement update of the loop do not change this value, so
the winner is a deterministic function of the folded token, the distance
bound and the ordered candidate list. -/
theorem C9_fuzzy_selection :
    ∀ (accIdx : List (List Char × List Char)) (tok : List Char) (fd : Nat)
      (cands : List TermEntry),
      bestFuzzyAux accIdx tok fd cands none (fd + 1)
        = fuzzySelectSpec accIdx tok fd cands := by
  intro accIdx tok fd cands
  rw [bestFuzzyAux_spec accIdx tok fd cands none (fd + 1) (le_refl _)]
  unfold fuzzySelectSpec
  dsimp only
  by_cases h : (cands.map (fuzzyCandDist accIdx tok fd)).foldl min (fd + 1) ≤ fd
  · rw [if_pos (by omega), if_pos h]
  · rw [if_neg (by omega), if_neg h]

theorem alGet_append {K V : Type} [DecidableEq K] (l m : List (K × V)) (k : K) (v : V)
    (h : alGet l k = some v) : alGet (l ++ m) k = some v := by
  induction l with
  | nil => simp [alGet] at h
  | cons p rest ih =>
      obtain ⟨k0, v0⟩ := p
      rw [List.cons_append]
      rw [alGet] at h ⊢
      by_cases hk : k0 = k
      · rw [if_pos hk] at h ⊢; exact h
      · rw [if_neg hk] at h ⊢; exact ih h

theorem compileExact_cache_mono (cache : List ((List Char × Bool) × List Char))
    (e : TermEntry) (cs : Bool) (k : List Char × Bool) (v : List Char)
    (h : alGet cache k = some v) : alGet (compileExact cache e cs).1 k = some v := by
  unfold compileExact
  cases hg : alGet cache (e.id, cs) with
  | some pat => exact h
  | none => exact alGet_append _ _ _ _ h

theorem compileRegex_cache_mono (cache : List ((List Char × Bool) × List Char))
    (e : TermEntry) (cs : Bool) (k : List Char × Bool) (v : List Char)
    (h : alGet cache k = some v) : alGet (compileRegex cache e cs).1 k = some v := by
  unfold compileRegex
  cases hg : alGet cache (e.id, cs) with
  | some pat => exact h
  | none => exact alGet_append _ _ _ _ h

theorem replaceStep_cache_mono (rx : RegexEngine) (allowed : List (List Char))
    (cs er : Bool)
    (acc : List Char × List Change ×
      List ((List Char × Bool) × List Char) × List ((List Char × Bool) × List Char))
    (e : TermEntry) (k : List Char × Bool) (v : List Char) :
    (alGet acc.2.2.1 k = some v →
      alGet (replaceStep rx allowed cs er acc e).2.2.1 k = some v) ∧
    (alGet acc.2.2.2 k = some v →
      alGet (replaceStep rx allowed cs er acc e).2.2.2 k = some v) := by
  obtain ⟨w, chs, cE, cR⟩ := acc
  unfold replaceStep
  dsimp only
  by_cases h1 : e.active = false
  · rw [if_pos h1]; exact ⟨fun h => h, fun h => h⟩
  · rw [if_neg h1]
    by_cases h2 : e.type = .exact
    · rw [if_pos h2]
      by_cases h3 : allowed.contains e.id = false
      · rw [if_pos h3]; exact ⟨fun h => h, fun h => h⟩
      · rw [if_neg h3]
        dsimp only
        exact ⟨fun h => compileExact_cache_mono cE e cs k v h, fun h => h⟩
    · rw [if_neg h2]
      by_cases h4 : er = false
      · rw [if_pos h4]; exact ⟨fun h => h, fun h => h⟩
      · rw [if_neg h4]
        dsimp only
        exact ⟨fun h => h, fun h => compileRegex_cache_mono cR e cs k v h⟩

theorem replaceFold_cache_mono (rx : RegexEngine) (allowed : List (List Char))
    (cs er : Bool) :
    ∀ (l : List TermEntry)
      (acc : List Char × List Change ×
        List ((List Char × Bool) × List Char) × List ((List Char × Bool) × List Char))
      (k : List Char × Bool) (v : List Char),
      (alGet acc.2.2.1 k = some v →
        alGet (l.foldl (replaceStep rx allowed cs er) acc).2.2.1 k = some v) ∧
      (alGet acc.2.2.2 k = some v →
        alGet (l.foldl (replaceStep rx allowed cs er) acc).2.2.2 k = some v) := by
  intro l
  induction l with
  | nil => intro acc k v; exact ⟨fun h => h, fun h => h⟩
  | cons e rest ih =>
      intro acc k v
      rw [List.foldl_cons]
      constructor
      · intro h
        exact (ih (replaceStep rx allowed cs er acc e) k v).1
          ((replaceStep_cache_mono rx allowed cs er acc e k v).1 h)
      · intro h
        exact (ih (replaceStep rx allowed cs er acc e) k v).2
          ((replaceStep_cache_mono rx allowed cs er acc e k v).2 h)

/-- C10: a `replace` call leaves every piece of store state unchanged,
entries, ordered entries, exact and accent indexes, fuzzy candidate list,
fuzzy-enabled flag, history and on-disk document alike; the only fields of
the returned store that can differ are the two compiled-pattern caches,
and those only gain entries: every cached pattern present before the call
is still cached, unchanged, afterwards. -/
theorem C10_replace_frame :
    ∀ (rx : RegexEngine) (s : Store) (text : List Char) (cs er ef : Bool) (fd : Int),
      (Store.replace rx s text cs er ef fd).1.entries = s.entries ∧
      (Store.replace rx s text cs er ef fd).1.orderedEntries = s.orderedEntries ∧
      (Store.replace rx s text cs er ef fd).1.exactIndex = s.exactIndex ∧
      (Store.replace rx s text cs er ef fd).1.accentIndex = s.accentIndex ∧
      (Store.replace rx s text cs er ef fd).1.fuzzyExactEntries = s.fuzzyExactEntries ∧
      (Store.replace rx s text cs er ef fd).1.fuzzyEnabled = s.fuzzyEnabled ∧
      (Store.replace rx s text cs er ef fd).1.history = s.history ∧
      (Store.replace rx s text cs er ef fd).1.disk = s.disk ∧
      (Store.replace rx s text cs er ef fd).1.maxEntries = s.maxEntries ∧
      (∀ (k : List Char × Bool) (v : List Char),
        alGet s.compiledExact k = some v →
        alGet (Store.replace rx s text cs er ef fd).1.compiledExact k = some v) ∧
      (∀ (k : List Char × Bool) (v : List Char),
        alGet s.compiledRegex k = some v →
        alGet (Store.replace rx s text cs er ef fd).1.compiledRegex k = some v) := by
  intro rx s text cs er ef fd
  unfold Store.replace
  by_cases ht : text = []
  · rw [if_pos ht]
    exact ⟨rfl, rfl, rfl, rfl, rfl, rfl, rfl, rfl, rfl,
      fun k v h => h, fun k v h => h⟩
  · rw [if_neg ht]
    dsimp only
    refine ⟨rfl, rfl, rfl, rfl, rfl, rfl, rfl, rfl, rfl, ?_, ?_⟩
    · intro k v h
      exact (replaceFold_cache_mono rx (collectExactIds s text) cs er s.orderedEntries
        (text, [], s.compiledExact, s.compiledRegex) k v).1 h
    · intro k v h
      exact (replaceFold_cache_mono rx (collectExactIds s text) cs er s.orderedEntries
        (text, [], s.compiledExact, s.compiledRegex) k v).2 h

/-- Closed witness for C10: a concrete replace call preserves a
pre-existing cached pattern. -/
theorem C10_replace_frame_witness :
    alGet ({ storeAi with
      compiledExact := [(("e9".toList, false), "zz".toList)] } : Store).compiledExact
        ("e9".toList, false) = some "zz".toList ∧
    alGet (Store.replace noRegex
      ({ storeAi with compiledExact := [(("e9".toList, false), "zz".toList)] })
      "ai is great".toList false true false 1).1.compiledExact
        ("e9".toList, false) = some "zz".toList := by
  constructor
  · decide
  · exact (C10_replace_frame noRegex
      ({ storeAi with compiledExact := [(("e9".toList, false), "zz".toList)] })
      "ai is great".toList false true false 1).2.2.2.2.2.2.2.2.2.1
      ("e9".toList, false) "zz".toList (by decide)

theorem bucketInsert_self :
    ∀ (bs : List (Nat × List TermEntry)) (n : Nat) (e : TermEntry),
      ∃ p ∈ bucketInsert bs n e, p.1 = n ∧ e ∈ p.2 := by
  intro bs
  induction bs with
  | nil =>
      intro n e
      exact ⟨(n, [e]), by simp [bucketInsert]⟩
  | cons q rest ih =>
      intro n e
      obtain ⟨m, l⟩ := q
      rw [bucketInsert]
      by_cases hm : m = n
      · rw [if_pos hm]
        exact ⟨(m, l ++ [e]), by simp, hm, by simp⟩
      · rw [if_neg hm]
        obtain ⟨p, hp, h1, h2⟩ := ih n e
        exact ⟨p, by simp [hp], h1, h2⟩

theorem bucketInsert_mono :
    ∀ (bs : List (Nat × List TermEntry)) (n2 : Nat) (e2 : TermEntry) (n : Nat)
      (e : TermEntry),
      (∃ p ∈ bs, p.1 = n ∧ e ∈ p.2) →
      ∃ p ∈ bucketInsert bs n2 e2, p.1 = n ∧ e ∈ p.2 := by
  intro bs
  induction bs with
  | nil => intro n2 e2 n e h; simp at h
  | cons q rest ih =>
      intro n2 e2 n e h
      obtain ⟨m, l⟩ := q
      rw [bucketInsert]
      simp only [List.mem_cons] at h
      by_cases hm : m = n2
      · rw [if_pos hm]
        rcases h with ⟨p, hp | hp, h1, h2⟩
        · subst hp
          exact ⟨(m, l ++ [e2]), by simp, h1, by simp [h2]⟩
        · exact ⟨p, by simp [hp], h1, h2⟩
      · rw [if_neg hm]
        rcases h with ⟨p, hp | hp, h1, h2⟩
        · subst hp
          exact ⟨(m, l), by simp, h1, h2⟩
        · obtain ⟨p2, hp2, g1, g2⟩ := ih n2 e2 n e ⟨p, hp, h1, h2⟩
          exact ⟨p2, by simp [hp2], g1, g2⟩

theorem exactIndexInsert_self :
    ∀ (idx : List (List Char × List (Nat × List TermEntry))) (key : List Char)
      (n : Nat) (e : TermEntry),
      ∃ bs, alGet (exactIndexInsert idx key n e) key = some bs ∧
        ∃ p ∈ bs, p.1 = n ∧ e ∈ p.2 := by
  intro idx
  induction idx with
  | nil =>
      intro key n e
      refine ⟨bucketInsert [] n e, ?_, bucketInsert_self [] n e⟩
      simp [exactIndexInsert, alGet]
  | cons q rest ih =>
      intro key n e
      obtain ⟨d, bs0⟩ := q
      rw [exactIndexInsert]
      by_cases hd : d = key
      · rw [if_pos hd]
        refine ⟨bucketInsert bs0 n e, ?_, bucketInsert_self bs0 n e⟩
        rw [alGet, if_pos hd]
      · rw [if_neg hd]
        obtain ⟨bs, h1, h2⟩ := ih key n e
        refine ⟨bs, ?_, h2⟩
        rw [alGet, if_neg hd]
        exact h1

theorem exactIndexInsert_mono :
    ∀ (idx : List (List Char × List (Nat × List TermEntry))) (key2 : List Char)
      (n2 : Nat) (e2 : TermEntry) (key : List Char) (n : Nat) (e : TermEntry),
      (∃ bs, alGet idx key = some bs ∧ ∃ p ∈ bs, p.1 = n ∧ e ∈ p.2) →
      ∃ bs, alGet (exactIndexInsert idx key2 n2 e2) key = some bs ∧
        ∃ p ∈ bs, p.1 = n ∧ e ∈ p.2 := by
  intro idx
  induction idx with
  | nil =>
      intro key2 n2 e2 key n e h
      obtain ⟨bs, h1, _⟩ := h
      simp [alGet] at h1
  | cons q rest ih =>
      intro key2 n2 e2 key n e h
      obtain ⟨d, bs0⟩ := q
      obtain ⟨bs, h1, h2⟩ := h
      rw [alGet] at h1
      rw [exactIndexInsert]
      by_cases hd2 : d = key2
      · rw [if_pos hd2]
        by_cases hd : d = key
        · rw [if_pos hd] at h1
          injection h1 with h1e
          subst h1e
          refine ⟨bucketInsert bs0 n2 e2, ?_, bucketInsert_mono bs0 n2 e2 n e h2⟩
          rw [alGet, if_pos hd]
        · rw [if_neg hd] at h1
          refine ⟨bs, ?_, h2⟩
          rw [alGet, if_neg hd]
          exact h1
      · rw [if_neg hd2]
        by_cases hd : d = key
        · rw [if_pos hd] at h1
          injection h1 with h1e
          subst h1e
          refine ⟨bs0, ?_, h2⟩
          rw [alGet, if_pos hd]
        · rw [if_neg hd] at h1
          obtain ⟨bs2, g1, g2⟩ := ih key2 n2 e2 key n e ⟨bs, h1, h2⟩
          refine ⟨bs2, ?_, g2⟩
          rw [alGet, if_neg hd]
          exact g1

theorem rebuildStep_fst (acc : List (List Char × List (Nat × List TermEntry)) ×
    List (List Char × List Char) × List TermEntry) (e : TermEntry) :
    (rebuildStep acc e).1 =
      if e.type = .exact then
        exactIndexInsert acc.1 (foldLower (e.src.take 1)) e.src.length e
      else acc.1 := by
  obtain ⟨ei, ai, fz⟩ := acc
  unfold rebuildStep
  dsimp only
  by_cases h : e.type = .exact
  · rw [if_pos h, if_pos h]
  · rw [if_neg h, if_neg h]

theorem rebuildFold_mono :
    ∀ (l : List TermEntry)
      (acc : List (List Char × List (Nat × List TermEntry)) ×
        List (List Char × List Char) × List TermEntry)
      (key : List Char) (n : Nat) (e : TermEntry),
      (∃ bs, alGet acc.1 key = some bs ∧ ∃ p ∈ bs, p.1 = n ∧ e ∈ p.2) →
      ∃ bs, alGet (l.foldl rebuildStep acc).1 key = some bs ∧
        ∃ p ∈ bs, p.1 = n ∧ e ∈ p.2 := by
  intro l
  induction l with
  | nil => intro acc key n e h; exact h
  | cons x rest ih =>
      intro acc key n e h
      rw [List.foldl_cons]
      apply ih
      rw [rebuildStep_fst]
      by_cases hx : x.type = .exact
      · rw [if_pos hx]
        exact exactIndexInsert_mono acc.1 _ _ _ key n e h
      · rw [if_neg hx]
        exact h

theorem rebuildFold_complete :
    ∀ (l : List TermEntry)
      (acc : List (List Char × List (Nat × List TermEntry)) ×
        List (List Char × List Char) × List TermEntry)
      (e : TermEntry),
      e ∈ l → e.type = .exact →
      ∃ bs, alGet (l.foldl rebuildStep acc).1 (foldLower (e.src.take 1)) = some bs ∧
        ∃ p ∈ bs, p.1 = e.src.length ∧ e ∈ p.2 := by
  intro l
  induction l with
  | nil => intro acc e h; simp at h
  | cons x rest ih =>
      intro acc e hmem hex
      rw [List.foldl_cons]
      rcases List.mem_cons.mp hmem with rfl | hmem2
      · apply rebuildFold_mono
        rw [rebuildStep_fst, if_pos hex]
        exact exactIndexInsert_self acc.1 _ _ e
      · exact ih _ e hmem2 hex

theorem collectBucketFold_mono (textLen : Nat) :
    ∀ (bs : List (Nat × List TermEntry)) (acc : List (List Char)) (x : List Char),
      x ∈ acc → x ∈ bs.foldl (collectBucketStep textLen) acc := by
  intro bs
  induction bs with
  | nil => intro acc x h; exact h
  | cons b rest ih =>
      intro acc x h
      rw [List.foldl_cons]
      apply ih
      unfold collectBucketStep
      by_cases hb : textLen < b.1
      · rw [if_pos hb]; exact h
      · rw [if_neg hb]; exact List.mem_append_left _ h

theorem collectBucketFold_hit (textLen : Nat) :
    ∀ (bs : List (Nat × List TermEntry)) (acc : List (List Char))
      (p : Nat × List TermEntry) (e : TermEntry),
      p ∈ bs → e ∈ p.2 → ¬(textLen < p.1) →
      e.id ∈ bs.foldl (collectBucketStep textLen) acc := by
  intro bs
  induction bs with
  | nil => intro acc p e h; simp at h
  | cons b rest ih =>
      intro acc p e hp he hlen
      rw [List.foldl_cons]
      rcases List.mem_cons.mp hp with rfl | hp2
      · apply collectBucketFold_mono
        unfold collectBucketStep
        rw [if_neg hlen]
        apply List.mem_append_right
        exact List.mem_map.mpr ⟨e, he, rfl⟩
      · exact ih _ p e hp2 he hlen

theorem collectStep_mono (idx : List (List Char × List (Nat × List TermEntry)))
    (textLen : Nat) (cands : List (List Char)) (ch : Char) (x : List Char)
    (h : x ∈ cands) : x ∈ collectStep idx textLen cands ch := by
  unfold collectStep
  cases hg : alGet idx [ch] with
  | none => exact h
  | some buckets =>
      show x ∈ if buckets = [] then cands else buckets.foldl (collectBucketStep textLen) cands
      by_cases hb : buckets = []
      · rw [if_pos hb]; exact h
      · rw [if_neg hb]
        exact collectBucketFold_mono textLen buckets cands x h

theorem collectFold_mono (idx : List (List Char × List (Nat × List TermEntry)))
    (textLen : Nat) :
    ∀ (chars : List Char) (acc : List (List Char)) (x : List Char),
      x ∈ acc → x ∈ chars.foldl (collectStep idx textLen) acc := by
  intro chars
  induction chars with
  | nil => intro acc x h; exact h
  | cons c rest ih =>
      intro acc x h
      rw [List.foldl_cons]
      exact ih _ x (collectStep_mono idx textLen acc c x h)

theorem collectFold_hit (idx : List (List Char × List (Nat × List TermEntry)))
    (textLen : Nat) :
    ∀ (chars : List Char) (acc : List (List Char)) (ch : Char) (bs : List (Nat × List TermEntry))
      (p : Nat × List TermEntry) (e : TermEntry),
      ch ∈ chars → alGet idx [ch] = some bs → p ∈ bs → e ∈ p.2 → ¬(textLen < p.1) →
      e.id ∈ chars.foldl (collectStep idx textLen) acc := by
  intro chars
  induction chars with
  | nil => intro acc ch bs p e h; simp at h
  | cons c rest ih =>
      intro acc ch bs p e hch hg hp he hlen
      rw [List.foldl_cons]
      rcases List.mem_cons.mp hch with rfl | hch2
      · apply collectFold_mono
        unfold collectStep
        rw [hg]
        show e.id ∈ if bs = [] then acc else bs.foldl (collectBucketStep textLen) acc
        have hbne : bs ≠ [] := by
          intro hnil
          subst hnil
          simp at hp
        rw [if_neg hbne]
        exact collectBucketFold_hit textLen bs acc p e hp he hlen
      · exact ih _ ch bs p e hch2 hg hp he hlen

/-- Folded lowercase of a cons cell whose head is not the dotted capital
`İ`: the head lowers to a single character and folds pointwise. -/
theorem foldLower_cons_ne (c : Char) (rest : List Char) (h : c ≠ 'İ') :
    foldLower (c :: rest) = accentFoldChar (pyLowerChar c) :: foldLower rest := by
  unfold foldLower pyLower stripAccents
  rw [List.flatMap_cons]
  unfold pyLowerCharFull
  rw [if_neg h]
  rfl

/-- On strings free of `İ` the folded lowercase keeps the length. -/
theorem foldLower_length_ne : ∀ (s : List Char), 'İ' ∉ s →
    (foldLower s).length = s.length := by
  intro s
  induction s with
  | nil => intro _; rfl
  | cons c rest ih =>
      intro h
      have hc : c ≠ 'İ' := by
        intro he
        subst he
        exact h (List.mem_cons_self _ _)
      rw [foldLower_cons_ne c rest hc]
      simp only [List.length_cons]
      rw [ih (fun hm => h (List.mem_cons_of_mem c hm))]

/-- Every character lowers to at least one character, so folding never
shortens a string. -/
theorem foldLower_length_ge : ∀ (s : List Char), s.length ≤ (foldLower s).length := by
  intro s
  induction s with
  | nil => exact Nat.le_refl 0
  | cons c rest ih =>
      have hsplit : foldLower (c :: rest) =
          stripAccents (pyLowerCharFull c) ++ foldLower rest := by
        unfold foldLower pyLower stripAccents
        rw [List.flatMap_cons, List.map_append]
      rw [hsplit, List.length_append]
      have h1 : 1 ≤ (stripAccents (pyLowerCharFull c)).length := by
        unfold pyLowerCharFull
        by_cases hc : c = 'İ'
        · rw [if_pos hc]; decide
        · rw [if_neg hc]; simp [stripAccents]
      simp only [List.length_cons]
      omega

/-- C2 (amended): away from the dotted capital `İ` the candidate prefilter
never causes a false negative.  For every store state, every stored active
exact entry whose folded lowered source occurs inside the folded lowered
text is collected into the allowed id set of the prefilter after the
indexes are rebuilt, provided the source does not begin with `İ` and the
text does not contain `İ`: its first folded character occurs among the
folded text characters, its length bucket passes the length test, and the
rebuilt exact index holds the entry under exactly that key.  For an
`İ`-initial source the guarantee fails (`C2_prefilter_counterexample`):
CPython's `str.lower` expands `İ` to the two characters `i` + U+0307, so
the bucket key built in `_rebuild_indexes` is a two-character string that
no single folded text character of `_collect_exact_ids` ever equals. -/
theorem C2_prefilter_guarded :
    ∀ (s : Store) (e : TermEntry) (text : List Char),
      e ∈ s.entries → e.type = .exact → e.active = true → e.src ≠ [] →
      e.src.head? ≠ some 'İ' → 'İ' ∉ text →
      foldLower e.src <:+: foldLower text →
      e.id ∈ collectExactIds (rebuildIndexes s) text := by
  intro s e text hmem hex _ hne hhd htxtI hinf
  obtain ⟨c0, srcRest, hsrc⟩ : ∃ c0 srcRest, e.src = c0 :: srcRest := by
    cases hs : e.src with
    | nil => exact absurd hs hne
    | cons a l => exact ⟨a, l, rfl⟩
  have hc0 : c0 ≠ 'İ' := by
    intro he
    apply hhd
    rw [hsrc, he]
    rfl
  have hkey : foldLower (e.src.take 1) = [accentFoldChar (pyLowerChar c0)] := by
    rw [hsrc]
    have ht : (c0 :: srcRest).take 1 = [c0] := rfl
    rw [ht, foldLower_cons_ne c0 [] hc0]
    rfl
  have hmem2 : e ∈ List.insertionSort entryLe s.entries :=
    (List.perm_insertionSort entryLe s.entries).mem_iff.mpr hmem
  obtain ⟨bs, hbs, p, hp, hp1, hp2⟩ :=
    rebuildFold_complete (List.insertionSort entryLe s.entries) ([], [], []) e hmem2 hex
  have hidx : (rebuildIndexes s).exactIndex
      = ((List.insertionSort entryLe s.entries).foldl rebuildStep ([], [], [])).1 := rfl
  have hhead : accentFoldChar (pyLowerChar c0) ∈ foldLower text := by
    obtain ⟨pre, suf, hsplit⟩ := hinf
    have hm : accentFoldChar (pyLowerChar c0) ∈ foldLower e.src := by
      rw [hsrc, foldLower_cons_ne c0 srcRest hc0]
      exact List.mem_cons_self _ _
    rw [← hsplit]
    simp only [List.mem_append]
    exact Or.inl (Or.inr hm)
  have hlen : e.src.length ≤ text.length := by
    have h1 := hinf.length_le
    have h2 : e.src.length ≤ (foldLower e.src).length := foldLower_length_ge e.src
    have h3 : (foldLower text).length = text.length := foldLower_length_ne text htxtI
    omega
  unfold collectExactIds
  apply collectFold_hit (rebuildIndexes s).exactIndex text.length (foldLower text) []
    (accentFoldChar (pyLowerChar c0)) bs p e hhead
  · rw [hidx, ← hkey]
    exact hbs
  · exact hp
  · exact hp2
  · rw [hp1]
    omega

/-- Closed witness for C2: the low-priority `ai` entry is collected for the
text `ai is great`. -/
theorem C2_prefilter_guarded_witness :
    entryAiLow.id ∈ collectExactIds (rebuildIndexes storeAi) "ai is great".toList := by
  apply C2_prefilter_guarded storeAi entryAiLow "ai is great".toList
  · decide
  · rfl
  · rfl
  · decide
  · decide
  · decide
  · exact ⟨[], " is great".toList, by decide⟩

/-- C2 counterexample: the stored active exact entry `İş` satisfies every
hypothesis of the original claim — its folded lowered source occurs at the
very head of the folded lowered text `İş var` — yet the prefilter misses
it.  The rebuilt index holds the entry only under the two-character bucket
key `i` + U+0307 (the CPython lowercase of `İ`), which no single folded
text character equals, so the entry id is absent from the allowed set: a
real prefilter false negative. -/
theorem C2_prefilter_counterexample :
    entryIs ∈ storeIs.entries ∧ entryIs.type = .exact ∧
      entryIs.active = true ∧ entryIs.src ≠ [] ∧
      foldLower entryIs.src <:+: foldLower "İş var".toList ∧
      entryIs.id ∉ collectExactIds (rebuildIndexes storeIs) "İş var".toList := by
  refine ⟨by decide, rfl, rfl, by decide, ⟨[], " var".toList, by decide⟩, by decide⟩

-- ## Text normalizer : idempotence development (claim C5) ##

theorem noPair_cons_cons (bad : Char → Char → Bool) (a b : Char) (l : List Char) :
    noPair bad (a :: b :: l) = (!bad a b && noPair bad (b :: l)) := rfl

theorem noPair_tail (bad : Char → Char → Bool) (c : Char) (l : List Char)
    (h : noPair bad (c :: l) = true) : noPair bad l = true := by
  cases l with
  | nil => rfl
  | cons b l =>
      rw [noPair_cons_cons, Bool.and_eq_true] at h
      exact h.2

theorem noPair_head (bad : Char → Char → Bool) (c y : Char) (l : List Char)
    (h : noPair bad (c :: l) = true) (hy : l.head? = some y) : bad c y = false := by
  cases l with
  | nil => cases hy
  | cons b l =>
      cases hy
      rw [noPair_cons_cons, Bool.and_eq_true] at h
      have := h.1
      simp at this
      exact this

theorem noPair_cons (bad : Char → Char → Bool) (c : Char) (l : List Char)
    (h1 : ∀ y, l.head? = some y → bad c y = false)
    (h2 : noPair bad l = true) : noPair bad (c :: l) = true := by
  cases l with
  | nil => rfl
  | cons b l =>
      rw [noPair_cons_cons]
      have := h1 b rfl
      simp [this, h2]

theorem noPair_mono (bad1 bad2 : Char → Char → Bool)
    (h : ∀ a b, bad2 a b = true → bad1 a b = true) :
    ∀ l, noPair bad1 l = true → noPair bad2 l = true := by
  intro l
  induction l with
  | nil => intro; rfl
  | cons c l ih =>
      intro hl
      exact noPair_cons _ _ _
        (fun y hy => by
          have h1 := noPair_head _ _ _ _ hl hy
          cases h2 : bad2 c y
          · rfl
          · rw [h _ _ h2] at h1; cases h1)
        (ih (noPair_tail _ _ _ hl))

theorem noPair_suffix (bad : Char → Char → Bool) (l₂ l₁ : List Char)
    (hs : l₂ <:+ l₁) (h : noPair bad l₁ = true) : noPair bad l₂ = true := by
  obtain ⟨t, rfl⟩ := hs
  induction t with
  | nil => exact h
  | cons c t ih => exact ih (noPair_tail _ _ _ h)

theorem noPair_append_left (bad : Char → Char → Bool) :
    ∀ l t, noPair bad (l ++ t) = true → noPair bad l = true := by
  intro l
  induction l with
  | nil => intro t _; rfl
  | cons c l ih =>
      intro t h
      cases l with
      | nil => rfl
      | cons b l2 =>
          rw [List.cons_append] at h
          rw [List.cons_append] at h
          rw [noPair_cons_cons, Bool.and_eq_true] at h
          rw [noPair_cons_cons]
          rw [← List.cons_append] at h
          simp [h.1, ih t h.2]

theorem noPair_within (bad : Char → Char → Bool) (l₂ l₁ : List Char)
    (hs : l₂ <:+: l₁) (h : noPair bad l₁ = true) : noPair bad l₂ = true := by
  obtain ⟨s, t, rfl⟩ := hs
  have h1 : noPair bad (l₂ ++ t) = true := by
    apply noPair_suffix _ _ _ _ h
    exact ⟨s, by simp⟩
  exact noPair_append_left _ _ _ h1

theorem no4dots_tail (c : Char) (l : List Char)
    (h : no4dots (c :: l) = true) : no4dots l = true := by
  match l with
  | [] => rfl
  | [a] => rfl
  | [a, b] => rfl
  | a :: b :: d :: rest =>
      rw [show no4dots (c :: a :: b :: d :: rest) =
        (!(c == '.' && a == '.' && b == '.' && d == '.') &&
          no4dots (a :: b :: d :: rest)) from rfl] at h
      rw [Bool.and_eq_true] at h
      exact h.2

theorem no4dots_suffix (l₂ l₁ : List Char)
    (hs : l₂ <:+ l₁) (h : no4dots l₁ = true) : no4dots l₂ = true := by
  obtain ⟨t, rfl⟩ := hs
  induction t with
  | nil => exact h
  | cons c t ih => exact ih (no4dots_tail _ _ h)

theorem punct_not_space {c : Char} (h : isPunctChar c = true) : pyIsSpace c = false := by
  simp only [isPunctChar, Bool.or_eq_true, decide_eq_true_eq] at h
  rcases h with (((((h | h) | h) | h) | h) | h) <;> subst h <;> decide

theorem punct_ne_space {c : Char} (h : isPunctChar c = true) : (c == ' ') = false := by
  simp only [isPunctChar, Bool.or_eq_true, decide_eq_true_eq] at h
  rcases h with (((((h | h) | h) | h) | h) | h) <;> subst h <;> decide

theorem quote_not_space {c : Char} (h : isQuoteChar c = true) : pyIsSpace c = false := by
  simp only [isQuoteChar, Bool.or_eq_true, decide_eq_true_eq] at h
  rcases h with (h | h) <;> subst h <;> decide

theorem quote_not_punct {c : Char} (h : isQuoteChar c = true) : isPunctChar c = false := by
  simp only [isQuoteChar, Bool.or_eq_true, decide_eq_true_eq] at h
  rcases h with (h | h) <;> subst h <;> decide

theorem bang_punct {c : Char} (h : isBangChar c = true) : isPunctChar c = true := by
  simp only [isBangChar, Bool.or_eq_true, decide_eq_true_eq] at h
  rcases h with (h | h) <;> subst h <;> decide

theorem sep_punct {c : Char} (h : isSepChar c = true) : isPunctChar c = true := by
  simp only [isSepChar, Bool.or_eq_true, decide_eq_true_eq] at h
  rcases h with (h | h) <;> subst h <;> decide

theorem digit_not_space {c : Char} (h : c.isDigit = true) : pyIsSpace c = false := by
  cases hp : pyIsSpace c
  · rfl
  · exfalso
    simp only [pyIsSpace, Bool.or_eq_true, decide_eq_true_eq] at hp
    rcases hp with (((((e | e) | e) | e) | e) | e) <;> subst e <;> exact absurd h (by decide)

theorem digit_not_punct {c : Char} (h : c.isDigit = true) : isPunctChar c = false := by
  cases hp : isPunctChar c
  · rfl
  · exfalso
    simp only [isPunctChar, Bool.or_eq_true, decide_eq_true_eq] at hp
    rcases hp with (((((e | e) | e) | e) | e) | e) <;> subst e <;> exact absurd h (by decide)

theorem digit_not_follower {c : Char} (h : c.isDigit = true) : followerSet c = false := by
  cases hf : followerSet c
  · rfl
  · exfalso
    simp only [followerSet, isPunctChar, isQuoteChar, Bool.or_eq_true, decide_eq_true_eq,
      beq_iff_eq] at hf
    rcases hf with (((e | (((((e | e) | e) | e) | e) | e)) | e) | (e | e)) <;> subst e <;>
      exact absurd h (by decide)

theorem wsOkC_ne {c : Char} (h : wsOkC c = true) (hne : (c == ' ') = false) :
    pyIsSpace c = false := by
  simp only [wsOkC, Bool.or_eq_true, Bool.not_eq_true'] at h
  rcases h with h | h
  · exact h
  · rw [h] at hne; cases hne

theorem wsOk_head (l : List Char) (c : Char) (h : wsOkB l = true)
    (hc : l.head? = some c) : wsOkC c = true := by
  cases l with
  | nil => cases hc
  | cons a l =>
      cases hc
      simp only [wsOkB, List.all_cons, Bool.and_eq_true] at h
      exact h.1

theorem wsOk_tail (c : Char) (l : List Char) (h : wsOkB (c :: l) = true) :
    wsOkB l = true := by
  simp only [wsOkB, List.all_cons, Bool.and_eq_true] at h
  exact h.2

theorem wCollapse_nil : wCollapse [] = [] := by rw [wCollapse]

theorem wCollapse_ws {c : Char} (l : List Char) (h : pyIsSpace c = true) :
    wCollapse (c :: l) = ' ' :: wCollapse (l.dropWhile pyIsSpace) := by
  rw [wCollapse, if_pos h]

theorem wCollapse_nonws {c : Char} (l : List Char) (h : pyIsSpace c = false) :
    wCollapse (c :: l) = c :: wCollapse l := by
  rw [wCollapse, if_neg (by simp [h])]

theorem dScan_nil : dScan [] = [] := by rw [dScan]

theorem dScan_digit_some {c s d2 : Char} {rest r4 : List Char}
    (hc : c.isDigit = true) (hd : dTry rest = some (s, d2, r4)) :
    dScan (c :: rest) = c :: s :: d2 :: dScan r4 := by
  rw [dScan, if_pos hc]
  split
  · rename_i heq
    rw [hd] at heq
    cases heq
    rfl
  · rename_i heq
    rw [hd] at heq
    cases heq

theorem dScan_digit_none {c : Char} {rest : List Char}
    (hc : c.isDigit = true) (hd : dTry rest = none) :
    dScan (c :: rest) = c :: dScan rest := by
  rw [dScan, if_pos hc]
  split
  · rename_i heq
    rw [hd] at heq
    cases heq
  · rfl

theorem dScan_nondigit {c : Char} {rest : List Char} (hc : c.isDigit = false) :
    dScan (c :: rest) = c :: dScan rest := by
  rw [dScan, if_neg (by simp [hc])]

theorem pScan_nil : pScan [] = [] := by rw [pScan]

theorem pScan_punct {c : Char} (l : List Char) (hw : pyIsSpace c = false)
    (hp : isPunctChar c = true) :
    pScan (c :: l) = c :: ' ' :: pScan (l.dropWhile pyIsSpace) := by
  rw [pScan]
  have hdw : (c :: l).dropWhile pyIsSpace = c :: l := by
    rw [List.dropWhile_cons_of_neg (by simp [hw])]
  split
  · rename_i p r2 heq
    rw [hdw] at heq
    cases heq
    rw [if_pos hp]
  · rename_i heq
    rw [hdw] at heq
    cases heq

theorem pScan_nonpunct {c : Char} (l : List Char) (hw : pyIsSpace c = false)
    (hp : isPunctChar c = false) :
    pScan (c :: l) = c :: pScan l := by
  rw [pScan]
  have hdw : (c :: l).dropWhile pyIsSpace = c :: l := by
    rw [List.dropWhile_cons_of_neg (by simp [hw])]
  split
  · rename_i p r2 heq
    rw [hdw] at heq
    cases heq
    rw [if_neg (by simp [hp])]
    simp [hw]
  · rfl

theorem pScan_ws_punct {c p : Char} {l r2 : List Char} (hw : pyIsSpace c = true)
    (hm : l.dropWhile pyIsSpace = p :: r2) (hp : isPunctChar p = true) :
    pScan (c :: l) = p :: ' ' :: pScan (r2.dropWhile pyIsSpace) := by
  rw [pScan]
  have hdw : (c :: l).dropWhile pyIsSpace = p :: r2 := by
    rw [List.dropWhile_cons_of_pos hw, hm]
  split
  · rename_i p' r2' heq
    rw [hdw] at heq
    cases heq
    rw [if_pos hp]
  · rename_i heq
    rw [hdw] at heq
    cases heq

theorem pScan_ws_other {c : Char} {l : List Char} (hw : pyIsSpace c = true)
    (hm : ∀ p, (l.dropWhile pyIsSpace).head? = some p → isPunctChar p = false) :
    pScan (c :: l) = c :: pScan l := by
  rw [pScan]
  have hdw : (c :: l).dropWhile pyIsSpace = l.dropWhile pyIsSpace := by
    rw [List.dropWhile_cons_of_pos hw]
  split
  · rename_i p r2 heq
    rw [hdw] at heq
    have hp := hm p (by rw [heq]; rfl)
    rw [if_neg (by simp [hp])]
    split <;> rfl
  · rfl

theorem replacePair_nil (a b r : Char) : replacePair a b r [] = [] := by rw [replacePair]

theorem replacePair_single (a b r c : Char) : replacePair a b r [c] = [c] := by
  rw [replacePair]

theorem replacePair_pair (a b r : Char) (l : List Char) :
    replacePair a b r (a :: b :: l) = r :: replacePair a b r l := by
  rw [replacePair, if_pos ⟨rfl, rfl⟩]

theorem replacePair_step {a b : Char} (r x : Char) {l : List Char}
    (h : ¬(x = a ∧ l.head? = some b)) :
    replacePair a b r (x :: l) = x :: replacePair a b r l := by
  cases l with
  | nil => simp [replacePair_single, replacePair_nil]
  | cons y l2 =>
      rw [replacePair]
      rw [if_neg (by
        intro hc
        exact h ⟨hc.1, by rw [hc.2]; rfl⟩)]

theorem closeParen_nil : closeParen [] = [] := by rw [closeParen]

theorem closeParen_nonws {c : Char} (l : List Char) (h : pyIsSpace c = false) :
    closeParen (c :: l) = c :: closeParen l := by
  rw [closeParen, if_neg (by simp [h])]

theorem closeParen_ws_paren {c : Char} {l r2 : List Char} (h : pyIsSpace c = true)
    (hm : l.dropWhile pyIsSpace = ')' :: r2) :
    closeParen (c :: l) = ')' :: closeParen r2 := by
  rw [closeParen, if_pos h]
  split
  · rename_i r2' heq
    rw [hm] at heq
    cases heq
    rfl
  · rename_i hne
    exact absurd hm (hne r2)

theorem closeParen_ws_other {c : Char} {l : List Char} (h : pyIsSpace c = true)
    (hm : (l.dropWhile pyIsSpace).head? ≠ some ')') :
    closeParen (c :: l) = c :: closeParen l := by
  rw [closeParen, if_pos h]
  split
  · rename_i r2' heq
    exact absurd (by rw [heq]; rfl) hm
  · rfl

theorem openParen_nil : openParen [] = [] := by rw [openParen]

theorem openParen_single (c : Char) : openParen [c] = [c] := by
  rw [openParen]
  · rw [openParen_nil]
  · intro d rest h1 h2
    cases h2

theorem openParen_nonparen {c : Char} (l : List Char) (h : (c == '(') = false) :
    openParen (c :: l) = c :: openParen l := by
  rw [openParen]
  intro d rest h1 h2
  rw [h1] at h
  simp at h

theorem openParen_paren_ws {d : Char} (rest : List Char) (h : pyIsSpace d = true) :
    openParen ('(' :: d :: rest) = '(' :: openParen ((d :: rest).dropWhile pyIsSpace) := by
  rw [openParen, if_pos h]

theorem openParen_paren_nonws {d : Char} (rest : List Char) (h : pyIsSpace d = false) :
    openParen ('(' :: d :: rest) = '(' :: openParen (d :: rest) := by
  rw [openParen, if_neg (by simp [h])]

theorem qScan_nil : qScan [] = [] := by rw [qScan]

theorem qScan_quote {c : Char} (l : List Char) (hw : pyIsSpace c = false)
    (hq : isQuoteChar c = true) :
    qScan (c :: l) = c :: qScan (l.dropWhile pyIsSpace) := by
  rw [qScan]
  have hdw : (c :: l).dropWhile pyIsSpace = c :: l := by
    rw [List.dropWhile_cons_of_neg (by simp [hw])]
  split
  · rename_i q r2 heq
    rw [hdw] at heq
    cases heq
    rw [if_pos hq]
  · rename_i heq
    rw [hdw] at heq
    cases heq

theorem qScan_other {c : Char} (l : List Char) (hw : pyIsSpace c = false)
    (hq : isQuoteChar c = false) :
    qScan (c :: l) = c :: qScan l := by
  rw [qScan]
  have hdw : (c :: l).dropWhile pyIsSpace = c :: l := by
    rw [List.dropWhile_cons_of_neg (by simp [hw])]
  split
  · rename_i q r2 heq
    rw [hdw] at heq
    cases heq
    rw [if_neg (by simp [hq])]
  · rfl

theorem qScan_ws_quote {c q : Char} {l r2 : List Char} (hw : pyIsSpace c = true)
    (hm : l.dropWhile pyIsSpace = q :: r2) (hq : isQuoteChar q = true) :
    qScan (c :: l) = q :: qScan (r2.dropWhile pyIsSpace) := by
  rw [qScan]
  have hdw : (c :: l).dropWhile pyIsSpace = q :: r2 := by
    rw [List.dropWhile_cons_of_pos hw, hm]
  split
  · rename_i q' r2' heq
    rw [hdw] at heq
    cases heq
    rw [if_pos hq]
  · rename_i heq
    rw [hdw] at heq
    cases heq

theorem qScan_ws_other {c : Char} {l : List Char} (hw : pyIsSpace c = true)
    (hm : ∀ q, (l.dropWhile pyIsSpace).head? = some q → isQuoteChar q = false) :
    qScan (c :: l) = c :: qScan l := by
  rw [qScan]
  have hdw : (c :: l).dropWhile pyIsSpace = l.dropWhile pyIsSpace := by
    rw [List.dropWhile_cons_of_pos hw]
  split
  · rename_i q r2 heq
    rw [hdw] at heq
    have hq := hm q (by rw [heq]; rfl)
    rw [if_neg (by simp [hq])]
  · rfl

theorem eScan_nil : eScan [] = [] := by rw [eScan]

theorem eScan_run {l : List Char}
    (hk : 2 ≤ (l.takeWhile (fun d => d = '.')).length) :
    eScan ('.' :: l) =
      '.' :: '.' :: '.' :: eScan (l.drop (l.takeWhile (fun d => d = '.')).length) := by
  rw [eScan]
  rw [if_pos rfl, if_pos hk]

theorem eScan_dot_short {l : List Char}
    (hk : ¬2 ≤ (l.takeWhile (fun d => d = '.')).length) :
    eScan ('.' :: l) = '.' :: eScan l := by
  rw [eScan]
  rw [if_pos rfl, if_neg hk]

theorem eScan_nondot {c : Char} (l : List Char) (hc : (c == '.') = false) :
    eScan (c :: l) = c :: eScan l := by
  rw [eScan]
  rw [if_neg (by simpa using hc)]

theorem mScan_nil : mScan [] = [] := by rw [mScan]

theorem mScan_run {c : Char} {l : List Char} (hc : isBangChar c = true)
    (hk : 1 ≤ (l.takeWhile isBangChar).length) :
    mScan (c :: l) =
      ((l.takeWhile isBangChar).getLastD c) ::
        mScan (l.drop (l.takeWhile isBangChar).length) := by
  rw [mScan]
  rw [if_pos hc, if_pos hk]

theorem mScan_bang_single {c : Char} {l : List Char} (hc : isBangChar c = true)
    (hk : ¬1 ≤ (l.takeWhile isBangChar).length) :
    mScan (c :: l) = c :: mScan l := by
  rw [mScan]
  rw [if_pos hc, if_neg hk]

theorem mScan_nonbang {c : Char} (l : List Char) (hc : isBangChar c = false) :
    mScan (c :: l) = c :: mScan l := by
  rw [mScan]
  rw [if_neg (by simp [hc])]

theorem expandK_nil (K : Char → Bool) : expandK K [] = [] := rfl

theorem expandK_nonpunct (K : Char → Bool) {c : Char} (l : List Char)
    (hc : isPunctChar c = false) : expandK K (c :: l) = c :: expandK K l := by
  rw [expandK.eq_def]
  dsimp only
  rw [if_neg (by simp [hc])]

theorem expandK_punct_nil (K : Char → Bool) {c : Char} (hc : isPunctChar c = true) :
    expandK K [c] = [c, ' '] := by
  rw [expandK.eq_def]
  dsimp only
  rw [if_pos hc]

theorem expandK_punct_space (K : Char → Bool) {c : Char} (l : List Char)
    (hc : isPunctChar c = true) :
    expandK K (c :: ' ' :: l) = c :: expandK K (' ' :: l) := by
  rw [expandK.eq_def]
  dsimp only
  rw [if_pos hc]
  simp

theorem expandK_punct_keep (K : Char → Bool) {c d : Char} (l : List Char)
    (hc : isPunctChar c = true) (hd : (d == ' ') = false) (hK : K d = true) :
    expandK K (c :: d :: l) = c :: ' ' :: expandK K (d :: l) := by
  rw [expandK.eq_def]
  dsimp only
  rw [if_pos hc]
  simp only [hd, hK]
  rfl

theorem expandK_punct_skip (K : Char → Bool) {c d : Char} (l : List Char)
    (hc : isPunctChar c = true) (hd : (d == ' ') = false) (hK : K d = false) :
    expandK K (c :: d :: l) = c :: expandK K (d :: l) := by
  rw [expandK.eq_def]
  dsimp only
  rw [if_pos hc]
  simp only [hd, hK]
  rfl

theorem expandK_cons_ex (K : Char → Bool) (x : Char) (l : List Char) :
    ∃ X, expandK K (x :: l) = x :: X := by
  by_cases hx : isPunctChar x = true
  · cases l with
    | nil => exact ⟨[' '], expandK_punct_nil K hx⟩
    | cons d l2 =>
        by_cases hd : (d == ' ') = true
        · have : d = ' ' := by simpa using hd
          subst this
          exact ⟨_, expandK_punct_space K l2 hx⟩
        · by_cases hK : K d = true
          · exact ⟨_, expandK_punct_keep K l2 hx (by simpa using hd) hK⟩
          · exact ⟨_, expandK_punct_skip K l2 hx (by simpa using hd)
              (by simpa using hK)⟩
  · exact ⟨_, expandK_nonpunct K l (by simpa using hx)⟩

theorem expandK_head (K : Char → Bool) (x : Char) (l : List Char) :
    (expandK K (x :: l)).head? = some x := by
  obtain ⟨X, hX⟩ := expandK_cons_ex K x l
  rw [hX]
  rfl

theorem dropWhile_head_not (p : Char → Bool) :
    ∀ (l : List Char) (c : Char), (l.dropWhile p).head? = some c → p c = false := by
  intro l
  induction l with
  | nil => intro c h; cases h
  | cons a l ih =>
      intro c h
      by_cases hp : p a = true
      · rw [List.dropWhile_cons_of_pos hp] at h
        exact ih c h
      · rw [List.dropWhile_cons_of_neg hp] at h
        cases h
        simpa using hp

theorem dropWhile_suffix' (p : Char → Bool) (l : List Char) :
    l.dropWhile p <:+ l := by
  induction l with
  | nil => exact List.suffix_rfl
  | cons a l ih =>
      by_cases hp : p a = true
      · rw [List.dropWhile_cons_of_pos hp]
        exact ih.trans (List.suffix_cons a l)
      · rw [List.dropWhile_cons_of_neg hp]

theorem dropWhile_eq_self_of_head (p : Char → Bool) (l : List Char)
    (h : ∀ c, l.head? = some c → p c = false) : l.dropWhile p = l := by
  cases l with
  | nil => rfl
  | cons a l => exact List.dropWhile_cons_of_neg (by simp [h a rfl])

theorem takeWhile_all (p : Char → Bool) :
    ∀ (l : List Char), (l.takeWhile p).all p = true := by
  intro l
  induction l with
  | nil => rfl
  | cons a l ih =>
      by_cases hp : p a = true
      · rw [List.takeWhile_cons_of_pos hp]
        simp [hp, ih]
      · rw [List.takeWhile_cons_of_neg hp]
        rfl

theorem dTry_decomp {rest : List Char} {s d2 : Char} {r4 : List Char}
    (h : dTry rest = some (s, d2, r4)) :
    isSepChar s = true ∧ d2.isDigit = true ∧
      rest = rest.takeWhile pyIsSpace ++ s ::
        ((rest.dropWhile pyIsSpace).tail.takeWhile pyIsSpace ++ d2 :: r4) := by
  unfold dTry at h
  cases h1 : rest.dropWhile pyIsSpace with
  | nil => rw [h1] at h; cases h
  | cons s0 r2 =>
      rw [h1] at h
      dsimp only at h
      by_cases hs : isSepChar s0 = true
      · rw [if_pos hs] at h
        cases h3 : r2.dropWhile pyIsSpace with
        | nil => rw [h3] at h; cases h
        | cons d0 r40 =>
            rw [h3] at h
            dsimp only at h
            by_cases hd : d0.isDigit = true
            · rw [if_pos hd] at h
              cases h
              refine ⟨hs, hd, ?_⟩
              have e1 : rest.takeWhile pyIsSpace ++ (s :: r2) = rest := by
                rw [← h1]; exact List.takeWhile_append_dropWhile _ _
              have e2 : r2.takeWhile pyIsSpace ++ (d2 :: r4) = r2 := by
                rw [← h3]; exact List.takeWhile_append_dropWhile _ _
              simp only [List.tail_cons]
              rw [e2]
              exact e1.symm
            · rw [if_neg hd] at h; cases h
      · rw [if_neg hs] at h; cases h

theorem dTry_none_of_head {rest : List Char}
    (h : ∀ c, (rest.dropWhile pyIsSpace).head? = some c → isSepChar c = false) :
    dTry rest = none := by
  unfold dTry
  cases h1 : rest.dropWhile pyIsSpace with
  | nil => rfl
  | cons s0 r2 =>
      have := h s0 (by rw [h1]; rfl)
      dsimp only
      rw [if_neg (by simp [this])]

theorem dScan_cons_ex (c : Char) (l : List Char) :
    ∃ X, dScan (c :: l) = c :: X := by
  by_cases hc : c.isDigit = true
  · cases hd : dTry l with
    | some v =>
        obtain ⟨s, d2, r4⟩ := v
        exact ⟨_, dScan_digit_some hc hd⟩
    | none => exact ⟨_, dScan_digit_none hc hd⟩
  · exact ⟨_, dScan_nondigit (by simpa using hc)⟩

theorem dScan_head (c : Char) (l : List Char) : (dScan (c :: l)).head? = some c := by
  obtain ⟨X, hX⟩ := dScan_cons_ex c l
  rw [hX]; rfl

theorem dScan_headQ (l : List Char) : (dScan l).head? = l.head? := by
  cases l with
  | nil => rw [dScan_nil]
  | cons c t => rw [dScan_head]; rfl

theorem pScan_head_nonws {x : Char} (l : List Char) (hw : pyIsSpace x = false) :
    (pScan (x :: l)).head? = some x := by
  by_cases hp : isPunctChar x = true
  · rw [pScan_punct l hw hp]; rfl
  · rw [pScan_nonpunct l hw (by simpa using hp)]; rfl

theorem wCollapse_head_nonws {x : Char} (l : List Char) (hw : pyIsSpace x = false) :
    (wCollapse (x :: l)).head? = some x := by
  rw [wCollapse_nonws l hw]; rfl

theorem closeParen_head_nonws {x : Char} (l : List Char) (hw : pyIsSpace x = false) :
    (closeParen (x :: l)).head? = some x := by
  rw [closeParen_nonws l hw]; rfl

theorem qScan_head_nonws {x : Char} (l : List Char) (hw : pyIsSpace x = false) :
    (qScan (x :: l)).head? = some x := by
  by_cases hq : isQuoteChar x = true
  · rw [qScan_quote l hw hq]; rfl
  · rw [qScan_other l hw (by simpa using hq)]; rfl

theorem eScan_cons_ex (c : Char) (l : List Char) :
    ∃ X, eScan (c :: l) = c :: X := by
  by_cases hc : (c == '.') = true
  · have hc' : c = '.' := by simpa using hc
    subst hc'
    by_cases hk : 2 ≤ (l.takeWhile (fun d => d = '.')).length
    · exact ⟨_, eScan_run hk⟩
    · exact ⟨_, eScan_dot_short hk⟩
  · exact ⟨_, eScan_nondot l (by simpa using hc)⟩

theorem eScan_head (c : Char) (l : List Char) : (eScan (c :: l)).head? = some c := by
  obtain ⟨X, hX⟩ := eScan_cons_ex c l
  rw [hX]; rfl

theorem getLastD_mem : ∀ (l : List Char) (d : Char), l ≠ [] → l.getLastD d ∈ l := by
  intro l
  induction l with
  | nil => intro d h; exact absurd rfl h
  | cons a l ih =>
      intro d _
      cases l with
      | nil => simp
      | cons b l2 =>
          rw [List.getLastD_cons]
          exact List.mem_cons_of_mem a (ih a (by simp))

theorem mScan_head_ex (x : Char) (l : List Char) :
    ∃ z X, mScan (x :: l) = z :: X ∧
      (z = x ∨ (isBangChar x = true ∧ isBangChar z = true)) := by
  by_cases hb : isBangChar x = true
  · by_cases hk : 1 ≤ (l.takeWhile isBangChar).length
    · refine ⟨_, _, mScan_run hb hk, Or.inr ⟨hb, ?_⟩⟩
      cases hw : l.takeWhile isBangChar with
      | nil => rw [hw] at hk; cases hk
      | cons w ws =>
          have hall := takeWhile_all isBangChar l
          rw [hw] at hall
          have hmem : (w :: ws).getLastD x ∈ w :: ws :=
            getLastD_mem (w :: ws) x (by simp)
          exact List.all_eq_true.mp hall _ hmem
    · exact ⟨_, _, mScan_bang_single hb hk, Or.inl rfl⟩
  · exact ⟨_, _, mScan_nonbang l (by simpa using hb), Or.inl rfl⟩

theorem contract_nil : contract [] = [] := rfl

theorem contract_one (c : Char) : contract [c] = [c] := rfl

theorem contract_two (c s : Char) : contract [c, s] = [c, s] := rfl

theorem contract_three (c s sp : Char) : contract [c, s, sp] = [c, s, sp] := rfl

theorem contract_cons4_pos {c s sp d2 : Char} (r4 : List Char)
    (h : (c.isDigit && isSepChar s && sp == ' ' && d2.isDigit) = true) :
    contract (c :: s :: sp :: d2 :: r4) = c :: s :: d2 :: contract r4 := by
  rw [contract, if_pos h]

theorem contract_cons4_neg {c s sp d2 : Char} (r4 : List Char)
    (h : (c.isDigit && isSepChar s && sp == ' ' && d2.isDigit) = false) :
    contract (c :: s :: sp :: d2 :: r4) = c :: contract (s :: sp :: d2 :: r4) := by
  rw [contract, if_neg (by simp [h])]

theorem contract_cons_of_not {c : Char} (rest : List Char)
    (h : ∀ s sp d2 r4, rest = s :: sp :: d2 :: r4 →
      (c.isDigit && isSepChar s && sp == ' ' && d2.isDigit) = false) :
    contract (c :: rest) = c :: contract rest := by
  match rest with
  | [] => rfl
  | [s] => rfl
  | [s, sp] => rfl
  | s :: sp :: d2 :: r4 => exact contract_cons4_neg r4 (h s sp d2 r4 rfl)

theorem contract_cons_ex (c : Char) (l : List Char) :
    ∃ X, contract (c :: l) = c :: X := by
  match l with
  | [] => exact ⟨[], rfl⟩
  | [s] => exact ⟨[s], rfl⟩
  | [s, sp] => exact ⟨[s, sp], rfl⟩
  | s :: sp :: d2 :: r4 =>
      by_cases h : (c.isDigit && isSepChar s && sp == ' ' && d2.isDigit) = true
      · exact ⟨_, contract_cons4_pos r4 h⟩
      · exact ⟨_, contract_cons4_neg r4 (by simpa using h)⟩

theorem contract_head (c : Char) (l : List Char) :
    (contract (c :: l)).head? = some c := by
  obtain ⟨X, hX⟩ := contract_cons_ex c l
  rw [hX]; rfl

theorem contract_headQ (y : List Char) : (contract y).head? = y.head? := by
  cases y with
  | nil => rfl
  | cons c l => rw [contract_head]; rfl

theorem wsOk_suffix (l' l : List Char) (hs : l' <:+ l) (h : wsOkB l = true) :
    wsOkB l' = true := by
  simp only [wsOkB, List.all_eq_true] at h ⊢
  intro x hx
  exact h x (hs.subset hx)

theorem sep_cases {s : Char} (h : isSepChar s = true) : s = '.' ∨ s = ',' := by
  simp only [isSepChar, Bool.or_eq_true, decide_eq_true_eq] at h
  exact h

theorem wCollapse_id :
    ∀ (y : List Char), wsOkB y = true → noPair dblBad y = true →
    wCollapse y = y := by
  intro y
  induction y with
  | nil => intro _ _; exact wCollapse_nil
  | cons c rest ih =>
      intro hws hdbl
      by_cases hc : pyIsSpace c = true
      · have hc' : c = ' ' := by
          have := wsOk_head _ c hws rfl
          simp only [wsOkC, Bool.or_eq_true, Bool.not_eq_true'] at this
          rcases this with h | h
          · rw [hc] at h; cases h
          · simpa using h
        subst hc'
        rw [wCollapse_ws rest hc]
        have hrest : rest.dropWhile pyIsSpace = rest := by
          apply dropWhile_eq_self_of_head
          intro c' hc'
          have h1 := noPair_head _ _ _ _ hdbl hc'
          simp only [dblBad, Bool.and_eq_true] at h1
          have h2 : (c' == ' ') = false := by
            cases hb : (c' == ' ')
            · rfl
            · rw [hb] at h1; simp at h1
          exact wsOkC_ne (wsOk_head _ c' (wsOk_tail _ _ hws) hc') h2
        rw [hrest]
        rw [ih (wsOk_tail _ _ hws) (noPair_tail _ _ _ hdbl)]
      · rw [wCollapse_nonws rest (by simpa using hc)]
        rw [ih (wsOk_tail _ _ hws) (noPair_tail _ _ _ hdbl)]

theorem dScan_eq_contract :
    ∀ (n : Nat) (y : List Char), y.length ≤ n →
    wsOkB y = true → noPair dblBad y = true →
    noPair (spBad '.') y = true → noPair (spBad ',') y = true →
    noPair (pfBad followerSet) y = true →
    dScan y = contract y := by
  intro n
  induction n with
  | zero =>
      intro y hlen _ _ _ _ _
      have : y = [] := by
        cases y with
        | nil => rfl
        | cons a l => simp at hlen
      subst this
      rw [dScan_nil, contract_nil]
  | succ n IH =>
      intro y hlen hws hdbl hsp1 hsp2 hpf
      cases y with
      | nil => rw [dScan_nil, contract_nil]
      | cons c rest =>
          have hlen' : rest.length ≤ n := by
            simp only [List.length_cons] at hlen; omega
          have htail : ∀ bad, noPair bad (c :: rest) = true → noPair bad rest = true :=
            fun bad h => noPair_tail bad c rest h
          by_cases hcd : c.isDigit = true
          · cases hd : dTry rest with
            | some v =>
                obtain ⟨s, d2, r4⟩ := v
                obtain ⟨hsep, hdig, hdec⟩ := dTry_decomp hd
                -- the leading space run must be empty
                have hu : rest.takeWhile pyIsSpace = [] := by
                  cases hu0 : rest.takeWhile pyIsSpace with
                  | nil => rfl
                  | cons u0 u' =>
                      exfalso
                      have hall := takeWhile_all pyIsSpace rest
                      rw [hu0] at hall
                      simp only [List.all_cons, Bool.and_eq_true] at hall
                      have hu0s : u0 = ' ' := by
                        have hru : rest.head? = some u0 := by
                          conv_lhs => rw [hdec]
                          rw [hu0]
                          rfl
                        have := wsOk_head _ u0 (wsOk_tail _ _ hws) hru
                        simp only [wsOkC, Bool.or_eq_true, Bool.not_eq_true'] at this
                        rcases this with h | h
                        · rw [hall.1] at h; cases h
                        · simpa using h
                      cases u' with
                      | nil =>
                          -- rest = ' ' :: s :: …, the pair (' ', s) is a space
                          -- directly before a separator
                          have hrest2 : rest = ' ' :: s ::
                              ((rest.dropWhile pyIsSpace).tail.takeWhile pyIsSpace
                                ++ d2 :: r4) := by
                            conv_lhs => rw [hdec]
                            rw [hu0, hu0s]
                            rfl
                          rcases sep_cases hsep with hs' | hs'
                          · subst hs'
                            have h0 := htail _ hsp1
                            rw [hrest2] at h0
                            have := noPair_head _ ' ' '.' _ h0 rfl
                            simp [spBad] at this
                          · subst hs'
                            have h0 := htail _ hsp2
                            rw [hrest2] at h0
                            have := noPair_head _ ' ' ',' _ h0 rfl
                            simp [spBad] at this
                      | cons u1 u'' =>
                          -- two leading spaces in a row
                          have hu1s : u1 = ' ' := by
                            have hmem : u1 ∈ rest.takeWhile pyIsSpace := by
                              rw [hu0]; simp
                            have hws1 : pyIsSpace u1 = true := by
                              have hall2 := takeWhile_all pyIsSpace rest
                              exact List.all_eq_true.mp hall2 _ hmem
                            have hmem' : u1 ∈ rest := ( List.takeWhile_prefix _).subset hmem
                            have := wsOk_suffix rest _ List.suffix_rfl
                              (wsOk_tail _ _ hws)
                            simp only [wsOkB, List.all_eq_true] at this
                            have h3 := this u1 hmem'
                            simp only [wsOkC, Bool.or_eq_true, Bool.not_eq_true'] at h3
                            rcases h3 with h | h
                            · rw [hws1] at h; cases h
                            · simpa using h
                          have hrest2 : rest = ' ' :: ' ' :: (u'' ++ s ::
                              ((rest.dropWhile pyIsSpace).tail.takeWhile pyIsSpace
                                ++ d2 :: r4)) := by
                            conv_lhs => rw [hdec]
                            rw [hu0, hu0s, hu1s]
                            rfl
                          have h0 := htail _ hdbl
                          rw [hrest2] at h0
                          have := noPair_head _ ' ' ' ' _ h0 rfl
                          simp [dblBad] at this
                rw [hu] at hdec
                rw [List.nil_append] at hdec
                -- the inner space run must be exactly one space
                have hv : (rest.dropWhile pyIsSpace).tail.takeWhile pyIsSpace =
                    [' '] := by
                  cases hv0 : (rest.dropWhile pyIsSpace).tail.takeWhile pyIsSpace with
                  | nil =>
                      exfalso
                      have hrest2 : rest = s :: d2 :: r4 := by
                        rw [hv0] at hdec
                        simpa using hdec
                      have h0 := htail _ hpf
                      rw [hrest2] at h0
                      have := noPair_head _ s d2 _ h0 rfl
                      rw [pfBad, sep_punct hsep, digit_not_follower hdig] at this
                      simp at this
                  | cons v0 v' =>
                      have hall := takeWhile_all pyIsSpace
                        ((rest.dropWhile pyIsSpace).tail)
                      rw [hv0] at hall
                      simp only [List.all_cons, Bool.and_eq_true] at hall
                      have hv0w : pyIsSpace v0 = true := hall.1
                      have hv0s : v0 = ' ' := by
                        have hmem : v0 ∈ rest := by
                          rw [hdec, hv0]; simp
                        have hwr := wsOk_tail _ _ hws
                        simp only [wsOkB, List.all_eq_true] at hwr
                        have h3 := hwr v0 hmem
                        simp only [wsOkC, Bool.or_eq_true, Bool.not_eq_true'] at h3
                        rcases h3 with h | h
                        · rw [hv0w] at h; cases h
                        · simpa using h
                      subst hv0s
                      cases v' with
                      | nil => rfl
                      | cons v1 v'' =>
                          exfalso
                          have hv1w : pyIsSpace v1 = true := by
                            simp only [List.all_cons, Bool.and_eq_true] at hall
                            exact hall.2.1
                          have h3 : rest = s :: ' ' :: v1 :: (v'' ++ d2 :: r4) := by
                            rw [hv0] at hdec
                            simpa using hdec
                          have hv1s : v1 = ' ' := by
                            have h4 := wsOk_tail _ _ hws
                            rw [h3] at h4
                            have h5 := wsOk_tail _ _ (wsOk_tail _ _ h4)
                            have h6 := wsOk_head _ v1 h5 rfl
                            simp only [wsOkC, Bool.or_eq_true,
                              Bool.not_eq_true'] at h6
                            rcases h6 with h | h
                            · rw [hv1w] at h; cases h
                            · simpa using h
                          subst hv1s
                          have h0 := htail _ hdbl
                          rw [h3] at h0
                          have h6 := noPair_tail _ _ _ h0
                          have := noPair_head _ ' ' ' ' _ h6 rfl
                          simp [dblBad] at this
                rw [hv] at hdec
                have hrest : rest = s :: ' ' :: d2 :: r4 := by
                  rw [hdec]; rfl
                subst hrest
                rw [dScan_digit_some hcd hd]
                rw [contract_cons4_pos r4 (by simp [hcd, hsep, hdig])]
                have hr4 : r4.length ≤ n := by
                  simp only [List.length_cons] at hlen; omega
                have hsuf : r4 <:+ c :: s :: ' ' :: d2 :: r4 :=
                  ⟨[c, s, ' ', d2], rfl⟩
                rw [IH r4 hr4 (wsOk_suffix _ _ hsuf hws)
                  (noPair_suffix _ _ _ hsuf hdbl)
                  (noPair_suffix _ _ _ hsuf hsp1)
                  (noPair_suffix _ _ _ hsuf hsp2)
                  (noPair_suffix _ _ _ hsuf hpf)]
            | none =>
                rw [dScan_digit_none hcd hd]
                rw [contract_cons_of_not rest (by
                  intro s sp d2 r4 hshape
                  cases hg0 : (c.isDigit && isSepChar s && sp == ' ' && d2.isDigit) with
                  | false => rfl
                  | true =>
                  exfalso
                  have hg := hg0
                  simp only [Bool.and_eq_true] at hg
                  have hdt : dTry rest = some (s, d2, r4) := by
                    have hsp' : sp = ' ' := by simpa using hg.1.2
                    subst hsp'
                    subst hshape
                    unfold dTry
                    have h1 : (s :: ' ' :: d2 :: r4).dropWhile pyIsSpace =
                        s :: ' ' :: d2 :: r4 :=
                      List.dropWhile_cons_of_neg (by
                        simp [punct_not_space (sep_punct hg.1.1.2)])
                    rw [h1]
                    dsimp only
                    rw [if_pos hg.1.1.2]
                    have h2 : (' ' :: d2 :: r4).dropWhile pyIsSpace = d2 :: r4 := by
                      rw [List.dropWhile_cons_of_pos (by decide)]
                      exact List.dropWhile_cons_of_neg (by
                        simp [digit_not_space hg.2])
                    rw [h2]
                    dsimp only
                    rw [if_pos hg.2]
                  rw [hdt] at hd
                  cases hd)]
                rw [IH rest hlen' (wsOk_tail _ _ hws) (htail _ hdbl)
                  (htail _ hsp1) (htail _ hsp2) (htail _ hpf)]
          · rw [dScan_nondigit (by simpa using hcd)]
            rw [contract_cons_of_not rest (by
              intro s sp d2 r4 _
              cases hg0 : (c.isDigit && isSepChar s && sp == ' ' && d2.isDigit) with
              | false => rfl
              | true =>
                exfalso
                simp only [Bool.and_eq_true] at hg0
                exact hcd hg0.1.1.1)]
            rw [IH rest hlen' (wsOk_tail _ _ hws) (htail _ hdbl)
              (htail _ hsp1) (htail _ hsp2) (htail _ hpf)]

theorem noPair_spPunct_of (l : List Char)
    (h1 : noPair (spBad ',') l = true) (h2 : noPair (spBad '.') l = true)
    (h3 : noPair (spBad ';') l = true) (h4 : noPair (spBad ':') l = true)
    (h5 : noPair (spBad '!') l = true) (h6 : noPair (spBad '?') l = true) :
    noPair spPunctBad l = true := by
  induction l with
  | nil => rfl
  | cons c rest ih =>
      apply noPair_cons
      · intro y hy
        cases hb : spPunctBad c y
        · rfl
        · exfalso
          simp only [spPunctBad, Bool.and_eq_true, beq_iff_eq] at hb
          obtain ⟨hc, hp⟩ := hb
          subst hc
          simp only [isPunctChar, Bool.or_eq_true, decide_eq_true_eq] at hp
          rcases hp with (((((e | e) | e) | e) | e) | e) <;> subst e
          · have := noPair_head _ _ _ _ h1 hy; simp [spBad] at this
          · have := noPair_head _ _ _ _ h2 hy; simp [spBad] at this
          · have := noPair_head _ _ _ _ h3 hy; simp [spBad] at this
          · have := noPair_head _ _ _ _ h4 hy; simp [spBad] at this
          · have := noPair_head _ _ _ _ h5 hy; simp [spBad] at this
          · have := noPair_head _ _ _ _ h6 hy; simp [spBad] at this
      · exact ih (noPair_tail _ _ _ h1) (noPair_tail _ _ _ h2)
          (noPair_tail _ _ _ h3) (noPair_tail _ _ _ h4)
          (noPair_tail _ _ _ h5) (noPair_tail _ _ _ h6)

theorem pScan_eq_expandK :
    ∀ (n : Nat) (z : List Char), z.length ≤ n →
    wsOkB z = true → noPair dblBad z = true → noPair spPunctBad z = true →
    pScan z = expandK (fun _ => true) z := by
  intro n
  induction n with
  | zero =>
      intro z hlen _ _ _
      have : z = [] := by
        cases z with
        | nil => rfl
        | cons a l => simp at hlen
      subst this
      rw [pScan_nil]; rfl
  | succ n IH =>
      intro z hlen hws hdbl hsp
      cases z with
      | nil => rw [pScan_nil]; rfl
      | cons c rest =>
          have hlen' : rest.length ≤ n := by
            simp only [List.length_cons] at hlen; omega
          by_cases hcw : pyIsSpace c = true
          · -- a whitespace character is a single space not followed by punctuation
            have hc' : c = ' ' := by
              have := wsOk_head _ c hws rfl
              simp only [wsOkC, Bool.or_eq_true, Bool.not_eq_true'] at this
              rcases this with h | h
              · rw [hcw] at h; cases h
              · simpa using h
            subst hc'
            have hdrop : rest.dropWhile pyIsSpace = rest := by
              apply dropWhile_eq_self_of_head
              intro c' hc'
              have h1 := noPair_head _ _ _ _ hdbl hc'
              have h2 : (c' == ' ') = false := by
                cases hb : (c' == ' ')
                · rfl
                · exfalso
                  simp only [dblBad, hb, Bool.and_true] at h1
                  simp at h1
              exact wsOkC_ne (wsOk_head _ c' (wsOk_tail _ _ hws) hc') h2
            rw [pScan_ws_other hcw (by
              intro p hp
              rw [hdrop] at hp
              have h1 := noPair_head _ _ _ _ hsp hp
              simp only [spPunctBad, Bool.and_eq_true] at h1
              cases hb : isPunctChar p
              · rfl
              · exfalso; rw [hb] at h1; simp at h1)]
            rw [expandK_nonpunct _ rest (by decide)]
            rw [IH rest hlen' (wsOk_tail _ _ hws) (noPair_tail _ _ _ hdbl)
              (noPair_tail _ _ _ hsp)]
          · have hcw' : pyIsSpace c = false := by simpa using hcw
            by_cases hcp : isPunctChar c = true
            · rw [pScan_punct rest hcw' hcp]
              cases rest with
              | nil =>
                  rw [expandK_punct_nil _ hcp]
                  simp [pScan_nil]
              | cons d r2 =>
                  by_cases hd : (d == ' ') = true
                  · have hd' : d = ' ' := by simpa using hd
                    subst hd'
                    have hr2 : (' ' :: r2).dropWhile pyIsSpace = r2 := by
                      rw [List.dropWhile_cons_of_pos (by decide)]
                      apply dropWhile_eq_self_of_head
                      intro c' hc'
                      have hdb2 := noPair_tail _ _ _ hdbl
                      have h1 := noPair_head _ _ _ _ hdb2 hc'
                      simp only [dblBad, Bool.and_eq_true] at h1
                      have h2 : (c' == ' ') = false := by
                        cases hb : (c' == ' ')
                        · rfl
                        · rw [hb] at h1; simp at h1
                      exact wsOkC_ne (wsOk_head _ c'
                        (wsOk_tail _ _ (wsOk_tail _ _ hws)) hc') h2
                    rw [hr2]
                    rw [expandK_punct_space _ r2 hcp]
                    rw [expandK_nonpunct _ r2 (by decide)]
                    have hr2len : r2.length ≤ n := by
                      simp only [List.length_cons] at hlen; omega
                    have hsuf : r2 <:+ c :: ' ' :: r2 := ⟨[c, ' '], rfl⟩
                    rw [IH r2 (by omega) (wsOk_suffix _ _ hsuf hws)
                      (noPair_suffix _ _ _ hsuf hdbl)
                      (noPair_suffix _ _ _ hsuf hsp)]
                  · have hdw : pyIsSpace d = false := by
                      have := wsOk_head _ d (wsOk_tail _ _ hws) rfl
                      exact wsOkC_ne this (by simpa using hd)
                    have hdrop2 : (d :: r2).dropWhile pyIsSpace = d :: r2 :=
                      List.dropWhile_cons_of_neg (by simp [hdw])
                    rw [hdrop2]
                    rw [expandK_punct_keep _ r2 hcp (by simpa using hd) rfl]
                    rw [IH (d :: r2) hlen' (wsOk_tail _ _ hws)
                      (noPair_tail _ _ _ hdbl) (noPair_tail _ _ _ hsp)]
            · rw [pScan_nonpunct rest hcw' (by simpa using hcp)]
              rw [expandK_nonpunct _ rest (by simpa using hcp)]
              rw [IH rest hlen' (wsOk_tail _ _ hws) (noPair_tail _ _ _ hdbl)
                (noPair_tail _ _ _ hsp)]

theorem expandK_contract :
    ∀ (n : Nat) (y : List Char), y.length ≤ n →
    expandK (fun _ => true) (contract y) = expandK (fun _ => true) y := by
  intro n
  induction n with
  | zero =>
      intro y hlen
      have : y = [] := by
        cases y with
        | nil => rfl
        | cons a l => simp at hlen
      subst this
      rfl
  | succ n IH =>
      intro y hlen
      cases y with
      | nil => rfl
      | cons c rest =>
          have hlen' : rest.length ≤ n := by
            simp only [List.length_cons] at hlen; omega
          match rest with
          | [] => rfl
          | [s] => rfl
          | [s, sp] => rfl
          | s :: sp :: d2 :: r4 =>
              by_cases hg : (c.isDigit && isSepChar s && sp == ' ' && d2.isDigit) = true
              · rw [contract_cons4_pos r4 hg]
                simp only [Bool.and_eq_true] at hg
                obtain ⟨⟨⟨hcd, hsep⟩, hsp'⟩, hdd⟩ := hg
                have hsp'' : sp = ' ' := by simpa using hsp'
                subst hsp''
                rw [expandK_nonpunct _ _ (digit_not_punct hcd)]
                rw [expandK_punct_keep _ _ (sep_punct hsep)
                  (by
                    cases hb : (d2 == ' ')
                    · rfl
                    · exfalso
                      have : d2 = ' ' := by simpa using hb
                      subst this
                      simp at hdd) rfl]
                rw [expandK_nonpunct _ _ (digit_not_punct hdd)]
                rw [expandK_nonpunct _ _ (digit_not_punct hcd)]
                rw [expandK_punct_space _ _ (sep_punct hsep)]
                rw [expandK_nonpunct _ _ (by decide)]
                rw [expandK_nonpunct _ _ (digit_not_punct hdd)]
                have hr4 : r4.length ≤ n := by
                  simp only [List.length_cons] at hlen; omega
                rw [IH r4 hr4]
              · rw [contract_cons4_neg r4 (by simpa using hg)]
                have hrec := IH (s :: sp :: d2 :: r4) hlen'
                by_cases hcp : isPunctChar c = true
                · obtain ⟨X, hX⟩ := contract_cons_ex s (sp :: d2 :: r4)
                  by_cases hs : (s == ' ') = true
                  · have hs' : s = ' ' := by simpa using hs
                    subst hs'
                    rw [hX, expandK_punct_space _ X hcp, ← hX, hrec,
                      expandK_punct_space _ _ hcp]
                  · have hs' : (s == ' ') = false := by simpa using hs
                    rw [hX, expandK_punct_keep _ X hcp hs' rfl, ← hX, hrec,
                      expandK_punct_keep _ _ hcp hs' rfl]
                · rw [expandK_nonpunct _ _ (by simpa using hcp)]
                  rw [expandK_nonpunct _ _ (by simpa using hcp)]
                  exact congrArg _ hrec

theorem contract_noPair (bad : Char → Char → Bool)
    (hsd : ∀ s d2, isSepChar s = true → d2.isDigit = true → bad s d2 = false) :
    ∀ (n : Nat) (y : List Char), y.length ≤ n →
    noPair bad y = true → noPair bad (contract y) = true := by
  intro n
  induction n with
  | zero =>
      intro y hlen _
      have : y = [] := by
        cases y with
        | nil => rfl
        | cons a l => simp at hlen
      subst this
      rfl
  | succ n IH =>
      intro y hlen hnp
      cases y with
      | nil => rfl
      | cons c rest =>
          have hlen' : rest.length ≤ n := by
            simp only [List.length_cons] at hlen; omega
          match rest with
          | [] => rfl
          | [s] => exact hnp
          | [s, sp] => exact hnp
          | s :: sp :: d2 :: r4 =>
              by_cases hg : (c.isDigit && isSepChar s && sp == ' ' && d2.isDigit) = true
              · rw [contract_cons4_pos r4 hg]
                simp only [Bool.and_eq_true] at hg
                obtain ⟨⟨⟨hcd, hsep⟩, hsp'⟩, hdd⟩ := hg
                apply noPair_cons
                · intro y2 hy2
                  cases hy2
                  exact noPair_head _ _ _ _ hnp rfl
                · apply noPair_cons
                  · intro y2 hy2
                    cases hy2
                    exact hsd s d2 hsep hdd
                  · apply noPair_cons
                    · intro y2 hy2
                      rw [contract_headQ] at hy2
                      have hsuf : noPair bad (d2 :: r4) = true := by
                        apply noPair_suffix _ _ _ _ hnp
                        exact ⟨[c, s, sp], rfl⟩
                      exact noPair_head _ _ _ _ hsuf hy2
                    · apply IH r4 (by simp only [List.length_cons] at hlen; omega)
                      apply noPair_suffix _ _ _ _ hnp
                      exact ⟨[c, s, sp, d2], rfl⟩
              · rw [contract_cons4_neg r4 (by simpa using hg)]
                apply noPair_cons
                · intro y2 hy2
                  rw [contract_headQ] at hy2
                  exact noPair_head _ _ _ _ hnp hy2
                · exact IH _ hlen' (noPair_tail _ _ _ hnp)

theorem contract_all (p : Char → Bool) :
    ∀ (n : Nat) (y : List Char), y.length ≤ n →
    y.all p = true → (contract y).all p = true := by
  intro n
  induction n with
  | zero =>
      intro y hlen _
      have : y = [] := by
        cases y with
        | nil => rfl
        | cons a l => simp at hlen
      subst this
      rfl
  | succ n IH =>
      intro y hlen hall
      cases y with
      | nil => rfl
      | cons c rest =>
          have hlen' : rest.length ≤ n := by
            simp only [List.length_cons] at hlen; omega
          match rest with
          | [] => exact hall
          | [s] => exact hall
          | [s, sp] => exact hall
          | s :: sp :: d2 :: r4 =>
              simp only [List.all_cons, Bool.and_eq_true] at hall
              by_cases hg : (c.isDigit && isSepChar s && sp == ' ' && d2.isDigit) = true
              · rw [contract_cons4_pos r4 hg]
                simp only [List.all_cons, Bool.and_eq_true]
                refine ⟨hall.1, hall.2.1, hall.2.2.2.1, ?_⟩
                apply IH r4 (by simp only [List.length_cons] at hlen; omega)
                exact hall.2.2.2.2
              · rw [contract_cons4_neg r4 (by simpa using hg)]
                simp only [List.all_cons, Bool.and_eq_true]
                refine ⟨hall.1, ?_⟩
                have := IH (s :: sp :: d2 :: r4) hlen' (by
                  simp only [List.all_cons, Bool.and_eq_true]
                  exact hall.2)
                simpa using this

theorem replacePair_expandK (K : Char → Bool) (t : Char) (ht : isPunctChar t = true) :
    ∀ (n : Nat) (y : List Char), y.length ≤ n →
    noPair (spBad t) y = true →
    replacePair ' ' t t (expandK K y) =
      expandK (fun d => K d && !(d == t)) y := by
  intro n
  induction n with
  | zero =>
      intro y hlen _
      have : y = [] := by
        cases y with
        | nil => rfl
        | cons a l => simp at hlen
      subst this
      rw [expandK_nil, expandK_nil, replacePair_nil]
  | succ n IH =>
      intro y hlen hsp
      cases y with
      | nil => rw [expandK_nil, expandK_nil, replacePair_nil]
      | cons c rest =>
          have hlen' : rest.length ≤ n := by
            simp only [List.length_cons] at hlen; omega
          have hct : (c == ' ') = false → ¬(c = ' ' ∧ ∀ z : List Char, True) := by
            intro h hc
            rw [hc.1] at h
            simp at h
          by_cases hcp : isPunctChar c = true
          · have hcs : (c == ' ') = false := punct_ne_space hcp
            have hcs' : ¬c = ' ' := by simpa using hcs
            cases rest with
            | nil =>
                rw [expandK_punct_nil _ hcp, expandK_punct_nil _ hcp]
                rw [replacePair_step t c (by
                  intro hc
                  exact hcs' hc.1)]
                rw [replacePair_single]
            | cons d r2 =>
                by_cases hd : (d == ' ') = true
                · -- the punct is already followed by a single space from y
                  have hd' : d = ' ' := by simpa using hd
                  subst hd'
                  rw [expandK_punct_space _ r2 hcp, expandK_punct_space _ r2 hcp]
                  rw [expandK_nonpunct _ r2 (by decide),
                    expandK_nonpunct _ r2 (by decide)]
                  cases r2 with
                  | nil =>
                      rw [expandK_nil, expandK_nil]
                      rw [replacePair_step t c (fun hc => hcs' hc.1)]
                      rw [replacePair_single]
                  | cons e r3 =>
                      have het : (e == t) = false := by
                        have h0 := noPair_tail _ _ _ hsp
                        have h1 := noPair_head _ _ _ _ h0 rfl
                        cases hb : (e == t)
                        · rfl
                        · rw [spBad, hb] at h1; simp at h1
                      rw [replacePair_step t c (fun hc => hcs' hc.1)]
                      rw [replacePair_step t ' ' (by
                        intro hc
                        rw [expandK_head] at hc
                        have := hc.2
                        injection this with h2
                        rw [h2] at het
                        simp at het)]
                      have hsuf : e :: r3 <:+ c :: ' ' :: e :: r3 := ⟨[c, ' '], rfl⟩
                      rw [IH (e :: r3) (by
                          simp only [List.length_cons] at hlen ⊢; omega)
                        (noPair_suffix _ _ _ hsuf hsp)]
                · have hd0 : (d == ' ') = false := by simpa using hd
                  by_cases hK : K d = true
                  · by_cases hdt : (d == t) = true
                    · -- an inserted space directly before the pass character
                      have hdt2 : t = d := by
                        have h0 : d = t := by simpa using hdt
                        exact h0.symm
                      subst hdt2
                      rw [expandK_punct_keep _ r2 hcp hd0 hK]
                      rw [expandK_punct_skip _ r2 hcp hd0 (by simp [hK])]
                      obtain ⟨X, hX⟩ := expandK_cons_ex K t r2
                      have hrec := IH (t :: r2) hlen' (noPair_tail _ _ _ hsp)
                      rw [hX] at hrec
                      rw [replacePair_step t t (by
                        intro hc
                        rw [hc.1] at hd0
                        simp at hd0)] at hrec
                      rw [hX]
                      rw [replacePair_step t c (fun hc => hcs' hc.1)]
                      rw [replacePair_pair]
                      rw [← hrec]
                    · -- an inserted space before some other kept follower
                      have hdt0 : (d == t) = false := by simpa using hdt
                      rw [expandK_punct_keep _ r2 hcp hd0 hK]
                      rw [expandK_punct_keep _ r2 hcp hd0 (by simp [hK, hdt0])]
                      rw [replacePair_step t c (fun hc => hcs' hc.1)]
                      rw [replacePair_step t ' ' (by
                        intro hc
                        rw [expandK_head] at hc
                        have := hc.2
                        injection this with h2
                        rw [h2] at hdt0
                        simp at hdt0)]
                      rw [IH (d :: r2) hlen' (noPair_tail _ _ _ hsp)]
                  · -- no insertion happens here
                    have hK0 : K d = false := by simpa using hK
                    rw [expandK_punct_skip _ r2 hcp hd0 hK0]
                    rw [expandK_punct_skip _ r2 hcp hd0 (by simp [hK0])]
                    rw [replacePair_step t c (fun hc => hcs' hc.1)]
                    rw [IH (d :: r2) hlen' (noPair_tail _ _ _ hsp)]
          · have hcp' : isPunctChar c = false := by simpa using hcp
            rw [expandK_nonpunct _ rest hcp', expandK_nonpunct _ rest hcp']
            by_cases hcs : c = ' '
            · subst hcs
              cases rest with
              | nil =>
                  rw [expandK_nil, expandK_nil, replacePair_single]
              | cons e r3 =>
                  have het : (e == t) = false := by
                    have h1 := noPair_head _ _ _ _ hsp rfl
                    cases hb : (e == t)
                    · rfl
                    · rw [spBad, hb] at h1; simp at h1
                  rw [replacePair_step t ' ' (by
                    intro hc
                    rw [expandK_head] at hc
                    have := hc.2
                    injection this with h2
                    rw [h2] at het
                    simp at het)]
                  rw [IH (e :: r3) hlen' (noPair_tail _ _ _ hsp)]
            · rw [replacePair_step t c (fun hc => hcs hc.1)]
              rw [IH rest hlen' (noPair_tail _ _ _ hsp)]

theorem punct_not_quote {c : Char} (h : isPunctChar c = true) : isQuoteChar c = false := by
  simp only [isPunctChar, Bool.or_eq_true, decide_eq_true_eq] at h
  rcases h with (((((e | e) | e) | e) | e) | e) <;> subst e <;> decide

theorem closeParen_expandK (K : Char → Bool) :
    ∀ (n : Nat) (y : List Char), y.length ≤ n →
    wsOkB y = true → noPair dblBad y = true → noPair (spBad ')') y = true →
    closeParen (expandK K y) = expandK (fun d => K d && !(d == ')')) y := by
  intro n
  induction n with
  | zero =>
      intro y hlen _ _ _
      have : y = [] := by
        cases y with
        | nil => rfl
        | cons a l => simp at hlen
      subst this
      rw [expandK_nil, expandK_nil, closeParen_nil]
  | succ n IH =>
      intro y hlen hws hdbl hsp
      cases y with
      | nil => rw [expandK_nil, expandK_nil, closeParen_nil]
      | cons c rest =>
          have hlen' : rest.length ≤ n := by
            simp only [List.length_cons] at hlen; omega
          have hclose_space : closeParen [' '] = [' '] := by
            rw [closeParen_ws_other (by decide) (by
              intro h
              simp [List.dropWhile] at h)]
            rw [closeParen_nil]
          by_cases hcp : isPunctChar c = true
          · have hcw : pyIsSpace c = false := punct_not_space hcp
            cases rest with
            | nil =>
                rw [expandK_punct_nil _ hcp, expandK_punct_nil _ hcp]
                rw [closeParen_nonws _ hcw, hclose_space]
            | cons d r2 =>
                by_cases hd : (d == ' ') = true
                · have hd' : d = ' ' := by simpa using hd
                  subst hd'
                  rw [expandK_punct_space _ r2 hcp, expandK_punct_space _ r2 hcp]
                  rw [closeParen_nonws _ hcw]
                  rw [IH (' ' :: r2) hlen' (wsOk_tail _ _ hws)
                    (noPair_tail _ _ _ hdbl) (noPair_tail _ _ _ hsp)]
                · have hd0 : (d == ' ') = false := by simpa using hd
                  have hdw : pyIsSpace d = false :=
                    wsOkC_ne (wsOk_head _ d (wsOk_tail _ _ hws) rfl) hd0
                  by_cases hK : K d = true
                  · by_cases hdp : (d == ')') = true
                    · have hdp2 : d = ')' := by simpa using hdp
                      subst hdp2
                      rw [expandK_punct_keep _ r2 hcp hd0 hK]
                      rw [expandK_punct_skip _ r2 hcp hd0 (by simp [hK])]
                      obtain ⟨X, hX⟩ := expandK_cons_ex K ')' r2
                      have hrec := IH (')' :: r2) hlen' (wsOk_tail _ _ hws)
                        (noPair_tail _ _ _ hdbl) (noPair_tail _ _ _ hsp)
                      rw [hX] at hrec
                      rw [closeParen_nonws _ (by decide)] at hrec
                      rw [hX]
                      rw [closeParen_nonws _ hcw]
                      rw [closeParen_ws_paren (by decide) (by
                        rw [List.dropWhile_cons_of_neg (by decide)])]
                      rw [← hrec]
                    · have hdp0 : (d == ')') = false := by simpa using hdp
                      rw [expandK_punct_keep _ r2 hcp hd0 hK]
                      rw [expandK_punct_keep _ r2 hcp hd0 (by simp [hK, hdp0])]
                      rw [closeParen_nonws _ hcw]
                      rw [closeParen_ws_other (by decide) (by
                        rw [dropWhile_eq_self_of_head pyIsSpace _ (by
                          intro c' hc'
                          rw [expandK_head] at hc'
                          injection hc' with h2
                          rw [← h2]
                          exact hdw)]
                        rw [expandK_head]
                        intro hcon
                        injection hcon with h2
                        rw [h2] at hdp0
                        simp at hdp0)]
                      rw [IH (d :: r2) hlen' (wsOk_tail _ _ hws)
                        (noPair_tail _ _ _ hdbl) (noPair_tail _ _ _ hsp)]
                  · have hK0 : K d = false := by simpa using hK
                    rw [expandK_punct_skip _ r2 hcp hd0 hK0]
                    rw [expandK_punct_skip _ r2 hcp hd0 (by simp [hK0])]
                    rw [closeParen_nonws _ hcw]
                    rw [IH (d :: r2) hlen' (wsOk_tail _ _ hws)
                      (noPair_tail _ _ _ hdbl) (noPair_tail _ _ _ hsp)]
          · have hcp' : isPunctChar c = false := by simpa using hcp
            rw [expandK_nonpunct _ rest hcp', expandK_nonpunct _ rest hcp']
            by_cases hcs : c = ' '
            · subst hcs
              cases rest with
              | nil =>
                  rw [expandK_nil, expandK_nil, hclose_space]
              | cons e r3 =>
                  have he0 : (e == ' ') = false := by
                    have h1 := noPair_head _ _ _ _ hdbl rfl
                    cases hb : (e == ' ')
                    · rfl
                    · rw [dblBad, hb] at h1; simp at h1
                  have hew : pyIsSpace e = false :=
                    wsOkC_ne (wsOk_head _ e (wsOk_tail _ _ hws) rfl) he0
                  have hep : (e == ')') = false := by
                    have h1 := noPair_head _ _ _ _ hsp rfl
                    cases hb : (e == ')')
                    · rfl
                    · rw [spBad, hb] at h1; simp at h1
                  rw [closeParen_ws_other (by decide) (by
                    rw [dropWhile_eq_self_of_head pyIsSpace _ (by
                      intro c' hc'
                      rw [expandK_head] at hc'
                      injection hc' with h2
                      rw [← h2]
                      exact hew)]
                    rw [expandK_head]
                    intro hcon
                    injection hcon with h2
                    rw [h2] at hep
                    simp at hep)]
                  rw [IH (e :: r3) hlen' (wsOk_tail _ _ hws)
                    (noPair_tail _ _ _ hdbl) (noPair_tail _ _ _ hsp)]
            · have hcw : pyIsSpace c = false :=
                wsOkC_ne (wsOk_head _ c hws rfl) (by
                  cases hb : (c == ' ')
                  · rfl
                  · exfalso; exact hcs (by simpa using hb))
              rw [closeParen_nonws _ hcw]
              rw [IH rest hlen' (wsOk_tail _ _ hws)
                (noPair_tail _ _ _ hdbl) (noPair_tail _ _ _ hsp)]

theorem qScan_expandK (K : Char → Bool) :
    ∀ (n : Nat) (y : List Char), y.length ≤ n →
    wsOkB y = true → noPair dblBad y = true → noPair qspBad y = true →
    qScan (expandK K y) = expandK (fun d => K d && !isQuoteChar d) y := by
  intro n
  induction n with
  | zero =>
      intro y hlen _ _ _
      have : y = [] := by
        cases y with
        | nil => rfl
        | cons a l => simp at hlen
      subst this
      rw [expandK_nil, expandK_nil, qScan_nil]
  | succ n IH =>
      intro y hlen hws hdbl hsp
      cases y with
      | nil => rw [expandK_nil, expandK_nil, qScan_nil]
      | cons c rest =>
          have hlen' : rest.length ≤ n := by
            simp only [List.length_cons] at hlen; omega
          have hq_space : qScan [' '] = [' '] := by
            rw [qScan_ws_other (by decide) (by
              intro q hq
              simp [List.dropWhile] at hq)]
            rw [qScan_nil]
          by_cases hcp : isPunctChar c = true
          · have hcw : pyIsSpace c = false := punct_not_space hcp
            have hcq : isQuoteChar c = false := punct_not_quote hcp
            cases rest with
            | nil =>
                rw [expandK_punct_nil _ hcp, expandK_punct_nil _ hcp]
                rw [qScan_other _ hcw hcq, hq_space]
            | cons d r2 =>
                by_cases hd : (d == ' ') = true
                · have hd' : d = ' ' := by simpa using hd
                  subst hd'
                  rw [expandK_punct_space _ r2 hcp, expandK_punct_space _ r2 hcp]
                  rw [qScan_other _ hcw hcq]
                  rw [IH (' ' :: r2) hlen' (wsOk_tail _ _ hws)
                    (noPair_tail _ _ _ hdbl) (noPair_tail _ _ _ hsp)]
                · have hd0 : (d == ' ') = false := by simpa using hd
                  have hdw : pyIsSpace d = false :=
                    wsOkC_ne (wsOk_head _ d (wsOk_tail _ _ hws) rfl) hd0
                  by_cases hK : K d = true
                  · by_cases hdq : isQuoteChar d = true
                    · -- inserted space directly before a quote: the pass removes it
                      rw [expandK_punct_keep _ r2 hcp hd0 hK]
                      rw [expandK_punct_skip _ r2 hcp hd0 (by simp [hK, hdq])]
                      rw [expandK_nonpunct _ r2 (quote_not_punct hdq)]
                      rw [expandK_nonpunct _ r2 (quote_not_punct hdq)]
                      rw [qScan_other _ hcw hcq]
                      have hX : (expandK K r2).dropWhile pyIsSpace = expandK K r2 := by
                        apply dropWhile_eq_self_of_head
                        intro c' hc'
                        cases r2 with
                        | nil => cases hc'
                        | cons e r3 =>
                            rw [expandK_head] at hc'
                            injection hc' with h2
                            rw [← h2]
                            have he0 : (e == ' ') = false := by
                              have h1 := noPair_head _ _ _ _
                                (noPair_tail _ _ _ hsp) rfl
                              cases hb : (e == ' ')
                              · rfl
                              · exfalso
                                rw [qspBad, hb, hdq] at h1
                                simp at h1
                            exact wsOkC_ne (wsOk_head _ e
                              (wsOk_tail _ _ (wsOk_tail _ _ hws)) rfl) he0
                      rw [qScan_ws_quote (by decide) (by
                        rw [List.dropWhile_cons_of_neg (by simp [quote_not_space hdq])])
                        hdq]
                      rw [hX]
                      have hsuf : r2 <:+ c :: d :: r2 := ⟨[c, d], rfl⟩
                      rw [IH r2 (by simp only [List.length_cons] at hlen; omega)
                        (wsOk_suffix _ _ hsuf hws) (noPair_suffix _ _ _ hsuf hdbl)
                        (noPair_suffix _ _ _ hsuf hsp)]
                    · have hdq0 : isQuoteChar d = false := by simpa using hdq
                      rw [expandK_punct_keep _ r2 hcp hd0 hK]
                      rw [expandK_punct_keep _ r2 hcp hd0 (by simp [hK, hdq0])]
                      rw [qScan_other _ hcw hcq]
                      rw [qScan_ws_other (by decide) (by
                        rw [dropWhile_eq_self_of_head pyIsSpace _ (by
                          intro c' hc'
                          rw [expandK_head] at hc'
                          injection hc' with h2
                          rw [← h2]
                          exact hdw)]
                        intro q hq
                        rw [expandK_head] at hq
                        injection hq with h2
                        rw [← h2]
                        exact hdq0)]
                      rw [IH (d :: r2) hlen' (wsOk_tail _ _ hws)
                        (noPair_tail _ _ _ hdbl) (noPair_tail _ _ _ hsp)]
                  · have hK0 : K d = false := by simpa using hK
                    rw [expandK_punct_skip _ r2 hcp hd0 hK0]
                    rw [expandK_punct_skip _ r2 hcp hd0 (by simp [hK0])]
                    rw [qScan_other _ hcw hcq]
                    rw [IH (d :: r2) hlen' (wsOk_tail _ _ hws)
                      (noPair_tail _ _ _ hdbl) (noPair_tail _ _ _ hsp)]
          · have hcp' : isPunctChar c = false := by simpa using hcp
            rw [expandK_nonpunct _ rest hcp', expandK_nonpunct _ rest hcp']
            by_cases hcq : isQuoteChar c = true
            · -- a quote from y has no adjacent spaces
              have hcw : pyIsSpace c = false := quote_not_space hcq
              rw [qScan_quote _ hcw hcq]
              have hX : (expandK K rest).dropWhile pyIsSpace = expandK K rest := by
                apply dropWhile_eq_self_of_head
                intro c' hc'
                cases rest with
                | nil => cases hc'
                | cons e r3 =>
                    rw [expandK_head] at hc'
                    injection hc' with h2
                    rw [← h2]
                    have he0 : (e == ' ') = false := by
                      have h1 := noPair_head _ _ _ _ hsp rfl
                      cases hb : (e == ' ')
                      · rfl
                      · exfalso
                        rw [qspBad, hb, hcq] at h1
                        simp at h1
                    exact wsOkC_ne (wsOk_head _ e (wsOk_tail _ _ hws) rfl) he0
              rw [hX]
              rw [IH rest hlen' (wsOk_tail _ _ hws)
                (noPair_tail _ _ _ hdbl) (noPair_tail _ _ _ hsp)]
            · have hcq0 : isQuoteChar c = false := by simpa using hcq
              by_cases hcs : c = ' '
              · subst hcs
                cases rest with
                | nil =>
                    rw [expandK_nil, expandK_nil, hq_space]
                | cons e r3 =>
                    have he0 : (e == ' ') = false := by
                      have h1 := noPair_head _ _ _ _ hdbl rfl
                      cases hb : (e == ' ')
                      · rfl
                      · rw [dblBad, hb] at h1; simp at h1
                    have hew : pyIsSpace e = false :=
                      wsOkC_ne (wsOk_head _ e (wsOk_tail _ _ hws) rfl) he0
                    have heq : isQuoteChar e = false := by
                      have h1 := noPair_head _ _ _ _ hsp rfl
                      cases hb : isQuoteChar e
                      · rfl
                      · exfalso
                        rw [qspBad, hb] at h1
                        simp at h1
                    rw [qScan_ws_other (by decide) (by
                      rw [dropWhile_eq_self_of_head pyIsSpace _ (by
                        intro c' hc'
                        rw [expandK_head] at hc'
                        injection hc' with h2
                        rw [← h2]
                        exact hew)]
                      intro q hq
                      rw [expandK_head] at hq
                      injection hq with h2
                      rw [← h2]
                      exact heq)]
                    rw [IH (e :: r3) hlen' (wsOk_tail _ _ hws)
                      (noPair_tail _ _ _ hdbl) (noPair_tail _ _ _ hsp)]
              · have hcw : pyIsSpace c = false :=
                  wsOkC_ne (wsOk_head _ c hws rfl) (by
                    cases hb : (c == ' ')
                    · rfl
                    · exfalso; exact hcs (by simpa using hb))
                rw [qScan_other _ hcw hcq0]
                rw [IH rest hlen' (wsOk_tail _ _ hws)
                  (noPair_tail _ _ _ hdbl) (noPair_tail _ _ _ hsp)]

theorem openParen_id :
    ∀ (n : Nat) (z : List Char), z.length ≤ n →
    wsOkB z = true → noPair pasBad z = true →
    openParen z = z := by
  intro n
  induction n with
  | zero =>
      intro z hlen _ _
      have : z = [] := by
        cases z with
        | nil => rfl
        | cons a l => simp at hlen
      subst this
      exact openParen_nil
  | succ n IH =>
      intro z hlen hws hpas
      cases z with
      | nil => exact openParen_nil
      | cons c rest =>
          have hlen' : rest.length ≤ n := by
            simp only [List.length_cons] at hlen; omega
          by_cases hc : (c == '(') = true
          · have hc' : c = '(' := by simpa using hc
            subst hc'
            cases rest with
            | nil => exact openParen_single '('
            | cons d r2 =>
                have hd0 : (d == ' ') = false := by
                  have h1 := noPair_head _ _ _ _ hpas rfl
                  cases hb : (d == ' ')
                  · rfl
                  · rw [pasBad, hb] at h1; simp at h1
                have hdw : pyIsSpace d = false :=
                  wsOkC_ne (wsOk_head _ d (wsOk_tail _ _ hws) rfl) hd0
                rw [openParen_paren_nonws r2 hdw]
                rw [IH (d :: r2) hlen' (wsOk_tail _ _ hws) (noPair_tail _ _ _ hpas)]
          · rw [openParen_nonparen rest (by simpa using hc)]
            rw [IH rest hlen' (wsOk_tail _ _ hws) (noPair_tail _ _ _ hpas)]

theorem expandK_noPair (bad : Char → Char → Bool) (K : Char → Bool)
    (h2 : ∀ p, isPunctChar p = true → bad p ' ' = false)
    (h3 : ∀ d, K d = true → bad ' ' d = false) :
    ∀ (n : Nat) (y : List Char), y.length ≤ n →
    noPair bad y = true → noPair bad (expandK K y) = true := by
  intro n
  induction n with
  | zero =>
      intro y hlen _
      have : y = [] := by
        cases y with
        | nil => rfl
        | cons a l => simp at hlen
      subst this
      rfl
  | succ n IH =>
      intro y hlen hnp
      cases y with
      | nil => rfl
      | cons c rest =>
          have hlen' : rest.length ≤ n := by
            simp only [List.length_cons] at hlen; omega
          by_cases hcp : isPunctChar c = true
          · cases rest with
            | nil =>
                rw [expandK_punct_nil _ hcp]
                apply noPair_cons
                · intro y2 hy2
                  cases hy2
                  exact h2 c hcp
                · rfl
            | cons d r2 =>
                by_cases hd : (d == ' ') = true
                · have hd' : d = ' ' := by simpa using hd
                  subst hd'
                  rw [expandK_punct_space _ r2 hcp]
                  apply noPair_cons
                  · intro y2 hy2
                    rw [expandK_head] at hy2
                    injection hy2 with h5
                    rw [← h5]
                    exact noPair_head _ _ _ _ hnp rfl
                  · exact IH _ hlen' (noPair_tail _ _ _ hnp)
                · have hd0 : (d == ' ') = false := by simpa using hd
                  by_cases hK : K d = true
                  · rw [expandK_punct_keep _ r2 hcp hd0 hK]
                    apply noPair_cons
                    · intro y2 hy2
                      cases hy2
                      exact h2 c hcp
                    · apply noPair_cons
                      · intro y2 hy2
                        rw [expandK_head] at hy2
                        injection hy2 with h5
                        rw [← h5]
                        exact h3 d hK
                      · exact IH _ hlen' (noPair_tail _ _ _ hnp)
                  · rw [expandK_punct_skip _ r2 hcp hd0 (by simpa using hK)]
                    apply noPair_cons
                    · intro y2 hy2
                      rw [expandK_head] at hy2
                      injection hy2 with h5
                      rw [← h5]
                      exact noPair_head _ _ _ _ hnp rfl
                    · exact IH _ hlen' (noPair_tail _ _ _ hnp)
          · rw [expandK_nonpunct _ rest (by simpa using hcp)]
            cases rest with
            | nil => rfl
            | cons d r2 =>
                apply noPair_cons
                · intro y2 hy2
                  rw [expandK_head] at hy2
                  injection hy2 with h5
                  rw [← h5]
                  exact noPair_head _ _ _ _ hnp rfl
                · exact IH _ hlen' (noPair_tail _ _ _ hnp)

theorem expandK_all (p : Char → Bool) (K : Char → Bool) (hsp : p ' ' = true) :
    ∀ (n : Nat) (y : List Char), y.length ≤ n →
    y.all p = true → (expandK K y).all p = true := by
  intro n
  induction n with
  | zero =>
      intro y hlen _
      have : y = [] := by
        cases y with
        | nil => rfl
        | cons a l => simp at hlen
      subst this
      rfl
  | succ n IH =>
      intro y hlen hall
      cases y with
      | nil => rfl
      | cons c rest =>
          have hlen' : rest.length ≤ n := by
            simp only [List.length_cons] at hlen; omega
          simp only [List.all_cons, Bool.and_eq_true] at hall
          by_cases hcp : isPunctChar c = true
          · cases rest with
            | nil =>
                rw [expandK_punct_nil _ hcp]
                simp [hall.1, hsp]
            | cons d r2 =>
                by_cases hd : (d == ' ') = true
                · have hd' : d = ' ' := by simpa using hd
                  subst hd'
                  rw [expandK_punct_space _ r2 hcp]
                  simp only [List.all_cons, Bool.and_eq_true]
                  exact ⟨hall.1, by
                    have := IH _ hlen' hall.2
                    simpa using this⟩
                · have hd0 : (d == ' ') = false := by simpa using hd
                  by_cases hK : K d = true
                  · rw [expandK_punct_keep _ r2 hcp hd0 hK]
                    simp only [List.all_cons, Bool.and_eq_true]
                    refine ⟨hall.1, hsp, ?_⟩
                    have := IH _ hlen' hall.2
                    simpa using this
                  · rw [expandK_punct_skip _ r2 hcp hd0 (by simpa using hK)]
                    simp only [List.all_cons, Bool.and_eq_true]
                    refine ⟨hall.1, ?_⟩
                    have := IH _ hlen' hall.2
                    simpa using this
          · rw [expandK_nonpunct _ rest (by simpa using hcp)]
            simp only [List.all_cons, Bool.and_eq_true]
            exact ⟨hall.1, IH _ hlen' hall.2⟩

theorem punct_K6 {d : Char} (h : isPunctChar d = true) : K6 d = false := by
  simp only [isPunctChar, Bool.or_eq_true, decide_eq_true_eq] at h
  rcases h with (((((e | e) | e) | e) | e) | e) <;> subst e <;> decide

theorem followerSet_K8 {d : Char} (hf : followerSet d = true)
    (hd : (d == ' ') = false) : K8 d = false := by
  simp only [followerSet, Bool.or_eq_true] at hf
  rcases hf with ((h | h) | h) | h
  · rw [h] at hd; cases hd
  · simp [K8, K7, punct_K6 h]
  · have h' : d = ')' := by simpa using h
    subst h'
    decide
  · simp [K8, h]

theorem pendSpace_nil : pendSpace [] = [] := rfl

theorem pendSpace_single (c : Char) :
    pendSpace [c] = if isPunctChar c then [c, ' '] else [c] := rfl

theorem pendSpace_cons (c d : Char) (r : List Char) :
    pendSpace (c :: d :: r) = c :: pendSpace (d :: r) := rfl

theorem expandK_K8_pend :
    ∀ (y : List Char), noPair (pfBad followerSet) y = true →
    expandK K8 y = pendSpace y := by
  intro y
  induction y with
  | nil => intro _; rfl
  | cons c rest ih =>
      intro hpf
      by_cases hcp : isPunctChar c = true
      · cases rest with
        | nil =>
            rw [expandK_punct_nil _ hcp, pendSpace_single]
            rw [if_pos hcp]
        | cons d r2 =>
            have hfd : followerSet d = true := by
              have h1 := noPair_head _ _ _ _ hpf rfl
              rw [pfBad, hcp] at h1
              simp only [Bool.true_and, Bool.not_eq_false'] at h1
              exact h1
            rw [pendSpace_cons]
            by_cases hd : (d == ' ') = true
            · have hd' : d = ' ' := by simpa using hd
              subst hd'
              rw [expandK_punct_space _ r2 hcp]
              rw [ih (noPair_tail _ _ _ hpf)]
            · have hd0 : (d == ' ') = false := by simpa using hd
              rw [expandK_punct_skip _ r2 hcp hd0 (followerSet_K8 hfd hd0)]
              rw [ih (noPair_tail _ _ _ hpf)]
      · rw [expandK_nonpunct _ rest (by simpa using hcp)]
        cases rest with
        | nil =>
            rw [expandK_nil, pendSpace_single, if_neg hcp]
        | cons d r2 =>
            rw [pendSpace_cons]
            rw [ih (noPair_tail _ _ _ hpf)]

theorem eScan_id :
    ∀ (n : Nat) (z : List Char), z.length ≤ n →
    no4dots z = true → eScan z = z := by
  intro n
  induction n with
  | zero =>
      intro z hlen _
      have : z = [] := by
        cases z with
        | nil => rfl
        | cons a l => simp at hlen
      subst this
      exact eScan_nil
  | succ n IH =>
      intro z hlen h4
      cases z with
      | nil => exact eScan_nil
      | cons c rest =>
          have hlen' : rest.length ≤ n := by
            simp only [List.length_cons] at hlen; omega
          by_cases hc : (c == '.') = true
          · have hc' : c = '.' := by simpa using hc
            subst hc'
            by_cases hk : 2 ≤ (rest.takeWhile (fun d => d = '.')).length
            · -- the run has exactly three dots
              rw [eScan_run hk]
              cases rest with
              | nil => simp [List.takeWhile] at hk
              | cons a r1 =>
                  by_cases ha : a = '.'
                  · subst ha
                    cases r1 with
                    | nil =>
                        simp [List.takeWhile] at hk
                    | cons b r2 =>
                        by_cases hb : b = '.'
                        · subst hb
                            -- three leading dots after c: the fourth must differ
                          cases r2 with
                          | nil =>
                              have htw : (['.', '.'] : List Char).takeWhile
                                  (fun d => d = '.') = ['.', '.'] := by
                                rw [List.takeWhile_cons_of_pos (by simp)]
                                rw [List.takeWhile_cons_of_pos (by simp)]
                                rfl
                              rw [htw]
                              simp [eScan_nil]
                          | cons e r3 =>
                              have he : (e == '.') = false := by
                                cases hbe : (e == '.')
                                · rfl
                                · exfalso
                                  have he' : e = '.' := by simpa using hbe
                                  subst he'
                                  simp [no4dots] at h4
                              have hts : (('.' :: '.' :: e :: r3 :
                                  List Char)).takeWhile (fun d => d = '.') =
                                  ['.', '.'] := by
                                rw [List.takeWhile_cons_of_pos (by simp)]
                                rw [List.takeWhile_cons_of_pos (by simp)]
                                rw [List.takeWhile_cons_of_neg (by
                                  simpa using he)]
                              rw [hts]
                              simp only [List.length_cons, List.length_nil]
                              have hdrop : ('.' :: '.' :: e :: r3 :
                                  List Char).drop 2 = e :: r3 := rfl
                              rw [hdrop]
                              have h4' : no4dots (e :: r3) = true := by
                                apply no4dots_suffix _ _ ⟨['.', '.', '.'], rfl⟩ h4
                              rw [IH (e :: r3) (by
                                simp only [List.length_cons] at hlen' ⊢
                                omega) h4']
                        · exfalso
                          have htb : (('.' :: b :: r2 :
                              List Char)).takeWhile (fun d => d = '.') =
                              ['.'] := by
                            rw [List.takeWhile_cons_of_pos (by simp)]
                            rw [List.takeWhile_cons_of_neg (by simpa using hb)]
                          rw [htb] at hk
                          simp at hk
                  · exfalso
                    have hta : ((a :: r1 : List Char)).takeWhile
                        (fun d => d = '.') = [] := by
                      rw [List.takeWhile_cons_of_neg (by simpa using ha)]
                    rw [hta] at hk
                    simp at hk
            · rw [eScan_dot_short hk]
              rw [IH rest hlen' (no4dots_tail _ _ h4)]
          · rw [eScan_nondot rest (by simpa using hc)]
            rw [IH rest hlen' (no4dots_tail _ _ h4)]

theorem mScan_id :
    ∀ (n : Nat) (z : List Char), z.length ≤ n →
    noPair bangBad z = true → mScan z = z := by
  intro n
  induction n with
  | zero =>
      intro z hlen _
      have : z = [] := by
        cases z with
        | nil => rfl
        | cons a l => simp at hlen
      subst this
      exact mScan_nil
  | succ n IH =>
      intro z hlen hbp
      cases z with
      | nil => exact mScan_nil
      | cons c rest =>
          have hlen' : rest.length ≤ n := by
            simp only [List.length_cons] at hlen; omega
          by_cases hc : isBangChar c = true
          · have htw : rest.takeWhile isBangChar = [] := by
              cases rest with
              | nil => rfl
              | cons e r3 =>
                  have h1 := noPair_head _ _ _ _ hbp rfl
                  rw [bangBad, hc] at h1
                  simp only [Bool.true_and] at h1
                  exact List.takeWhile_cons_of_neg (by simp [h1])
            rw [mScan_bang_single hc (by rw [htw]; simp)]
            rw [IH rest hlen' (noPair_tail _ _ _ hbp)]
          · rw [mScan_nonbang rest (by simpa using hc)]
            rw [IH rest hlen' (noPair_tail _ _ _ hbp)]

theorem pyStrip_id (l : List Char) (h : stripOkB l = true) : pyStrip l = l := by
  simp only [stripOkB, Bool.and_eq_true] at h
  unfold pyStrip
  have h1 : l.dropWhile pyIsSpace = l := by
    apply dropWhile_eq_self_of_head
    intro c hc
    have := h.1
    rw [hc] at this
    simpa using this
  rw [h1]
  have h2 : l.reverse.dropWhile pyIsSpace = l.reverse := by
    apply dropWhile_eq_self_of_head
    intro c hc
    rw [List.head?_reverse] at hc
    have := h.2
    rw [hc] at this
    simpa using this
  rw [h2, List.reverse_reverse]

theorem pyStrip_snoc_space (l : List Char) (h : stripOkB l = true) (hne : l ≠ []) :
    pyStrip (l ++ [' ']) = l := by
  simp only [stripOkB, Bool.and_eq_true] at h
  unfold pyStrip
  have h1 : (l ++ [' ']).dropWhile pyIsSpace = l ++ [' '] := by
    apply dropWhile_eq_self_of_head
    intro c hc
    cases l with
    | nil => exact absurd rfl hne
    | cons a l2 =>
        rw [List.cons_append] at hc
        injection hc with h2
        rw [← h2]
        have := h.1
        simpa using this
  rw [h1]
  rw [List.reverse_append]
  simp only [List.reverse_cons, List.reverse_nil, List.nil_append,
    List.singleton_append]
  rw [List.dropWhile_cons_of_pos (by decide)]
  have h2 : l.reverse.dropWhile pyIsSpace = l.reverse := by
    apply dropWhile_eq_self_of_head
    intro c hc
    rw [List.head?_reverse] at hc
    have := h.2
    rw [hc] at this
    simpa using this
  rw [h2, List.reverse_reverse]

theorem pendSpace_cases (y : List Char) :
    pendSpace y = y ∨ (y ≠ [] ∧ pendSpace y = y ++ [' ']) := by
  induction y with
  | nil => exact Or.inl rfl
  | cons c rest ih =>
      cases rest with
      | nil =>
          by_cases hc : isPunctChar c = true
          · exact Or.inr ⟨by simp, by rw [pendSpace_single, if_pos hc]; rfl⟩
          · exact Or.inl (by rw [pendSpace_single, if_neg hc])
      | cons d r2 =>
          rw [pendSpace_cons]
          rcases ih with h | ⟨hne, h⟩
          · exact Or.inl (by rw [h])
          · exact Or.inr ⟨by simp, by rw [h]; rfl⟩

theorem noPair_pend (bad : Char → Char → Bool)
    (h2 : ∀ p, isPunctChar p = true → bad p ' ' = false) :
    ∀ (y : List Char), noPair bad y = true → noPair bad (pendSpace y) = true := by
  intro y
  induction y with
  | nil => intro _; rfl
  | cons c rest ih =>
      intro hnp
      cases rest with
      | nil =>
          by_cases hc : isPunctChar c = true
          · rw [pendSpace_single, if_pos hc]
            apply noPair_cons
            · intro y2 hy2
              cases hy2
              exact h2 c hc
            · rfl
          · rw [pendSpace_single, if_neg hc]
            rfl
      | cons d r2 =>
          rw [pendSpace_cons]
          apply noPair_cons
          · intro y2 hy2
            have hh : (pendSpace (d :: r2)).head? = some d := by
              cases r2 with
              | nil =>
                  rw [pendSpace_single]
                  by_cases hd : isPunctChar d = true
                  · rw [if_pos hd]; rfl
                  · rw [if_neg hd]; rfl
              | cons e r3 => rw [pendSpace_cons]; rfl
            rw [hh] at hy2
            injection hy2 with h5
            rw [← h5]
            exact noPair_head _ _ _ _ hnp rfl
          · exact ih (noPair_tail _ _ _ hnp)

theorem no4dots_pend (y : List Char) (h : no4dots y = true) :
    no4dots (pendSpace y) = true := by
  rcases pendSpace_cases y with hp | ⟨hne, hp⟩
  · rw [hp]; exact h
  · rw [hp]
    clear hp hne
    induction y with
    | nil => rfl
    | cons c rest ih =>
        match rest with
        | [] => rfl
        | [a] => rfl
        | [a, b] =>
            simp only [List.cons_append, List.nil_append]
            rw [show no4dots (c :: a :: b :: ' ' :: []) =
              (!(c == '.' && a == '.' && b == '.' && (' ' == '.' : Bool)) &&
                no4dots (a :: b :: ' ' :: [])) from rfl]
            have h3 : no4dots (a :: b :: ' ' :: []) = true := rfl
            simp [h3]
        | a :: b :: e :: r4 =>
            simp only [List.cons_append]
            rw [show no4dots (c :: a :: b :: e :: (r4 ++ [' '])) =
              (!(c == '.' && a == '.' && b == '.' && e == '.') &&
                no4dots (a :: b :: e :: (r4 ++ [' ']))) from rfl]
            rw [show no4dots (c :: a :: b :: e :: r4) =
              (!(c == '.' && a == '.' && b == '.' && e == '.') &&
                no4dots (a :: b :: e :: r4)) from rfl] at h
            simp only [Bool.and_eq_true] at h
            simp only [Bool.and_eq_true]
            refine ⟨h.1, ?_⟩
            have := ih h.2
            simpa using this

theorem expandK_congr (K1 K2 : Char → Bool) (h : ∀ d, K1 d = K2 d) :
    ∀ (l : List Char), expandK K1 l = expandK K2 l := by
  intro l
  induction l with
  | nil => rfl
  | cons c rest ih =>
      by_cases hcp : isPunctChar c = true
      · cases rest with
        | nil => rw [expandK_punct_nil _ hcp, expandK_punct_nil _ hcp]
        | cons d r2 =>
            by_cases hd : (d == ' ') = true
            · have hd' : d = ' ' := by simpa using hd
              subst hd'
              rw [expandK_punct_space _ r2 hcp, expandK_punct_space _ r2 hcp, ih]
            · have hd0 : (d == ' ') = false := by simpa using hd
              by_cases hK : K1 d = true
              · rw [expandK_punct_keep _ r2 hcp hd0 hK,
                  expandK_punct_keep _ r2 hcp hd0 (by rw [← h d]; exact hK), ih]
              · have hK0 : K1 d = false := by simpa using hK
                rw [expandK_punct_skip _ r2 hcp hd0 hK0,
                  expandK_punct_skip _ r2 hcp hd0 (by rw [← h d]; exact hK0), ih]
      · rw [expandK_nonpunct _ rest (by simpa using hcp),
          expandK_nonpunct _ rest (by simpa using hcp), ih]

theorem normalizeText_eq (text : List Char) :
    normalizeText text =
      if pyStrip text = [] then []
      else pyStrip (mScan (eScan (qScan (openParen (closeParen
        (replacePair ' ' ';' ';' (replacePair ' ' ':' ':' (replacePair ' ' '?' '?'
          (replacePair ' ' '!' '!' (replacePair ' ' '.' '.'
            (replacePair ' ' ',' ','
              (pScan (dScan (wCollapse (pyStrip text))))))))))))))) := rfl

theorem normInv_fixed (y : List Char) (hInv : normInv y = true) :
    normalizeText y = y := by
  simp only [normInv, Bool.and_eq_true] at hInv
  obtain ⟨⟨⟨⟨⟨⟨⟨⟨⟨⟨⟨⟨⟨⟨h_ws, h_dbl⟩, h_c⟩, h_d⟩, h_b⟩, h_q⟩, h_co⟩, h_sc⟩,
    h_cp⟩, h_pas⟩, h_qsp⟩, h_bang⟩, h_pf⟩, h_4⟩, h_strip⟩ := hInv
  rw [normalizeText_eq]
  by_cases hy : y = []
  · subst hy
    rw [if_pos (show pyStrip ([] : List Char) = [] from rfl)]
  · have hstr : pyStrip y = y := pyStrip_id y h_strip
    rw [hstr, if_neg hy]
    rw [wCollapse_id y h_ws h_dbl]
    rw [dScan_eq_contract y.length y le_rfl h_ws h_dbl h_d h_c h_pf]
    -- the punctuation pass sees the contracted string
    have hspP : noPair spPunctBad y = true :=
      noPair_spPunct_of y h_c h_d h_sc h_co h_b h_q
    have h_ws' : wsOkB (contract y) = true :=
      contract_all wsOkC y.length y le_rfl h_ws
    have h_dbl' : noPair dblBad (contract y) = true :=
      contract_noPair dblBad (by
        intro s d2 hs _
        rw [dblBad, punct_ne_space (sep_punct hs)]
        rfl) y.length y le_rfl h_dbl
    have h_spP' : noPair spPunctBad (contract y) = true :=
      contract_noPair spPunctBad (by
        intro s d2 hs _
        rw [spPunctBad, punct_ne_space (sep_punct hs)]
        rfl) y.length y le_rfl hspP
    rw [pScan_eq_expandK (contract y).length (contract y) le_rfl
      h_ws' h_dbl' h_spP']
    rw [expandK_contract y.length y le_rfl]
    -- the six replacement passes
    rw [replacePair_expandK (fun _ => true) ',' (by decide) y.length y le_rfl h_c]
    rw [show expandK (fun d => (fun _ => true) d && !(d == ',')) y
      = expandK Kp1 y from expandK_congr _ _ (fun d => rfl) y]
    rw [replacePair_expandK Kp1 '.' (by decide) y.length y le_rfl h_d]
    rw [show expandK (fun d => Kp1 d && !(d == '.')) y
      = expandK Kp2 y from expandK_congr _ _ (fun d => rfl) y]
    rw [replacePair_expandK Kp2 '!' (by decide) y.length y le_rfl h_b]
    rw [show expandK (fun d => Kp2 d && !(d == '!')) y
      = expandK Kp3 y from expandK_congr _ _ (fun d => rfl) y]
    rw [replacePair_expandK Kp3 '?' (by decide) y.length y le_rfl h_q]
    rw [show expandK (fun d => Kp3 d && !(d == '?')) y
      = expandK Kp4 y from expandK_congr _ _ (fun d => rfl) y]
    rw [replacePair_expandK Kp4 ':' (by decide) y.length y le_rfl h_co]
    rw [show expandK (fun d => Kp4 d && !(d == ':')) y
      = expandK Kp5 y from expandK_congr _ _ (fun d => rfl) y]
    rw [replacePair_expandK Kp5 ';' (by decide) y.length y le_rfl h_sc]
    rw [show expandK (fun d => Kp5 d && !(d == ';')) y
      = expandK K6 y from expandK_congr _ _ (fun d => rfl) y]
    -- parenthesis passes
    rw [closeParen_expandK K6 y.length y le_rfl h_ws h_dbl h_cp]
    rw [show expandK (fun d => K6 d && !(d == ')')) y
      = expandK K7 y from expandK_congr _ _ (fun d => rfl) y]
    have h_pas7 : noPair pasBad (expandK K7 y) = true := by
      apply expandK_noPair pasBad K7 (by
        intro p hp
        rw [pasBad]
        have : (p == '(') = false := by
          simp only [isPunctChar, Bool.or_eq_true, decide_eq_true_eq] at hp
          rcases hp with (((((e | e) | e) | e) | e) | e) <;> subst e <;> decide
        rw [this]
        rfl) (by
        intro d _
        rfl) y.length y le_rfl h_pas
    have h_ws7 : wsOkB (expandK K7 y) = true :=
      expandK_all wsOkC K7 (by decide) y.length y le_rfl h_ws
    rw [openParen_id (expandK K7 y).length (expandK K7 y) le_rfl h_ws7 h_pas7]
    -- quote pass
    rw [qScan_expandK K7 y.length y le_rfl h_ws h_dbl h_qsp]
    rw [show expandK (fun d => K7 d && !isQuoteChar d) y
      = expandK K8 y from expandK_congr _ _ (fun d => rfl) y]
    rw [expandK_K8_pend y h_pf]
    -- trailing passes are the identity
    rw [eScan_id (pendSpace y).length (pendSpace y) le_rfl (no4dots_pend y h_4)]
    rw [mScan_id (pendSpace y).length (pendSpace y) le_rfl
      (noPair_pend bangBad (by
        intro p _
        rw [bangBad]
        have : isBangChar ' ' = false := by decide
        rw [this]
        simp) y h_bang)]
    rcases pendSpace_cases y with hp | ⟨_, hp⟩
    · rw [hp, pyStrip_id y h_strip]
    · rw [hp, pyStrip_snoc_space y h_strip hy]

theorem drop_takeWhile_eq_dropWhile (p : Char → Bool) :
    ∀ (l : List Char), l.drop (l.takeWhile p).length = l.dropWhile p := by
  intro l
  induction l with
  | nil => rfl
  | cons a l ih =>
      by_cases hp : p a = true
      · rw [List.takeWhile_cons_of_pos hp, List.dropWhile_cons_of_pos hp]
        simpa using ih
      · rw [List.takeWhile_cons_of_neg hp, List.dropWhile_cons_of_neg hp]
        rfl

theorem takeWhile_last_drop (p : Char → Bool) :
    ∀ (l : List Char) (c : Char), 0 < (l.takeWhile p).length →
    l.drop ((l.takeWhile p).length - 1) =
      ((l.takeWhile p).getLastD c) :: l.drop (l.takeWhile p).length := by
  intro l
  induction l with
  | nil => intro c h; simp [List.takeWhile] at h
  | cons a l ih =>
      intro c h
      by_cases hp : p a = true
      · rw [List.takeWhile_cons_of_pos hp] at h ⊢
        cases hw : l.takeWhile p with
        | nil =>
            simp
        | cons w0 ws =>
            have hlen : 0 < (l.takeWhile p).length := by rw [hw]; simp
            have hih := ih a hlen
            rw [hw] at hih
            simp only [List.length_cons, List.getLastD_cons,
              Nat.add_sub_cancel] at hih ⊢
            rw [List.drop_succ_cons, List.drop_succ_cons]
            exact hih
      · rw [List.takeWhile_cons_of_neg hp] at h
        simp at h

theorem no4dots_cons_head1 (x : Char) (M : List Char)
    (hz : ∀ z, M.head? = some z → (z == '.') = false)
    (h : no4dots M = true) : no4dots (x :: M) = true := by
  match M with
  | [] => rfl
  | [a] => rfl
  | [a, b] => rfl
  | a :: b :: c :: r =>
      have ha := hz a rfl
      rw [show no4dots (x :: a :: b :: c :: r) =
        (!(x == '.' && a == '.' && b == '.' && c == '.') &&
          no4dots (a :: b :: c :: r)) from rfl]
      simp [ha, h]

theorem no4dots_cons_head2 (x : Char) (M' : List Char)
    (hz : ∀ z, M'.head? = some z → (z == '.') = false)
    (h : no4dots ('.' :: M') = true) : no4dots (x :: '.' :: M') = true := by
  match M' with
  | [] => rfl
  | [a] => rfl
  | a :: b :: r =>
      have ha := hz a rfl
      rw [show no4dots (x :: '.' :: a :: b :: r) =
        (!(x == '.' && ('.' == '.' : Bool) && a == '.' && b == '.') &&
          no4dots ('.' :: a :: b :: r)) from rfl]
      simp [ha, h]

theorem no4dots_append_left :
    ∀ (l t : List Char), no4dots (l ++ t) = true → no4dots l = true := by
  intro l
  induction l with
  | nil => intro t _; rfl
  | cons c l ih =>
      intro t h
      match l with
      | [] => rfl
      | [a] => rfl
      | [a, b] => rfl
      | a :: b :: e :: r =>
          rw [show no4dots (c :: a :: b :: e :: r) =
            (!(c == '.' && a == '.' && b == '.' && e == '.') &&
              no4dots (a :: b :: e :: r)) from rfl]
          simp only [List.cons_append] at h
          rw [show no4dots (c :: a :: b :: e :: (r ++ t)) =
            (!(c == '.' && a == '.' && b == '.' && e == '.') &&
              no4dots (a :: b :: e :: (r ++ t))) from rfl] at h
          simp only [Bool.and_eq_true] at h ⊢
          refine ⟨h.1, ?_⟩
          have := ih t (by
            simp only [List.cons_append]
            exact h.2)
          exact this

theorem no4dots_within (l₂ l₁ : List Char) (hs : l₂ <:+: l₁)
    (h : no4dots l₁ = true) : no4dots l₂ = true := by
  obtain ⟨s, t, rfl⟩ := hs
  have h1 : no4dots (l₂ ++ t) = true := by
    apply no4dots_suffix _ _ ⟨s, by simp⟩ h
  exact no4dots_append_left _ _ h1

theorem all_within (p : Char → Bool) (l₂ l₁ : List Char) (hs : l₂ <:+: l₁)
    (h : l₁.all p = true) : l₂.all p = true := by
  simp only [List.all_eq_true] at h ⊢
  intro x hx
  exact h x (hs.subset hx)

theorem wCollapse_wsOk : ∀ (n : Nat) (l : List Char), l.length ≤ n →
    wsOkB (wCollapse l) = true := by
  intro n
  induction n with
  | zero =>
      intro l hlen
      have : l = [] := by
        cases l with
        | nil => rfl
        | cons a t => simp at hlen
      subst this
      rw [wCollapse_nil]; rfl
  | succ n IH =>
      intro l hlen
      cases l with
      | nil => rw [wCollapse_nil]; rfl
      | cons c rest =>
          have hlen' : rest.length ≤ n := by
            simp only [List.length_cons] at hlen; omega
          by_cases hc : pyIsSpace c = true
          · rw [wCollapse_ws rest hc]
            simp only [wsOkB, List.all_cons, Bool.and_eq_true]
            refine ⟨by decide, ?_⟩
            have hsub := List.Sublist.length_le
              (List.dropWhile_sublist (l := rest) (p := pyIsSpace))
            exact IH _ (by omega)
          · rw [wCollapse_nonws rest (by simpa using hc)]
            simp only [wsOkB, List.all_cons, Bool.and_eq_true]
            refine ⟨by simp [wsOkC, hc], IH _ hlen'⟩

theorem wCollapse_dbl : ∀ (n : Nat) (l : List Char), l.length ≤ n →
    noPair dblBad (wCollapse l) = true := by
  intro n
  induction n with
  | zero =>
      intro l hlen
      have : l = [] := by
        cases l with
        | nil => rfl
        | cons a t => simp at hlen
      subst this
      rw [wCollapse_nil]; rfl
  | succ n IH =>
      intro l hlen
      cases l with
      | nil => rw [wCollapse_nil]; rfl
      | cons c rest =>
          have hlen' : rest.length ≤ n := by
            simp only [List.length_cons] at hlen; omega
          by_cases hc : pyIsSpace c = true
          · rw [wCollapse_ws rest hc]
            apply noPair_cons
            · intro y2 hy2
              cases hw : rest.dropWhile pyIsSpace with
              | nil => rw [hw, wCollapse_nil] at hy2; cases hy2
              | cons a r2 =>
                  have haw : pyIsSpace a = false :=
                    dropWhile_head_not pyIsSpace rest a (by rw [hw]; rfl)
                  rw [hw, wCollapse_nonws r2 haw] at hy2
                  injection hy2 with h5
                  rw [← h5]
                  simp [dblBad, show (a == ' ') = false by
                    cases hb : (a == ' ')
                    · rfl
                    · exfalso
                      have : a = ' ' := by simpa using hb
                      subst this
                      simp [pyIsSpace] at haw]
            · have hsub := List.Sublist.length_le
                (List.dropWhile_sublist (l := rest) (p := pyIsSpace))
              exact IH _ (by omega)
          · rw [wCollapse_nonws rest (by simpa using hc)]
            apply noPair_cons
            · intro y2 hy2
              have hcs : (c == ' ') = false := by
                cases hb : (c == ' ')
                · rfl
                · exfalso
                  have : c = ' ' := by simpa using hb
                  subst this
                  simp [pyIsSpace] at hc
              simp [dblBad, hcs]
            · exact IH _ hlen'

theorem dScan_noPair (bad : Char → Char → Bool)
    (hA : ∀ a b, a.isDigit = true → isSepChar b = true → bad a b = false)
    (hB : ∀ a b, isSepChar a = true → b.isDigit = true → bad a b = false) :
    ∀ (n : Nat) (l : List Char), l.length ≤ n →
    noPair bad l = true → noPair bad (dScan l) = true := by
  intro n
  induction n with
  | zero =>
      intro l hlen _
      have : l = [] := by
        cases l with
        | nil => rfl
        | cons a t => simp at hlen
      subst this
      rw [dScan_nil]; rfl
  | succ n IH =>
      intro l hlen hnp
      cases l with
      | nil => rw [dScan_nil]; rfl
      | cons c rest =>
          have hlen' : rest.length ≤ n := by
            simp only [List.length_cons] at hlen; omega
          by_cases hc : c.isDigit = true
          · cases hd : dTry rest with
            | some v =>
                obtain ⟨s, d2, r4⟩ := v
                obtain ⟨hsep, hdig, hdec⟩ := dTry_decomp hd
                have hsufr4 : d2 :: r4 <:+ rest := by
                  refine ⟨rest.takeWhile pyIsSpace ++ s ::
                    (rest.dropWhile pyIsSpace).tail.takeWhile pyIsSpace, ?_⟩
                  conv_rhs => rw [hdec]
                  simp
                have hr4len : r4.length ≤ n := by
                  have := List.IsSuffix.length_le hsufr4
                  simp only [List.length_cons] at this
                  omega
                rw [dScan_digit_some hc hd]
                apply noPair_cons
                · intro y2 hy2
                  cases hy2
                  exact hA c s hc hsep
                · apply noPair_cons
                  · intro y2 hy2
                    cases hy2
                    exact hB s d2 hsep hdig
                  · apply noPair_cons
                    · intro y2 hy2
                      rw [dScan_headQ] at hy2
                      have hsuf2 : noPair bad (d2 :: r4) = true := by
                        apply noPair_suffix _ _ _ _ (noPair_tail _ _ _ hnp)
                        exact hsufr4
                      exact noPair_head _ _ _ _ hsuf2 hy2
                    · apply IH r4 hr4len
                      apply noPair_suffix _ _ _ _ (noPair_tail _ _ _ hnp)
                      exact (List.suffix_cons d2 r4).trans hsufr4
            | none =>
                rw [dScan_digit_none hc hd]
                apply noPair_cons
                · intro y2 hy2
                  rw [dScan_headQ] at hy2
                  exact noPair_head _ _ _ _ hnp hy2
                · exact IH rest hlen' (noPair_tail _ _ _ hnp)
          · rw [dScan_nondigit (by simpa using hc)]
            apply noPair_cons
            · intro y2 hy2
              rw [dScan_headQ] at hy2
              exact noPair_head _ _ _ _ hnp hy2
            · exact IH rest hlen' (noPair_tail _ _ _ hnp)

theorem dScan_all (p : Char → Bool) :
    ∀ (n : Nat) (l : List Char), l.length ≤ n →
    l.all p = true → (dScan l).all p = true := by
  intro n
  induction n with
  | zero =>
      intro l hlen _
      have : l = [] := by
        cases l with
        | nil => rfl
        | cons a t => simp at hlen
      subst this
      rw [dScan_nil]; rfl
  | succ n IH =>
      intro l hlen hall
      cases l with
      | nil => rw [dScan_nil]; rfl
      | cons c rest =>
          have hlen' : rest.length ≤ n := by
            simp only [List.length_cons] at hlen; omega
          simp only [List.all_cons, Bool.and_eq_true] at hall
          by_cases hc : c.isDigit = true
          · cases hd : dTry rest with
            | some v =>
                obtain ⟨s, d2, r4⟩ := v
                obtain ⟨hsep, hdig, hdec⟩ := dTry_decomp hd
                have hmem_s : s ∈ rest := by rw [hdec]; simp
                have hmem_d2 : d2 ∈ rest := by rw [hdec]; simp
                have hsufr4 : d2 :: r4 <:+ rest := by
                  refine ⟨rest.takeWhile pyIsSpace ++ s ::
                    (rest.dropWhile pyIsSpace).tail.takeWhile pyIsSpace, ?_⟩
                  conv_rhs => rw [hdec]
                  simp
                have hr4len : r4.length ≤ n := by
                  have := List.IsSuffix.length_le hsufr4
                  simp only [List.length_cons] at this
                  omega
                rw [dScan_digit_some hc hd]
                simp only [List.all_cons, Bool.and_eq_true]
                refine ⟨hall.1, List.all_eq_true.mp hall.2 _ hmem_s,
                  List.all_eq_true.mp hall.2 _ hmem_d2, ?_⟩
                apply IH r4 hr4len
                simp only [List.all_eq_true]
                intro x hx
                exact List.all_eq_true.mp hall.2 _
                  (hsufr4.subset (List.mem_cons_of_mem d2 hx))
            | none =>
                rw [dScan_digit_none hc hd]
                simp only [List.all_cons, Bool.and_eq_true]
                exact ⟨hall.1, IH rest hlen' hall.2⟩
          · rw [dScan_nondigit (by simpa using hc)]
            simp only [List.all_cons, Bool.and_eq_true]
            exact ⟨hall.1, IH rest hlen' hall.2⟩

theorem pScan_good :
    ∀ (n : Nat) (l : List Char), l.length ≤ n →
    wsOkB l = true → noPair dblBad l = true →
    wsOkB (pScan l) = true ∧ noPair dblBad (pScan l) = true ∧
      noPair (pfBad (fun d => d == ' ')) (pScan l) = true := by
  intro n
  induction n with
  | zero =>
      intro l hlen _ _
      have : l = [] := by
        cases l with
        | nil => rfl
        | cons a t => simp at hlen
      subst this
      rw [pScan_nil]
      exact ⟨rfl, rfl, rfl⟩
  | succ n IH =>
      intro l hlen hws hdbl
      cases l with
      | nil =>
          rw [pScan_nil]
          exact ⟨rfl, rfl, rfl⟩
      | cons c rest =>
          have hlen' : rest.length ≤ n := by
            simp only [List.length_cons] at hlen; omega
          -- helper: conditions of the two-character emission p :: ' ' :: pScan w
          have hEmit2 : ∀ (p0 : Char) (w : List Char), w.length ≤ n →
              wsOkB w = true → noPair dblBad w = true →
              wsOkC p0 = true → isPunctChar p0 = true →
              (∀ z, w.head? = some z → pyIsSpace z = false) →
              wsOkB (p0 :: ' ' :: pScan w) = true ∧
                noPair dblBad (p0 :: ' ' :: pScan w) = true ∧
                noPair (pfBad (fun d => d == ' ')) (p0 :: ' ' :: pScan w) = true := by
            intro p0 w hwlen hww hwd hwc hpp hwh
            obtain ⟨g1, g2, g3⟩ := IH w hwlen hww hwd
            have hpair : ∀ y2, (pScan w).head? = some y2 → (y2 == ' ') = false := by
              intro y2 hy2
              cases w with
              | nil => rw [pScan_nil] at hy2; cases hy2
              | cons x r =>
                  have hx := hwh x rfl
                  rw [pScan_head_nonws r hx] at hy2
                  injection hy2 with h5
                  rw [← h5]
                  cases hb : (x == ' ')
                  · rfl
                  · exfalso
                    have hx' : x = ' ' := by simpa using hb
                    subst hx'
                    simp [pyIsSpace] at hx
            refine ⟨?_, ?_, ?_⟩
            · simp only [wsOkB, List.all_cons, Bool.and_eq_true] at g1 ⊢
              exact ⟨hwc, by decide, by
                have := g1
                simpa [wsOkB] using this⟩
            · apply noPair_cons
              · intro y2 hy2
                injection hy2 with h5
                rw [← h5]
                simp [dblBad, punct_ne_space hpp]
              · apply noPair_cons
                · intro y2 hy2
                  have := hpair y2 hy2
                  simp [dblBad, this]
                · exact g2
            · apply noPair_cons
              · intro y2 hy2
                injection hy2 with h5
                rw [← h5]
                simp [pfBad]
              · apply noPair_cons
                · intro y2 hy2
                  simp [pfBad, show isPunctChar ' ' = false from by decide]
                · exact g3
          by_cases hcw : pyIsSpace c = true
          · have hc' : c = ' ' := by
              have := wsOk_head _ c hws rfl
              simp only [wsOkC, Bool.or_eq_true, Bool.not_eq_true'] at this
              rcases this with h | h
              · rw [hcw] at h; cases h
              · simpa using h
            subst hc'
            cases rest with
            | nil =>
                rw [pScan_ws_other hcw (by
                  intro p hp
                  simp [List.dropWhile] at hp)]
                rw [pScan_nil]
                exact ⟨by decide, rfl, rfl⟩
            | cons e r3 =>
                have he0 : (e == ' ') = false := by
                  have h1 := noPair_head _ _ _ _ hdbl rfl
                  cases hb : (e == ' ')
                  · rfl
                  · exfalso; rw [dblBad, hb] at h1; simp at h1
                have hew : pyIsSpace e = false :=
                  wsOkC_ne (wsOk_head _ e (wsOk_tail _ _ hws) rfl) he0
                have hdr : (e :: r3).dropWhile pyIsSpace = e :: r3 :=
                  List.dropWhile_cons_of_neg (by simp [hew])
                by_cases hep : isPunctChar e = true
                · rw [pScan_ws_punct hcw hdr hep]
                  have hsubl := List.Sublist.length_le
                    (List.dropWhile_sublist (l := r3) (p := pyIsSpace))
                  apply hEmit2 e (r3.dropWhile pyIsSpace) (by
                      simp only [List.length_cons] at hlen; omega)
                    (wsOk_suffix _ _ (dropWhile_suffix' _ _)
                      (wsOk_tail _ _ (wsOk_tail _ _ hws)))
                    (noPair_suffix _ _ _ ((dropWhile_suffix' _ _).trans
                      ⟨[' ', e], rfl⟩) hdbl)
                    (wsOk_head _ e (wsOk_tail _ _ hws) rfl) hep
                  intro z hz
                  exact dropWhile_head_not pyIsSpace r3 z hz
                · rw [pScan_ws_other hcw (by
                    intro p hp
                    rw [hdr] at hp
                    injection hp with h6
                    rw [← h6]
                    simpa using hep)]
                  obtain ⟨g1, g2, g3⟩ := IH (e :: r3) hlen' (wsOk_tail _ _ hws)
                    (noPair_tail _ _ _ hdbl)
                  refine ⟨?_, ?_, ?_⟩
                  · simp only [wsOkB, List.all_cons, Bool.and_eq_true] at g1 ⊢
                    exact ⟨by decide, g1⟩
                  · apply noPair_cons
                    · intro y2 hy2
                      rw [pScan_head_nonws r3 hew] at hy2
                      injection hy2 with h5
                      rw [← h5]
                      simp [dblBad, he0]
                    · exact g2
                  · apply noPair_cons
                    · intro y2 hy2
                      simp [pfBad, show isPunctChar ' ' = false from by decide]
                    · exact g3
          · have hcw' : pyIsSpace c = false := by simpa using hcw
            by_cases hcp : isPunctChar c = true
            · rw [pScan_punct rest hcw' hcp]
              apply hEmit2 c (rest.dropWhile pyIsSpace) (by
                  have := List.Sublist.length_le
                    (List.dropWhile_sublist (l := rest) (p := pyIsSpace))
                  omega)
                (wsOk_suffix _ _ (dropWhile_suffix' _ _) (wsOk_tail _ _ hws))
                (noPair_suffix _ _ _ ((dropWhile_suffix' _ _).trans
                  ⟨[c], rfl⟩) hdbl)
                (wsOk_head _ c hws rfl) hcp
              intro z hz
              exact dropWhile_head_not pyIsSpace rest z hz
            · rw [pScan_nonpunct rest hcw' (by simpa using hcp)]
              obtain ⟨g1, g2, g3⟩ := IH rest hlen' (wsOk_tail _ _ hws)
                (noPair_tail _ _ _ hdbl)
              have hcs : (c == ' ') = false := by
                cases hb : (c == ' ')
                · rfl
                · exfalso
                  have : c = ' ' := by simpa using hb
                  subst this
                  simp [pyIsSpace] at hcw'
              refine ⟨?_, ?_, ?_⟩
              · simp only [wsOkB, List.all_cons, Bool.and_eq_true] at g1 ⊢
                exact ⟨wsOk_head _ c hws rfl, g1⟩
              · apply noPair_cons
                · intro y2 hy2
                  simp [dblBad, hcs]
                · exact g2
              · apply noPair_cons
                · intro y2 hy2
                  simp [pfBad, hcp]
                · exact g3

theorem replacePair_head_ex (a b r x : Char) (l : List Char) :
    ∃ z X, replacePair a b r (x :: l) = z :: X ∧
      (z = x ∨ (z = r ∧ x = a ∧ l.head? = some b)) := by
  by_cases h : x = a ∧ l.head? = some b
  · obtain ⟨hx, hb⟩ := h
    cases l with
    | nil => cases hb
    | cons y l2 =>
        injection hb with h5
        refine ⟨r, replacePair a b r l2, ?_, Or.inr ⟨rfl, hx, by rw [h5]; rfl⟩⟩
        rw [hx, h5]
        exact replacePair_pair a b r l2
  · exact ⟨x, _, replacePair_step r x h, Or.inl rfl⟩

theorem replacePair_noPair (bad : Char → Char → Bool) (t : Char)
    (hyp : ∀ x, bad x t = false) :
    ∀ (n : Nat) (l : List Char), l.length ≤ n →
    noPair bad l = true → noPair bad (replacePair ' ' t t l) = true := by
  intro n
  induction n with
  | zero =>
      intro l hlen _
      have : l = [] := by
        cases l with
        | nil => rfl
        | cons a s => simp at hlen
      subst this
      rw [replacePair_nil]; rfl
  | succ n IH =>
      intro l hlen hnp
      cases l with
      | nil => rw [replacePair_nil]; rfl
      | cons c rest =>
          have hlen' : rest.length ≤ n := by
            simp only [List.length_cons] at hlen; omega
          by_cases h : c = ' ' ∧ rest.head? = some t
          · obtain ⟨hc, hb⟩ := h
            cases rest with
            | nil => cases hb
            | cons y l2 =>
                injection hb with h5
                subst hc
                have h6 : t = y := h5.symm
                subst h6
                rw [replacePair_pair]
                apply noPair_cons
                · intro y2 hy2
                  cases l2 with
                  | nil => rw [replacePair_nil] at hy2; cases hy2
                  | cons u l3 =>
                      obtain ⟨z, X, hzx, hz⟩ := replacePair_head_ex ' ' t t u l3
                      rw [hzx] at hy2
                      injection hy2 with h6
                      rw [← h6]
                      rcases hz with hz | ⟨hz, _, _⟩
                      · rw [hz]
                        exact noPair_head _ _ _ _ (noPair_tail _ _ _ hnp) rfl
                      · rw [hz]
                        exact hyp t
                · apply IH l2 (by simp only [List.length_cons] at hlen; omega)
                  apply noPair_suffix _ _ _ _ hnp
                  exact ⟨[' ', t], rfl⟩
          · rw [replacePair_step t c h]
            apply noPair_cons
            · intro y2 hy2
              cases rest with
              | nil => rw [replacePair_nil] at hy2; cases hy2
              | cons u l3 =>
                  obtain ⟨z, X, hzx, hz⟩ := replacePair_head_ex ' ' t t u l3
                  rw [hzx] at hy2
                  injection hy2 with h6
                  rw [← h6]
                  rcases hz with hz | ⟨hz, _, _⟩
                  · rw [hz]
                    exact noPair_head _ _ _ _ hnp rfl
                  · rw [hz]
                    exact hyp c
            · exact IH rest hlen' (noPair_tail _ _ _ hnp)

theorem replacePair_est (t : Char) (ht : (t == ' ') = false) :
    ∀ (n : Nat) (l : List Char), l.length ≤ n →
    noPair dblBad l = true →
    noPair (spBad t) (replacePair ' ' t t l) = true := by
  intro n
  induction n with
  | zero =>
      intro l hlen _
      have : l = [] := by
        cases l with
        | nil => rfl
        | cons a s => simp at hlen
      subst this
      rw [replacePair_nil]; rfl
  | succ n IH =>
      intro l hlen hdbl
      cases l with
      | nil => rw [replacePair_nil]; rfl
      | cons c rest =>
          have hlen' : rest.length ≤ n := by
            simp only [List.length_cons] at hlen; omega
          by_cases h : c = ' ' ∧ rest.head? = some t
          · obtain ⟨hc, hb⟩ := h
            cases rest with
            | nil => cases hb
            | cons y l2 =>
                injection hb with h5
                subst hc
                have h6 : t = y := h5.symm
                subst h6
                rw [replacePair_pair]
                apply noPair_cons
                · intro y2 hy2
                  simp [spBad, ht]
                · apply IH l2 (by simp only [List.length_cons] at hlen; omega)
                  apply noPair_suffix _ _ _ _ hdbl
                  exact ⟨[' ', t], rfl⟩
          · rw [replacePair_step t c h]
            apply noPair_cons
            · intro y2 hy2
              cases hcs : (c == ' ')
              · simp [spBad, hcs]
              · have hc' : c = ' ' := by simpa using hcs
                subst hc'
                cases rest with
                | nil => rw [replacePair_nil] at hy2; cases hy2
                | cons u l3 =>
                    obtain ⟨z, X, hzx, hz⟩ := replacePair_head_ex ' ' t t u l3
                    rw [hzx] at hy2
                    injection hy2 with h6
                    rw [← h6]
                    rcases hz with hz | ⟨hz, hu, _⟩
                    · subst hz
                      cases hzt : (z == t) with
                      | false => simp [spBad, hzt]
                      | true =>
                          exfalso
                          apply h
                          refine ⟨rfl, ?_⟩
                          have hz2 : z = t := by simpa using hzt
                          rw [hz2]
                          rfl
                    · have h1 := noPair_head _ _ _ _ hdbl
                        (show ((u :: l3 : List Char)).head? = some u from rfl)
                      rw [dblBad, hu] at h1
                      simp at h1
            · exact IH rest hlen' (noPair_tail _ _ _ hdbl)

theorem replacePair_all (p : Char → Bool) (t : Char) (hp : p t = true) :
    ∀ (n : Nat) (l : List Char), l.length ≤ n →
    l.all p = true → (replacePair ' ' t t l).all p = true := by
  intro n
  induction n with
  | zero =>
      intro l hlen _
      have : l = [] := by
        cases l with
        | nil => rfl
        | cons a s => simp at hlen
      subst this
      rw [replacePair_nil]; rfl
  | succ n IH =>
      intro l hlen hall
      cases l with
      | nil => rw [replacePair_nil]; rfl
      | cons c rest =>
          have hlen' : rest.length ≤ n := by
            simp only [List.length_cons] at hlen; omega
          simp only [List.all_cons, Bool.and_eq_true] at hall
          by_cases h : c = ' ' ∧ rest.head? = some t
          · obtain ⟨hc, hb⟩ := h
            cases rest with
            | nil => cases hb
            | cons y l2 =>
                injection hb with h5
                subst hc
                have h6 : t = y := h5.symm
                subst h6
                rw [replacePair_pair]
                simp only [List.all_cons, Bool.and_eq_true]
                refine ⟨hp, ?_⟩
                apply IH l2 (by simp only [List.length_cons] at hlen; omega)
                simp only [List.all_cons, Bool.and_eq_true] at hall
                exact hall.2.2
          · rw [replacePair_step t c h]
            simp only [List.all_cons, Bool.and_eq_true]
            exact ⟨hall.1, IH rest hlen' hall.2⟩

theorem closeParen_head_ex (x : Char) (l : List Char) :
    ∃ z X, closeParen (x :: l) = z :: X ∧
      (z = x ∨ (z = ')' ∧ pyIsSpace x = true)) := by
  by_cases hx : pyIsSpace x = true
  · cases hm : l.dropWhile pyIsSpace with
    | nil =>
        refine ⟨x, _, closeParen_ws_other hx (by rw [hm]; simp), Or.inl rfl⟩
    | cons u r2 =>
        by_cases hu : u = ')'
        · subst hu
          exact ⟨')', _, closeParen_ws_paren hx hm, Or.inr ⟨rfl, hx⟩⟩
        · refine ⟨x, _, closeParen_ws_other hx (by
            rw [hm]
            intro hcon
            injection hcon with h5
            exact hu h5), Or.inl rfl⟩
  · exact ⟨x, _, closeParen_nonws l (by simpa using hx), Or.inl rfl⟩

theorem closeParen_noPair (bad : Char → Char → Bool)
    (hyp : ∀ x, bad x ')' = false) :
    ∀ (n : Nat) (l : List Char), l.length ≤ n →
    noPair bad l = true → noPair bad (closeParen l) = true := by
  intro n
  induction n with
  | zero =>
      intro l hlen _
      have : l = [] := by
        cases l with
        | nil => rfl
        | cons a s => simp at hlen
      subst this
      rw [closeParen_nil]; rfl
  | succ n IH =>
      intro l hlen hnp
      cases l with
      | nil => rw [closeParen_nil]; rfl
      | cons c rest =>
          have hlen' : rest.length ≤ n := by
            simp only [List.length_cons] at hlen; omega
          by_cases hcw : pyIsSpace c = true
          · cases hm : rest.dropWhile pyIsSpace with
            | nil =>
                rw [closeParen_ws_other hcw (by rw [hm]; simp)]
                apply noPair_cons
                · intro y2 hy2
                  cases rest with
                  | nil => rw [closeParen_nil] at hy2; cases hy2
                  | cons u l3 =>
                      obtain ⟨z, X, hzx, hz⟩ := closeParen_head_ex u l3
                      rw [hzx] at hy2
                      injection hy2 with h6
                      rw [← h6]
                      rcases hz with hz | ⟨hz, _⟩
                      · rw [hz]
                        exact noPair_head _ _ _ _ hnp rfl
                      · rw [hz]
                        exact hyp c
                · exact IH rest hlen' (noPair_tail _ _ _ hnp)
            | cons u r2 =>
                by_cases hu : u = ')'
                · subst hu
                  rw [closeParen_ws_paren hcw hm]
                  have hsuf : ')' :: r2 <:+ rest := by
                    rw [← hm]
                    exact dropWhile_suffix' pyIsSpace rest
                  have hr2len : r2.length ≤ n := by
                    have := List.IsSuffix.length_le hsuf
                    simp only [List.length_cons] at this
                    omega
                  apply noPair_cons
                  · intro y2 hy2
                    cases r2 with
                    | nil => rw [closeParen_nil] at hy2; cases hy2
                    | cons v l4 =>
                        obtain ⟨z, X, hzx, hz⟩ := closeParen_head_ex v l4
                        rw [hzx] at hy2
                        injection hy2 with h6
                        rw [← h6]
                        rcases hz with hz | ⟨hz, _⟩
                        · rw [hz]
                          have hsufnp : noPair bad (')' :: v :: l4) = true := by
                            apply noPair_suffix _ _ _ _ hnp
                            exact hsuf.trans (List.suffix_cons c rest)
                          exact noPair_head _ _ _ _ hsufnp rfl
                        · rw [hz]
                          exact hyp ')'
                  · apply IH r2 hr2len
                    apply noPair_suffix _ _ _ _ hnp
                    exact ((List.suffix_cons ')' r2).trans hsuf).trans
                      (List.suffix_cons c rest)
                · rw [closeParen_ws_other hcw (by
                    rw [hm]
                    intro hcon
                    injection hcon with h5
                    exact hu h5)]
                  apply noPair_cons
                  · intro y2 hy2
                    cases rest with
                    | nil => rw [closeParen_nil] at hy2; cases hy2
                    | cons u2 l3 =>
                        obtain ⟨z, X, hzx, hz⟩ := closeParen_head_ex u2 l3
                        rw [hzx] at hy2
                        injection hy2 with h6
                        rw [← h6]
                        rcases hz with hz | ⟨hz, _⟩
                        · rw [hz]
                          exact noPair_head _ _ _ _ hnp rfl
                        · rw [hz]
                          exact hyp c
                  · exact IH rest hlen' (noPair_tail _ _ _ hnp)
          · rw [closeParen_nonws rest (by simpa using hcw)]
            apply noPair_cons
            · intro y2 hy2
              cases rest with
              | nil => rw [closeParen_nil] at hy2; cases hy2
              | cons u l3 =>
                  obtain ⟨z, X, hzx, hz⟩ := closeParen_head_ex u l3
                  rw [hzx] at hy2
                  injection hy2 with h6
                  rw [← h6]
                  rcases hz with hz | ⟨hz, _⟩
                  · rw [hz]
                    exact noPair_head _ _ _ _ hnp rfl
                  · rw [hz]
                    exact hyp c
            · exact IH rest hlen' (noPair_tail _ _ _ hnp)

theorem closeParen_est :
    ∀ (n : Nat) (l : List Char), l.length ≤ n →
    wsOkB l = true → noPair dblBad l = true →
    noPair (spBad ')') (closeParen l) = true := by
  intro n
  induction n with
  | zero =>
      intro l hlen _ _
      have : l = [] := by
        cases l with
        | nil => rfl
        | cons a s => simp at hlen
      subst this
      rw [closeParen_nil]; rfl
  | succ n IH =>
      intro l hlen hws hdbl
      cases l with
      | nil => rw [closeParen_nil]; rfl
      | cons c rest =>
          have hlen' : rest.length ≤ n := by
            simp only [List.length_cons] at hlen; omega
          by_cases hcw : pyIsSpace c = true
          · have hc' : c = ' ' := by
              have := wsOk_head _ c hws rfl
              simp only [wsOkC, Bool.or_eq_true, Bool.not_eq_true'] at this
              rcases this with h | h
              · rw [hcw] at h; cases h
              · simpa using h
            subst hc'
            cases hm : rest.dropWhile pyIsSpace with
            | nil =>
                rw [closeParen_ws_other hcw (by rw [hm]; simp)]
                apply noPair_cons
                · intro y2 hy2
                  cases rest with
                  | nil => rw [closeParen_nil] at hy2; cases hy2
                  | cons u l3 =>
                      have hu0 : (u == ' ') = false := by
                        have h1 := noPair_head _ _ _ _ hdbl rfl
                        cases hb : (u == ' ')
                        · rfl
                        · exfalso; rw [dblBad, hb] at h1; simp at h1
                      have huw : pyIsSpace u = false :=
                        wsOkC_ne (wsOk_head _ u (wsOk_tail _ _ hws) rfl) hu0
                      rw [List.dropWhile_cons_of_neg (by simp [huw])] at hm
                      cases hm
                · exact IH rest hlen' (wsOk_tail _ _ hws) (noPair_tail _ _ _ hdbl)
            | cons u r2 =>
                by_cases hu : u = ')'
                · subst hu
                  rw [closeParen_ws_paren hcw hm]
                  have hsuf : ')' :: r2 <:+ rest := by
                    rw [← hm]
                    exact dropWhile_suffix' pyIsSpace rest
                  have hr2len : r2.length ≤ n := by
                    have := List.IsSuffix.length_le hsuf
                    simp only [List.length_cons] at this
                    omega
                  apply noPair_cons
                  · intro y2 hy2
                    simp [spBad]
                  · apply IH r2 hr2len
                    · apply wsOk_suffix _ _ (((List.suffix_cons ')' r2).trans
                        hsuf).trans (List.suffix_cons ' ' rest)) hws
                    · apply noPair_suffix _ _ _ (((List.suffix_cons ')' r2).trans
                        hsuf).trans (List.suffix_cons ' ' rest)) hdbl
                · rw [closeParen_ws_other hcw (by
                    rw [hm]
                    intro hcon
                    injection hcon with h5
                    exact hu h5)]
                  apply noPair_cons
                  · intro y2 hy2
                    cases rest with
                    | nil => rw [closeParen_nil] at hy2; cases hy2
                    | cons u2 l3 =>
                        have hu0 : (u2 == ' ') = false := by
                          have h1 := noPair_head _ _ _ _ hdbl rfl
                          cases hb : (u2 == ' ')
                          · rfl
                          · exfalso; rw [dblBad, hb] at h1; simp at h1
                        have huw : pyIsSpace u2 = false :=
                          wsOkC_ne (wsOk_head _ u2 (wsOk_tail _ _ hws) rfl) hu0
                        rw [List.dropWhile_cons_of_neg (by simp [huw])] at hm
                        injection hm with h7 h8
                        obtain ⟨z, X, hzx, hz⟩ := closeParen_head_ex u2 l3
                        rw [hzx] at hy2
                        injection hy2 with h6
                        rw [← h6]
                        rcases hz with hz | ⟨hz, hzw⟩
                        · subst hz
                          have : (z == ')') = false := by
                            cases hb : (z == ')')
                            · rfl
                            · exfalso
                              apply hu
                              rw [← h7]
                              simpa using hb
                          simp [spBad, this]
                        · rw [hzw] at huw
                          cases huw
                  · exact IH rest hlen' (wsOk_tail _ _ hws)
                      (noPair_tail _ _ _ hdbl)
          · rw [closeParen_nonws rest (by simpa using hcw)]
            have hcs : (c == ' ') = false := by
              cases hb : (c == ' ')
              · rfl
              · exfalso
                have : c = ' ' := by simpa using hb
                subst this
                simp [pyIsSpace] at hcw
            apply noPair_cons
            · intro y2 hy2
              simp [spBad, hcs]
            · exact IH rest hlen' (wsOk_tail _ _ hws) (noPair_tail _ _ _ hdbl)

theorem closeParen_all (p : Char → Bool) (hp : p ')' = true) :
    ∀ (n : Nat) (l : List Char), l.length ≤ n →
    l.all p = true → (closeParen l).all p = true := by
  intro n
  induction n with
  | zero =>
      intro l hlen _
      have : l = [] := by
        cases l with
        | nil => rfl
        | cons a s => simp at hlen
      subst this
      rw [closeParen_nil]; rfl
  | succ n IH =>
      intro l hlen hall
      cases l with
      | nil => rw [closeParen_nil]; rfl
      | cons c rest =>
          have hlen' : rest.length ≤ n := by
            simp only [List.length_cons] at hlen; omega
          simp only [List.all_cons, Bool.and_eq_true] at hall
          by_cases hcw : pyIsSpace c = true
          · cases hm : rest.dropWhile pyIsSpace with
            | nil =>
                rw [closeParen_ws_other hcw (by rw [hm]; simp)]
                simp only [List.all_cons, Bool.and_eq_true]
                exact ⟨hall.1, IH rest hlen' hall.2⟩
            | cons u r2 =>
                by_cases hu : u = ')'
                · subst hu
                  rw [closeParen_ws_paren hcw hm]
                  have hsuf : ')' :: r2 <:+ rest := by
                    rw [← hm]
                    exact dropWhile_suffix' pyIsSpace rest
                  have hr2len : r2.length ≤ n := by
                    have := List.IsSuffix.length_le hsuf
                    simp only [List.length_cons] at this
                    omega
                  simp only [List.all_cons, Bool.and_eq_true]
                  refine ⟨hp, ?_⟩
                  apply IH r2 hr2len
                  simp only [List.all_eq_true] at hall ⊢
                  intro x hx
                  exact hall.2 x (hsuf.subset (List.mem_cons_of_mem ')' hx))
                · rw [closeParen_ws_other hcw (by
                    rw [hm]
                    intro hcon
                    injection hcon with h5
                    exact hu h5)]
                  simp only [List.all_cons, Bool.and_eq_true]
                  exact ⟨hall.1, IH rest hlen' hall.2⟩
          · rw [closeParen_nonws rest (by simpa using hcw)]
            simp only [List.all_cons, Bool.and_eq_true]
            exact ⟨hall.1, IH rest hlen' hall.2⟩

theorem openParen_headQ : ∀ (l : List Char), (openParen l).head? = l.head? := by
  intro l
  match l with
  | [] => rw [openParen_nil]
  | [c] => rw [openParen_single]
  | c :: d :: rest =>
      by_cases hc : (c == '(') = true
      · have hc' : c = '(' := by simpa using hc
        subst hc'
        by_cases hd : pyIsSpace d = true
        · rw [openParen_paren_ws rest hd]; rfl
        · rw [openParen_paren_nonws rest (by simpa using hd)]; rfl
      · rw [openParen_nonparen (d :: rest) (by simpa using hc)]; rfl

theorem openParen_noPair (bad : Char → Char → Bool)
    (hyp : ∀ z, bad '(' z = false) :
    ∀ (n : Nat) (l : List Char), l.length ≤ n →
    noPair bad l = true → noPair bad (openParen l) = true := by
  intro n
  induction n with
  | zero =>
      intro l hlen _
      have : l = [] := by
        cases l with
        | nil => rfl
        | cons a s => simp at hlen
      subst this
      rw [openParen_nil]; rfl
  | succ n IH =>
      intro l hlen hnp
      cases l with
      | nil => rw [openParen_nil]; rfl
      | cons c rest =>
          have hlen' : rest.length ≤ n := by
            simp only [List.length_cons] at hlen; omega
          by_cases hc : (c == '(') = true
          · have hc' : c = '(' := by simpa using hc
            subst hc'
            cases rest with
            | nil => rw [openParen_single]; rfl
            | cons d r2 =>
                by_cases hd : pyIsSpace d = true
                · rw [openParen_paren_ws r2 hd]
                  apply noPair_cons
                  · intro y2 hy2
                    exact hyp y2
                  · have hsub := List.Sublist.length_le
                      (List.dropWhile_sublist (l := d :: r2) (p := pyIsSpace))
                    apply IH _ (by
                      simp only [List.length_cons] at hsub hlen ⊢
                      omega)
                    apply noPair_suffix _ _ _
                      ((dropWhile_suffix' pyIsSpace (d :: r2)).trans
                        (List.suffix_cons '(' (d :: r2))) hnp
                · rw [openParen_paren_nonws r2 (by simpa using hd)]
                  apply noPair_cons
                  · intro y2 hy2
                    exact hyp y2
                  · exact IH _ hlen' (noPair_tail _ _ _ hnp)
          · rw [openParen_nonparen rest (by simpa using hc)]
            apply noPair_cons
            · intro y2 hy2
              rw [openParen_headQ] at hy2
              exact noPair_head _ _ _ _ hnp hy2
            · exact IH rest hlen' (noPair_tail _ _ _ hnp)

theorem openParen_est :
    ∀ (n : Nat) (l : List Char), l.length ≤ n →
    noPair pasBad (openParen l) = true := by
  intro n
  induction n with
  | zero =>
      intro l hlen
      have : l = [] := by
        cases l with
        | nil => rfl
        | cons a s => simp at hlen
      subst this
      rw [openParen_nil]; rfl
  | succ n IH =>
      intro l hlen
      cases l with
      | nil => rw [openParen_nil]; rfl
      | cons c rest =>
          have hlen' : rest.length ≤ n := by
            simp only [List.length_cons] at hlen; omega
          by_cases hc : (c == '(') = true
          · have hc' : c = '(' := by simpa using hc
            subst hc'
            cases rest with
            | nil => rw [openParen_single]; rfl
            | cons d r2 =>
                by_cases hd : pyIsSpace d = true
                · rw [openParen_paren_ws r2 hd]
                  apply noPair_cons
                  · intro y2 hy2
                    rw [openParen_headQ] at hy2
                    have := dropWhile_head_not pyIsSpace (d :: r2) y2 hy2
                    simp only [pasBad]
                    have hz : (y2 == ' ') = false := by
                      cases hb : (y2 == ' ')
                      · rfl
                      · exfalso
                        have hy : y2 = ' ' := by simpa using hb
                        rw [hy] at this
                        exact absurd this (by decide)
                    simp [hz]
                  · have hsub := List.Sublist.length_le
                      (List.dropWhile_sublist (l := d :: r2) (p := pyIsSpace))
                    apply IH _ (by
                      simp only [List.length_cons] at hsub hlen ⊢
                      omega)
                · rw [openParen_paren_nonws r2 (by simpa using hd)]
                  apply noPair_cons
                  · intro y2 hy2
                    rw [openParen_headQ] at hy2
                    injection hy2 with h5
                    rw [← h5]
                    simp only [pasBad]
                    have hz : (d == ' ') = false := by
                      cases hb : (d == ' ')
                      · rfl
                      · exfalso
                        have : d = ' ' := by simpa using hb
                        subst this
                        simp [pyIsSpace] at hd
                    simp [hz]
                  · exact IH _ hlen'
          · rw [openParen_nonparen rest (by simpa using hc)]
            apply noPair_cons
            · intro y2 hy2
              simp [pasBad, hc]
            · exact IH rest hlen'

theorem openParen_all (p : Char → Bool) :
    ∀ (n : Nat) (l : List Char), l.length ≤ n →
    l.all p = true → (openParen l).all p = true := by
  intro n
  induction n with
  | zero =>
      intro l hlen _
      have : l = [] := by
        cases l with
        | nil => rfl
        | cons a s => simp at hlen
      subst this
      rw [openParen_nil]; rfl
  | succ n IH =>
      intro l hlen hall
      cases l with
      | nil => rw [openParen_nil]; rfl
      | cons c rest =>
          have hlen' : rest.length ≤ n := by
            simp only [List.length_cons] at hlen; omega
          simp only [List.all_cons, Bool.and_eq_true] at hall
          by_cases hc : (c == '(') = true
          · have hc' : c = '(' := by simpa using hc
            subst hc'
            cases rest with
            | nil =>
                rw [openParen_single]
                simp [hall.1]
            | cons d r2 =>
                by_cases hd : pyIsSpace d = true
                · rw [openParen_paren_ws r2 hd]
                  simp only [List.all_cons, Bool.and_eq_true]
                  refine ⟨hall.1, ?_⟩
                  have hsub := List.Sublist.length_le
                    (List.dropWhile_sublist (l := d :: r2) (p := pyIsSpace))
                  apply IH _ (by
                    simp only [List.length_cons] at hsub hlen ⊢
                    omega)
                  simp only [List.all_eq_true] at hall ⊢
                  intro x hx
                  exact hall.2 x ((dropWhile_suffix' pyIsSpace (d :: r2)).subset hx)
                · rw [openParen_paren_nonws r2 (by simpa using hd)]
                  simp only [List.all_cons, Bool.and_eq_true]
                  refine ⟨hall.1, ?_⟩
                  have := IH _ hlen' hall.2
                  simpa using this
          · rw [openParen_nonparen rest (by simpa using hc)]
            simp only [List.all_cons, Bool.and_eq_true]
            exact ⟨hall.1, IH rest hlen' hall.2⟩

theorem qScan_head_ex (x : Char) (l : List Char) :
    ∃ z X, qScan (x :: l) = z :: X ∧ (z = x ∨ isQuoteChar z = true) := by
  by_cases hx : pyIsSpace x = true
  · cases hm : l.dropWhile pyIsSpace with
    | nil =>
        refine ⟨x, _, qScan_ws_other hx (by rw [hm]; simp), Or.inl rfl⟩
    | cons u r2 =>
        by_cases hu : isQuoteChar u = true
        · exact ⟨u, _, qScan_ws_quote hx hm hu, Or.inr hu⟩
        · refine ⟨x, _, qScan_ws_other hx (by
            rw [hm]
            intro q hq
            injection hq with h5
            rw [← h5]
            simpa using hu), Or.inl rfl⟩
  · by_cases hq : isQuoteChar x = true
    · exact ⟨x, _, qScan_quote l (by simpa using hx) hq, Or.inl rfl⟩
    · exact ⟨x, _, qScan_other l (by simpa using hx) (by simpa using hq),
        Or.inl rfl⟩

theorem qScan_noPair (bad : Char → Char → Bool)
    (hq1 : ∀ x q, isQuoteChar q = true → bad x q = false)
    (hq2 : ∀ q z, isQuoteChar q = true → bad q z = false) :
    ∀ (n : Nat) (l : List Char), l.length ≤ n →
    noPair bad l = true → noPair bad (qScan l) = true := by
  intro n
  induction n with
  | zero =>
      intro l hlen _
      have : l = [] := by
        cases l with
        | nil => rfl
        | cons a s => simp at hlen
      subst this
      rw [qScan_nil]; rfl
  | succ n IH =>
      intro l hlen hnp
      cases l with
      | nil => rw [qScan_nil]; rfl
      | cons c rest =>
          have hlen' : rest.length ≤ n := by
            simp only [List.length_cons] at hlen; omega
          have hcons_step : ∀ (m : List Char), m <:+ rest → m.length ≤ n →
              (∀ y2, (qScan m).head? = some y2 → bad c y2 = false) →
              noPair bad (c :: qScan m) = true := by
            intro m hsuf hmlen hhead
            apply noPair_cons
            · exact hhead
            · exact IH m hmlen (noPair_suffix _ _ _
                (hsuf.trans (List.suffix_cons c rest)) hnp)
          by_cases hcw : pyIsSpace c = true
          · cases hm : rest.dropWhile pyIsSpace with
            | nil =>
                rw [qScan_ws_other hcw (by rw [hm]; simp)]
                apply hcons_step rest List.suffix_rfl hlen'
                intro y2 hy2
                cases rest with
                | nil => rw [qScan_nil] at hy2; cases hy2
                | cons u l3 =>
                    obtain ⟨z, X, hzx, hz⟩ := qScan_head_ex u l3
                    rw [hzx] at hy2
                    injection hy2 with h6
                    rw [← h6]
                    rcases hz with hz | hz
                    · rw [hz]
                      exact noPair_head _ _ _ _ hnp rfl
                    · exact hq1 c z hz
            | cons u r2 =>
                by_cases hu : isQuoteChar u = true
                · rw [qScan_ws_quote hcw hm hu]
                  have hsuf : u :: r2 <:+ rest := by
                    rw [← hm]
                    exact dropWhile_suffix' pyIsSpace rest
                  apply noPair_cons
                  · intro y2 hy2
                    exact hq2 u y2 hu
                  · have hsub := List.Sublist.length_le
                      (List.dropWhile_sublist (l := r2) (p := pyIsSpace))
                    have hr2 : r2.length ≤ n := by
                      have := List.IsSuffix.length_le hsuf
                      simp only [List.length_cons] at this
                      omega
                    apply IH _ (by omega)
                    apply noPair_suffix _ _ _ _ hnp
                    exact (((dropWhile_suffix' pyIsSpace r2).trans
                      (List.suffix_cons u r2)).trans hsuf).trans
                      (List.suffix_cons c rest)
                · rw [qScan_ws_other hcw (by
                    rw [hm]
                    intro q hq
                    injection hq with h5
                    rw [← h5]
                    simpa using hu)]
                  apply hcons_step rest List.suffix_rfl hlen'
                  intro y2 hy2
                  cases rest with
                  | nil => rw [qScan_nil] at hy2; cases hy2
                  | cons u2 l3 =>
                      obtain ⟨z, X, hzx, hz⟩ := qScan_head_ex u2 l3
                      rw [hzx] at hy2
                      injection hy2 with h6
                      rw [← h6]
                      rcases hz with hz | hz
                      · rw [hz]
                        exact noPair_head _ _ _ _ hnp rfl
                      · exact hq1 c z hz
          · have hcw' : pyIsSpace c = false := by simpa using hcw
            by_cases hcq : isQuoteChar c = true
            · rw [qScan_quote rest hcw' hcq]
              apply hcons_step (rest.dropWhile pyIsSpace)
                (dropWhile_suffix' pyIsSpace rest) (by
                  have := List.Sublist.length_le
                    (List.dropWhile_sublist (l := rest) (p := pyIsSpace))
                  omega)
              intro y2 hy2
              exact hq2 c y2 hcq
            · rw [qScan_other rest hcw' (by simpa using hcq)]
              apply hcons_step rest List.suffix_rfl hlen'
              intro y2 hy2
              cases rest with
              | nil => rw [qScan_nil] at hy2; cases hy2
              | cons u l3 =>
                  obtain ⟨z, X, hzx, hz⟩ := qScan_head_ex u l3
                  rw [hzx] at hy2
                  injection hy2 with h6
                  rw [← h6]
                  rcases hz with hz | hz
                  · rw [hz]
                    exact noPair_head _ _ _ _ hnp rfl
                  · exact hq1 c z hz

theorem qScan_est :
    ∀ (n : Nat) (l : List Char), l.length ≤ n →
    wsOkB l = true → noPair dblBad l = true →
    noPair qspBad (qScan l) = true := by
  intro n
  induction n with
  | zero =>
      intro l hlen _ _
      have : l = [] := by
        cases l with
        | nil => rfl
        | cons a s => simp at hlen
      subst this
      rw [qScan_nil]; rfl
  | succ n IH =>
      intro l hlen hws hdbl
      cases l with
      | nil => rw [qScan_nil]; rfl
      | cons c rest =>
          have hlen' : rest.length ≤ n := by
            simp only [List.length_cons] at hlen; omega
          by_cases hcw : pyIsSpace c = true
          · have hc' : c = ' ' := by
              have := wsOk_head _ c hws rfl
              simp only [wsOkC, Bool.or_eq_true, Bool.not_eq_true'] at this
              rcases this with h | h
              · rw [hcw] at h; cases h
              · simpa using h
            subst hc'
            cases rest with
            | nil =>
                rw [qScan_ws_other hcw (by simp [List.dropWhile])]
                rw [qScan_nil]
                rfl
            | cons u l3 =>
                have hu0 : (u == ' ') = false := by
                  have h1 := noPair_head _ _ _ _ hdbl rfl
                  cases hb : (u == ' ')
                  · rfl
                  · exfalso; rw [dblBad, hb] at h1; simp at h1
                have huw : pyIsSpace u = false :=
                  wsOkC_ne (wsOk_head _ u (wsOk_tail _ _ hws) rfl) hu0
                have hdr : (u :: l3).dropWhile pyIsSpace = u :: l3 :=
                  List.dropWhile_cons_of_neg (by simp [huw])
                by_cases hu : isQuoteChar u = true
                · rw [qScan_ws_quote hcw hdr hu]
                  apply noPair_cons
                  · intro y2 hy2
                    cases hl3 : l3.dropWhile pyIsSpace with
                    | nil => rw [hl3, qScan_nil] at hy2; cases hy2
                    | cons v l4 =>
                        have hvw : pyIsSpace v = false :=
                          dropWhile_head_not pyIsSpace l3 v (by rw [hl3]; rfl)
                        rw [hl3, qScan_head_nonws l4 hvw] at hy2
                        injection hy2 with h6
                        rw [← h6]
                        have hv0 : (v == ' ') = false := by
                          cases hb : (v == ' ')
                          · rfl
                          · exfalso
                            have : v = ' ' := by simpa using hb
                            subst this
                            exact absurd hvw (by decide)
                        simp [qspBad, hv0, hu0]
                  · have hsub := List.Sublist.length_le
                      (List.dropWhile_sublist (l := l3) (p := pyIsSpace))
                    apply IH _ (by
                      simp only [List.length_cons] at hlen
                      omega)
                    · apply wsOk_suffix _ _ ((dropWhile_suffix' pyIsSpace l3).trans
                        (((List.suffix_cons u l3)).trans
                          (List.suffix_cons ' ' (u :: l3)))) hws
                    · apply noPair_suffix _ _ _ ((dropWhile_suffix' pyIsSpace l3).trans
                        (((List.suffix_cons u l3)).trans
                          (List.suffix_cons ' ' (u :: l3)))) hdbl
                · rw [qScan_ws_other hcw (by
                    rw [hdr]
                    intro q hq
                    injection hq with h5
                    rw [← h5]
                    simpa using hu)]
                  apply noPair_cons
                  · intro y2 hy2
                    rw [qScan_head_nonws l3 huw] at hy2
                    injection hy2 with h6
                    rw [← h6]
                    simp only [qspBad]
                    have : isQuoteChar u = false := by simpa using hu
                    simp [this, hu0]
                  · exact IH _ hlen' (wsOk_tail _ _ hws) (noPair_tail _ _ _ hdbl)
          · have hcw' : pyIsSpace c = false := by simpa using hcw
            have hc0 : (c == ' ') = false := by
              cases hb : (c == ' ')
              · rfl
              · exfalso
                have : c = ' ' := by simpa using hb
                subst this
                simp [pyIsSpace] at hcw'
            by_cases hcq : isQuoteChar c = true
            · rw [qScan_quote rest hcw' hcq]
              apply noPair_cons
              · intro y2 hy2
                cases hm : rest.dropWhile pyIsSpace with
                | nil => rw [hm, qScan_nil] at hy2; cases hy2
                | cons v l4 =>
                    have hvw : pyIsSpace v = false :=
                      dropWhile_head_not pyIsSpace rest v (by rw [hm]; rfl)
                    rw [hm, qScan_head_nonws l4 hvw] at hy2
                    injection hy2 with h6
                    rw [← h6]
                    have hv0 : (v == ' ') = false := by
                      cases hb : (v == ' ')
                      · rfl
                      · exfalso
                        have : v = ' ' := by simpa using hb
                        subst this
                        exact absurd hvw (by decide)
                    simp [qspBad, hv0, hc0]
              · have hsub := List.Sublist.length_le
                  (List.dropWhile_sublist (l := rest) (p := pyIsSpace))
                apply IH _ (by omega)
                · exact wsOk_suffix _ _ ((dropWhile_suffix' pyIsSpace rest).trans
                    (List.suffix_cons c rest)) hws
                · exact noPair_suffix _ _ _ ((dropWhile_suffix' pyIsSpace rest).trans
                    (List.suffix_cons c rest)) hdbl
            · rw [qScan_other rest hcw' (by simpa using hcq)]
              apply noPair_cons
              · intro y2 hy2
                simp only [qspBad]
                have : isQuoteChar c = false := by simpa using hcq
                simp [this, hc0]
              · exact IH _ hlen' (wsOk_tail _ _ hws) (noPair_tail _ _ _ hdbl)

theorem qScan_all (p : Char → Bool)
    (hq : ∀ q, isQuoteChar q = true → p q = true) :
    ∀ (n : Nat) (l : List Char), l.length ≤ n →
    l.all p = true → (qScan l).all p = true := by
  intro n
  induction n with
  | zero =>
      intro l hlen _
      have : l = [] := by
        cases l with
        | nil => rfl
        | cons a s => simp at hlen
      subst this
      rw [qScan_nil]; rfl
  | succ n IH =>
      intro l hlen hall
      cases l with
      | nil => rw [qScan_nil]; rfl
      | cons c rest =>
          have hlen' : rest.length ≤ n := by
            simp only [List.length_cons] at hlen; omega
          simp only [List.all_cons, Bool.and_eq_true] at hall
          by_cases hcw : pyIsSpace c = true
          · cases hm : rest.dropWhile pyIsSpace with
            | nil =>
                rw [qScan_ws_other hcw (by rw [hm]; simp)]
                simp only [List.all_cons, Bool.and_eq_true]
                exact ⟨hall.1, IH rest hlen' hall.2⟩
            | cons u r2 =>
                by_cases hu : isQuoteChar u = true
                · rw [qScan_ws_quote hcw hm hu]
                  simp only [List.all_cons, Bool.and_eq_true]
                  refine ⟨hq u hu, ?_⟩
                  have hsuf : u :: r2 <:+ rest := by
                    rw [← hm]
                    exact dropWhile_suffix' pyIsSpace rest
                  have hsub := List.Sublist.length_le
                    (List.dropWhile_sublist (l := r2) (p := pyIsSpace))
                  have hr2 : r2.length ≤ n := by
                    have := List.IsSuffix.length_le hsuf
                    simp only [List.length_cons] at this
                    omega
                  apply IH _ (by omega)
                  simp only [List.all_eq_true] at hall ⊢
                  intro x hx
                  exact hall.2 x (((dropWhile_suffix' pyIsSpace r2).trans
                    ((List.suffix_cons u r2).trans hsuf)).subset hx)
                · rw [qScan_ws_other hcw (by
                    rw [hm]
                    intro q hq2
                    injection hq2 with h5
                    rw [← h5]
                    simpa using hu)]
                  simp only [List.all_cons, Bool.and_eq_true]
                  exact ⟨hall.1, IH rest hlen' hall.2⟩
          · have hcw' : pyIsSpace c = false := by simpa using hcw
            by_cases hcq : isQuoteChar c = true
            · rw [qScan_quote rest hcw' hcq]
              simp only [List.all_cons, Bool.and_eq_true]
              refine ⟨hall.1, ?_⟩
              have hsub := List.Sublist.length_le
                (List.dropWhile_sublist (l := rest) (p := pyIsSpace))
              apply IH _ (by omega)
              simp only [List.all_eq_true] at hall ⊢
              intro x hx
              exact hall.2 x ((dropWhile_suffix' pyIsSpace rest).subset hx)
            · rw [qScan_other rest hcw' (by simpa using hcq)]
              simp only [List.all_cons, Bool.and_eq_true]
              exact ⟨hall.1, IH rest hlen' hall.2⟩

theorem eScan_headQ (l : List Char) : (eScan l).head? = l.head? := by
  cases l with
  | nil => rw [eScan_nil]
  | cons c t => rw [eScan_head]; rfl

theorem no4dots_cons_gen (x : Char) (M : List Char)
    (hx : ∀ m', M = '.' :: '.' :: '.' :: m' → (x == '.') = false)
    (h : no4dots M = true) : no4dots (x :: M) = true := by
  match M with
  | [] => rfl
  | [a] => rfl
  | [a, b] => rfl
  | a :: b :: e :: r =>
      rw [show no4dots (x :: a :: b :: e :: r) =
        (!(x == '.' && a == '.' && b == '.' && e == '.') &&
          no4dots (a :: b :: e :: r)) from rfl]
      by_cases habe : a = '.' ∧ b = '.' ∧ e = '.'
      · obtain ⟨ha, hb, he⟩ := habe
        subst ha; subst hb; subst he
        have := hx r rfl
        simp [this, h]
      · simp only [Bool.and_eq_true]
        refine ⟨?_, h⟩
        cases hxa : (x == '.') <;> cases hba : (a == '.') <;>
          cases hbb : (b == '.') <;> cases hbe : (e == '.') <;>
          simp_all <;>
          exact habe ⟨by simpa using hba, by simpa using hbb, by simpa using hbe⟩

theorem takeWhile_head_pos (p : Char → Bool) (l : List Char)
    (h : 0 < (l.takeWhile p).length) :
    ∃ u t, l = u :: t ∧ p u = true := by
  cases l with
  | nil => simp [List.takeWhile] at h
  | cons u t =>
      by_cases hp : p u = true
      · exact ⟨u, t, rfl, hp⟩
      · rw [List.takeWhile_cons_of_neg hp] at h
        simp at h

theorem mScan_head_dot (x : Char) (l : List Char)
    (h : (mScan (x :: l)).head? = some '.') :
    x = '.' ∧ mScan (x :: l) = '.' :: mScan l := by
  obtain ⟨z, X, hzx, hz⟩ := mScan_head_ex x l
  rw [hzx] at h
  injection h with h5
  subst h5
  rcases hz with hz | ⟨_, hbz⟩
  · subst hz
    exact ⟨rfl, mScan_nonbang l (by decide)⟩
  · exact absurd hbz (by decide)

theorem eScan_noPair (bad : Char → Char → Bool) :
    ∀ (n : Nat) (l : List Char), l.length ≤ n →
    noPair bad l = true → noPair bad (eScan l) = true := by
  intro n
  induction n with
  | zero =>
      intro l hlen _
      have : l = [] := by
        cases l with
        | nil => rfl
        | cons a s => simp at hlen
      subst this
      rw [eScan_nil]; rfl
  | succ n IH =>
      intro l hlen hnp
      cases l with
      | nil => rw [eScan_nil]; rfl
      | cons c rest =>
          have hlen' : rest.length ≤ n := by
            simp only [List.length_cons] at hlen; omega
          by_cases hc : (c == '.') = true
          · have hc' : c = '.' := by simpa using hc
            subst hc'
            by_cases hk : 2 ≤ (rest.takeWhile (fun d => d = '.')).length
            · rw [eScan_run hk]
              have hdropeq : rest.drop (rest.takeWhile (fun d => d = '.')).length =
                  rest.dropWhile (fun d => d = '.') :=
                drop_takeWhile_eq_dropWhile _ rest
              obtain ⟨u, t, hut, hu⟩ := takeWhile_head_pos (fun d => d = '.') rest
                (by omega)
              have hu' : u = '.' := by simpa using hu
              have hdd : bad '.' '.' = false := by
                have := noPair_head _ _ _ _ hnp (by rw [hut, hu']; rfl)
                exact this
              have hlast := takeWhile_last_drop (fun d => d = '.') rest '.'
                (by omega)
              have hgl : (rest.takeWhile (fun d => d = '.')).getLastD '.' = '.' := by
                cases hw : rest.takeWhile (fun d => d = '.') with
                | nil => rfl
                | cons w ws =>
                    have hall := takeWhile_all (fun d => d = '.') rest
                    rw [hw] at hall
                    have hmem := getLastD_mem (w :: ws) '.' (by simp)
                    have := List.all_eq_true.mp hall _ hmem
                    simpa using this
              rw [hgl] at hlast
              have hsufdot : ('.' :: rest.drop
                  (rest.takeWhile (fun d => d = '.')).length) <:+ '.' :: rest := by
                rw [← hlast]
                exact (List.drop_suffix _ rest).trans (List.suffix_cons '.' rest)
              have hnp_dot := noPair_suffix _ _ _ hsufdot hnp
              have hsufr : rest.drop (rest.takeWhile (fun d => d = '.')).length <:+
                  '.' :: rest :=
                (List.drop_suffix _ rest).trans (List.suffix_cons '.' rest)
              have hrlen : (rest.drop
                  (rest.takeWhile (fun d => d = '.')).length).length ≤ n := by
                rw [List.length_drop]
                omega
              apply noPair_cons
              · intro y2 hy2
                injection hy2 with h5
                rw [← h5]
                exact hdd
              · apply noPair_cons
                · intro y2 hy2
                  injection hy2 with h5
                  rw [← h5]
                  exact hdd
                · apply noPair_cons
                  · intro y2 hy2
                    rw [eScan_headQ] at hy2
                    exact noPair_head _ _ _ _ hnp_dot hy2
                  · exact IH _ hrlen (noPair_suffix _ _ _ hsufr hnp)
            · rw [eScan_dot_short hk]
              apply noPair_cons
              · intro y2 hy2
                rw [eScan_headQ] at hy2
                exact noPair_head _ _ _ _ hnp hy2
              · exact IH rest hlen' (noPair_tail _ _ _ hnp)
          · rw [eScan_nondot rest (by simpa using hc)]
            apply noPair_cons
            · intro y2 hy2
              rw [eScan_headQ] at hy2
              exact noPair_head _ _ _ _ hnp hy2
            · exact IH rest hlen' (noPair_tail _ _ _ hnp)

theorem eScan_no4 :
    ∀ (n : Nat) (l : List Char), l.length ≤ n →
    no4dots (eScan l) = true := by
  intro n
  induction n with
  | zero =>
      intro l hlen
      have : l = [] := by
        cases l with
        | nil => rfl
        | cons a s => simp at hlen
      subst this
      rw [eScan_nil]; rfl
  | succ n IH =>
      intro l hlen
      cases l with
      | nil => rw [eScan_nil]; rfl
      | cons c rest =>
          have hlen' : rest.length ≤ n := by
            simp only [List.length_cons] at hlen; omega
          by_cases hc : (c == '.') = true
          · have hc' : c = '.' := by simpa using hc
            subst hc'
            by_cases hk : 2 ≤ (rest.takeWhile (fun d => d = '.')).length
            · rw [eScan_run hk]
              have hdropeq : rest.drop (rest.takeWhile (fun d => d = '.')).length =
                  rest.dropWhile (fun d => d = '.') :=
                drop_takeWhile_eq_dropWhile _ rest
              have hhead : ∀ z, (eScan (rest.drop
                  (rest.takeWhile (fun d => d = '.')).length)).head? = some z →
                  (z == '.') = false := by
                intro z hz
                rw [eScan_headQ] at hz
                rw [hdropeq] at hz
                have := dropWhile_head_not _ _ _ hz
                simpa using this
              have hrlen : (rest.drop
                  (rest.takeWhile (fun d => d = '.')).length).length ≤ n := by
                rw [List.length_drop]
                omega
              have hM : no4dots (eScan (rest.drop
                  (rest.takeWhile (fun d => d = '.')).length)) = true :=
                IH _ hrlen
              apply no4dots_cons_gen
              · intro m' hm'
                exfalso
                have h1 : (('.' : Char) :: '.' :: eScan (rest.drop
                    (rest.takeWhile (fun d => d = '.')).length)).head? =
                    some '.' := rfl
                rw [hm'] at h1
                have h2 := hm'
                injection h2 with h3 h4
                injection h4 with h5 h6
                have := hhead '.' (by rw [h6]; rfl)
                simp at this
              · apply no4dots_cons_gen
                · intro m' hm'
                  exfalso
                  have h2 := hm'
                  injection h2 with h3 h4
                  have := hhead '.' (by rw [h4]; rfl)
                  simp at this
                · apply no4dots_cons_gen
                  · intro m' hm'
                    exfalso
                    have := hhead '.' (by rw [hm']; rfl)
                    simp at this
                  · exact hM
            · rw [eScan_dot_short hk]
              cases hrw : rest.takeWhile (fun d => d = '.') with
              | nil =>
                  apply no4dots_cons_gen
                  · intro m' hm'
                    exfalso
                    have h1 : (eScan rest).head? = some '.' := by rw [hm']; rfl
                    rw [eScan_headQ] at h1
                    cases rest with
                    | nil => cases h1
                    | cons u t =>
                        injection h1 with h5
                        rw [List.takeWhile_cons_of_pos (by simp [h5])] at hrw
                        cases hrw
                  · exact IH rest hlen'
              | cons w ws =>
                  have hws : ws = [] := by
                    cases ws with
                    | nil => rfl
                    | cons w2 ws2 =>
                        exfalso
                        apply hk
                        rw [hrw]
                        simp
                  subst hws
                  obtain ⟨u, t, hut, hu⟩ := takeWhile_head_pos
                    (fun d => d = '.') rest (by rw [hrw]; simp)
                  have hu' : u = '.' := by simpa using hu
                  subst hu'
                  subst hut
                  have htt : t.takeWhile (fun d => d = '.') = [] := by
                    rw [List.takeWhile_cons_of_pos (by simp)] at hrw
                    injection hrw with h7 h8
                  have hth : ∀ z, t.head? = some z → (z == '.') = false := by
                    intro z hz
                    cases t with
                    | nil => cases hz
                    | cons v t2 =>
                        injection hz with h5
                        rw [← h5]
                        cases hb : (v == '.')
                        · rfl
                        · exfalso
                          rw [List.takeWhile_cons_of_pos (by simpa using hb)] at htt
                          cases htt
                  have hesc : eScan t = match t with
                      | [] => eScan t
                      | _ => eScan t := by
                    cases t <;> rfl
                  have heq : eScan ('.' :: t) = '.' :: eScan t := by
                    apply eScan_dot_short
                    rw [htt]
                    simp
                  rw [heq]
                  apply no4dots_cons_gen
                  · intro m' hm'
                    exfalso
                    injection hm' with h3 h4
                    have h1 : (eScan t).head? = some '.' := by rw [h4]; rfl
                    rw [eScan_headQ] at h1
                    cases t with
                    | nil => cases h1
                    | cons v t2 =>
                        injection h1 with h5
                        have := hth v rfl
                        rw [h5] at this
                        simp at this
                  · apply no4dots_cons_gen
                    · intro m' hm'
                      exfalso
                      have h1 : (eScan t).head? = some '.' := by rw [hm']; rfl
                      rw [eScan_headQ] at h1
                      cases t with
                      | nil => cases h1
                      | cons v t2 =>
                          injection h1 with h5
                          have := hth v rfl
                          rw [h5] at this
                          simp at this
                    · apply IH t (by
                        simp only [List.length_cons] at hlen
                        omega)
          · rw [eScan_nondot rest (by simpa using hc)]
            apply no4dots_cons_gen
            · intro m' hm'
              simpa using hc
            · exact IH rest hlen'

theorem eScan_all (p : Char → Bool) (hd : p '.' = true) :
    ∀ (n : Nat) (l : List Char), l.length ≤ n →
    l.all p = true → (eScan l).all p = true := by
  intro n
  induction n with
  | zero =>
      intro l hlen _
      have : l = [] := by
        cases l with
        | nil => rfl
        | cons a s => simp at hlen
      subst this
      rw [eScan_nil]; rfl
  | succ n IH =>
      intro l hlen hall
      cases l with
      | nil => rw [eScan_nil]; rfl
      | cons c rest =>
          have hlen' : rest.length ≤ n := by
            simp only [List.length_cons] at hlen; omega
          simp only [List.all_cons, Bool.and_eq_true] at hall
          by_cases hc : (c == '.') = true
          · have hc' : c = '.' := by simpa using hc
            subst hc'
            by_cases hk : 2 ≤ (rest.takeWhile (fun d => d = '.')).length
            · rw [eScan_run hk]
              simp only [List.all_cons, Bool.and_eq_true]
              refine ⟨hd, hd, hd, ?_⟩
              have hrlen : (rest.drop
                  (rest.takeWhile (fun d => d = '.')).length).length ≤ n := by
                rw [List.length_drop]
                omega
              apply IH _ hrlen
              simp only [List.all_eq_true] at hall ⊢
              intro x hx
              exact hall.2 x ((List.drop_suffix _ rest).subset hx)
            · rw [eScan_dot_short hk]
              simp only [List.all_cons, Bool.and_eq_true]
              exact ⟨hall.1, IH rest hlen' hall.2⟩
          · rw [eScan_nondot rest (by simpa using hc)]
            simp only [List.all_cons, Bool.and_eq_true]
            exact ⟨hall.1, IH rest hlen' hall.2⟩

theorem bang_not_dot (z : Char) (h : isBangChar z = true) : (z == '.') = false := by
  rcases (by simpa [isBangChar] using h : z = '!' ∨ z = '?') with e | e <;>
    subst e <;> decide

theorem mScan_noPair (bad : Char → Char → Bool)
    (hb : ∀ x a b, isBangChar a = true → isBangChar b = true →
      bad x a = false → bad x b = false) :
    ∀ (n : Nat) (l : List Char), l.length ≤ n →
    noPair bad l = true → noPair bad (mScan l) = true := by
  intro n
  induction n with
  | zero =>
      intro l hlen _
      have : l = [] := by
        cases l with
        | nil => rfl
        | cons a s => simp at hlen
      subst this
      rw [mScan_nil]; rfl
  | succ n IH =>
      intro l hlen hnp
      cases l with
      | nil => rw [mScan_nil]; rfl
      | cons c rest =>
          have hlen' : rest.length ≤ n := by
            simp only [List.length_cons] at hlen; omega
          by_cases hc : isBangChar c = true
          · by_cases hk : 1 ≤ (rest.takeWhile isBangChar).length
            · rw [mScan_run hc hk]
              have hdropeq : rest.drop (rest.takeWhile isBangChar).length =
                  rest.dropWhile isBangChar :=
                drop_takeWhile_eq_dropWhile _ rest
              have hlast := takeWhile_last_drop isBangChar rest c (by omega)
              have hsufz : ((rest.takeWhile isBangChar).getLastD c ::
                  rest.drop (rest.takeWhile isBangChar).length) <:+ c :: rest := by
                rw [← hlast]
                exact (List.drop_suffix _ rest).trans (List.suffix_cons c rest)
              have hnp_z := noPair_suffix _ _ _ hsufz hnp
              have hrlen : (rest.drop
                  (rest.takeWhile isBangChar).length).length ≤ n := by
                rw [List.length_drop]
                omega
              apply noPair_cons
              · intro y2 hy2
                cases hdp : rest.drop (rest.takeWhile isBangChar).length with
                | nil => rw [hdp, mScan_nil] at hy2; cases hy2
                | cons v t =>
                    rw [hdp] at hy2
                    obtain ⟨z2, X2, heq2, hz2⟩ := mScan_head_ex v t
                    rw [heq2] at hy2
                    injection hy2 with h5
                    have hvb : isBangChar v = false := by
                      have h6 : (rest.dropWhile isBangChar).head? = some v := by
                        rw [← hdropeq, hdp]; rfl
                      exact dropWhile_head_not _ _ _ h6
                    have hz2v : z2 = v := by
                      rcases hz2 with h7 | ⟨h7, _⟩
                      · exact h7
                      · rw [h7] at hvb; cases hvb
                    rw [← h5, hz2v]
                    exact noPair_head _ _ _ _ hnp_z (by rw [hdp]; rfl)
              · exact IH _ hrlen (noPair_suffix _ _ _
                  ((List.drop_suffix _ rest).trans (List.suffix_cons c rest)) hnp)
            · rw [mScan_bang_single hc hk]
              apply noPair_cons
              · intro y2 hy2
                cases rest with
                | nil => rw [mScan_nil] at hy2; cases hy2
                | cons u t =>
                    obtain ⟨z2, X2, heq2, hz2⟩ := mScan_head_ex u t
                    rw [heq2] at hy2
                    injection hy2 with h5
                    have hcu : bad c u = false := noPair_head _ _ _ _ hnp rfl
                    rcases hz2 with h7 | ⟨h7, h8⟩
                    · rw [← h5, h7]; exact hcu
                    · rw [← h5]; exact hb c u z2 h7 h8 hcu
              · exact IH rest hlen' (noPair_tail _ _ _ hnp)
          · rw [mScan_nonbang rest (by simpa using hc)]
            apply noPair_cons
            · intro y2 hy2
              cases rest with
              | nil => rw [mScan_nil] at hy2; cases hy2
              | cons u t =>
                  obtain ⟨z2, X2, heq2, hz2⟩ := mScan_head_ex u t
                  rw [heq2] at hy2
                  injection hy2 with h5
                  have hcu : bad c u = false := noPair_head _ _ _ _ hnp rfl
                  rcases hz2 with h7 | ⟨h7, h8⟩
                  · rw [← h5, h7]; exact hcu
                  · rw [← h5]; exact hb c u z2 h7 h8 hcu
            · exact IH rest hlen' (noPair_tail _ _ _ hnp)

theorem mScan_est :
    ∀ (n : Nat) (l : List Char), l.length ≤ n →
    noPair bangBad (mScan l) = true := by
  intro n
  induction n with
  | zero =>
      intro l hlen
      have : l = [] := by
        cases l with
        | nil => rfl
        | cons a s => simp at hlen
      subst this
      rw [mScan_nil]; rfl
  | succ n IH =>
      intro l hlen
      cases l with
      | nil => rw [mScan_nil]; rfl
      | cons c rest =>
          have hlen' : rest.length ≤ n := by
            simp only [List.length_cons] at hlen; omega
          by_cases hc : isBangChar c = true
          · by_cases hk : 1 ≤ (rest.takeWhile isBangChar).length
            · rw [mScan_run hc hk]
              have hdropeq : rest.drop (rest.takeWhile isBangChar).length =
                  rest.dropWhile isBangChar :=
                drop_takeWhile_eq_dropWhile _ rest
              have hrlen : (rest.drop
                  (rest.takeWhile isBangChar).length).length ≤ n := by
                rw [List.length_drop]
                omega
              apply noPair_cons
              · intro y2 hy2
                cases hdp : rest.drop (rest.takeWhile isBangChar).length with
                | nil => rw [hdp, mScan_nil] at hy2; cases hy2
                | cons v t =>
                    rw [hdp] at hy2
                    obtain ⟨z2, X2, heq2, hz2⟩ := mScan_head_ex v t
                    rw [heq2] at hy2
                    injection hy2 with h5
                    have hvb : isBangChar v = false := by
                      have h6 : (rest.dropWhile isBangChar).head? = some v := by
                        rw [← hdropeq, hdp]; rfl
                      exact dropWhile_head_not _ _ _ h6
                    have hz2v : z2 = v := by
                      rcases hz2 with h7 | ⟨h7, _⟩
                      · exact h7
                      · rw [h7] at hvb; cases hvb
                    rw [← h5, hz2v]
                    simp [bangBad, hvb]
              · exact IH _ hrlen
            · rw [mScan_bang_single hc hk]
              apply noPair_cons
              · intro y2 hy2
                cases rest with
                | nil => rw [mScan_nil] at hy2; cases hy2
                | cons u t =>
                    obtain ⟨z2, X2, heq2, hz2⟩ := mScan_head_ex u t
                    rw [heq2] at hy2
                    injection hy2 with h5
                    have hub : isBangChar u = false := by
                      cases h8 : isBangChar u
                      · rfl
                      · exfalso
                        apply hk
                        rw [List.takeWhile_cons_of_pos h8]
                        simp
                    have hz2u : z2 = u := by
                      rcases hz2 with h7 | ⟨h7, _⟩
                      · exact h7
                      · rw [h7] at hub; cases hub
                    rw [← h5, hz2u]
                    simp [bangBad, hub]
              · exact IH rest hlen'
          · rw [mScan_nonbang rest (by simpa using hc)]
            apply noPair_cons
            · intro y2 hy2
              simp [bangBad, hc]
            · exact IH rest hlen'

theorem mScan_all (p : Char → Bool) :
    ∀ (n : Nat) (l : List Char), l.length ≤ n →
    l.all p = true → (mScan l).all p = true := by
  intro n
  induction n with
  | zero =>
      intro l hlen _
      have : l = [] := by
        cases l with
        | nil => rfl
        | cons a s => simp at hlen
      subst this
      rw [mScan_nil]; rfl
  | succ n IH =>
      intro l hlen hall
      cases l with
      | nil => rw [mScan_nil]; rfl
      | cons c rest =>
          have hlen' : rest.length ≤ n := by
            simp only [List.length_cons] at hlen; omega
          simp only [List.all_cons, Bool.and_eq_true] at hall
          by_cases hc : isBangChar c = true
          · by_cases hk : 1 ≤ (rest.takeWhile isBangChar).length
            · rw [mScan_run hc hk]
              simp only [List.all_cons, Bool.and_eq_true]
              constructor
              · cases hw : rest.takeWhile isBangChar with
                | nil => simpa [hw] using hall.1
                | cons w ws =>
                    have hmem : (w :: ws).getLastD c ∈ w :: ws :=
                      getLastD_mem (w :: ws) c (by simp)
                    have hsub : (w :: ws) ⊆ rest := by
                      rw [← hw]
                      exact ( List.takeWhile_prefix _).subset
                    exact List.all_eq_true.mp hall.2 _ (hsub hmem)
              · have hrlen : (rest.drop
                    (rest.takeWhile isBangChar).length).length ≤ n := by
                  rw [List.length_drop]
                  omega
                apply IH _ hrlen
                simp only [List.all_eq_true] at hall ⊢
                intro x hx
                exact hall.2 x ((List.drop_suffix _ rest).subset hx)
            · rw [mScan_bang_single hc hk]
              simp only [List.all_cons, Bool.and_eq_true]
              exact ⟨hall.1, IH rest hlen' hall.2⟩
          · rw [mScan_nonbang rest (by simpa using hc)]
            simp only [List.all_cons, Bool.and_eq_true]
            exact ⟨hall.1, IH rest hlen' hall.2⟩

theorem mScan_no4 :
    ∀ (n : Nat) (l : List Char), l.length ≤ n →
    no4dots l = true → no4dots (mScan l) = true := by
  intro n
  induction n with
  | zero =>
      intro l hlen _
      have : l = [] := by
        cases l with
        | nil => rfl
        | cons a s => simp at hlen
      subst this
      rw [mScan_nil]; rfl
  | succ n IH =>
      intro l hlen h4
      cases l with
      | nil => rw [mScan_nil]; rfl
      | cons c rest =>
          have hlen' : rest.length ≤ n := by
            simp only [List.length_cons] at hlen; omega
          have h4r : no4dots rest = true :=
            no4dots_suffix _ _ (List.suffix_cons c rest) h4
          by_cases hc : isBangChar c = true
          · by_cases hk : 1 ≤ (rest.takeWhile isBangChar).length
            · rw [mScan_run hc hk]
              have hzb : isBangChar
                  ((rest.takeWhile isBangChar).getLastD c) = true := by
                cases hw : rest.takeWhile isBangChar with
                | nil => rw [hw] at hk; simp at hk
                | cons w ws =>
                    have hall := takeWhile_all isBangChar rest
                    rw [hw] at hall
                    exact List.all_eq_true.mp hall _
                      (getLastD_mem (w :: ws) c (by simp))
              apply no4dots_cons_gen
              · intro m' hm'
                exact bang_not_dot _ hzb
              · have hrlen : (rest.drop
                    (rest.takeWhile isBangChar).length).length ≤ n := by
                  rw [List.length_drop]
                  omega
                exact IH _ hrlen
                  (no4dots_suffix _ _ (List.drop_suffix _ rest) h4r)
            · rw [mScan_bang_single hc hk]
              apply no4dots_cons_gen
              · intro m' hm'
                exact bang_not_dot _ hc
              · exact IH rest hlen' h4r
          · rw [mScan_nonbang rest (by simpa using hc)]
            apply no4dots_cons_gen
            · intro m' hm'
              cases hcd : (c == '.')
              · rfl
              · exfalso
                have hc' : c = '.' := by simpa using hcd
                cases rest with
                | nil => rw [mScan_nil] at hm'; cases hm'
                | cons u t =>
                    have hd1 := mScan_head_dot u t (by rw [hm']; rfl)
                    obtain ⟨hu, heq1⟩ := hd1
                    rw [heq1] at hm'
                    injection hm' with h5 h6
                    cases t with
                    | nil => rw [mScan_nil] at h6; cases h6
                    | cons u2 t2 =>
                        have hd2 := mScan_head_dot u2 t2 (by rw [h6]; rfl)
                        obtain ⟨hu2, heq2⟩ := hd2
                        rw [heq2] at h6
                        injection h6 with h7 h8
                        cases t2 with
                        | nil => rw [mScan_nil] at h8; cases h8
                        | cons u3 t3 =>
                            have hd3 := mScan_head_dot u3 t3 (by rw [h8]; rfl)
                            obtain ⟨hu3, heq3⟩ := hd3
                            subst hc' hu hu2 hu3
                            simp [no4dots] at h4
            · exact IH rest hlen' h4r

theorem pyStrip_within (l : List Char) : pyStrip l <:+: l := by
  obtain ⟨s, hs⟩ := dropWhile_suffix' pyIsSpace l
  obtain ⟨u, hu⟩ := dropWhile_suffix' pyIsSpace (l.dropWhile pyIsSpace).reverse
  have hx : pyStrip l ++ u.reverse = l.dropWhile pyIsSpace := by
    unfold pyStrip
    have h1 := congrArg List.reverse hu
    rw [List.reverse_append, List.reverse_reverse] at h1
    exact h1
  exact ⟨s, u.reverse, by rw [List.append_assoc, hx, hs]⟩

theorem getLastQ_suffix (l' l : List Char) (hs : l' <:+ l) (hne : l' ≠ []) :
    l'.getLast? = l.getLast? := by
  obtain ⟨u, hu⟩ := hs
  rw [← hu]
  exact (List.getLast?_append_of_ne_nil u hne).symm

theorem pyStrip_stripOk (l : List Char) : stripOkB (pyStrip l) = true := by
  unfold pyStrip stripOkB
  rw [Bool.and_eq_true]
  constructor
  · cases hh : ((l.dropWhile pyIsSpace).reverse.dropWhile
        pyIsSpace).reverse.head? with
    | none => rfl
    | some c =>
        rw [List.head?_reverse] at hh
        have hne : (l.dropWhile pyIsSpace).reverse.dropWhile pyIsSpace ≠ [] := by
          intro he
          rw [he] at hh
          cases hh
        have hgl := getLastQ_suffix _ _
          (dropWhile_suffix' pyIsSpace (l.dropWhile pyIsSpace).reverse) hne
        rw [hh, List.getLast?_reverse] at hgl
        cases hy : (l.dropWhile pyIsSpace).head? with
        | none => rw [hy] at hgl; cases hgl
        | some d =>
            rw [hy] at hgl
            injection hgl with h5
            rw [h5]
            simp [dropWhile_head_not pyIsSpace l d hy]
  · cases hh : ((l.dropWhile pyIsSpace).reverse.dropWhile
        pyIsSpace).reverse.getLast? with
    | none => rfl
    | some c =>
        rw [List.getLast?_reverse] at hh
        have := dropWhile_head_not pyIsSpace (l.dropWhile pyIsSpace).reverse c hh
        simp [this]

theorem bang_cases {c : Char} (h : isBangChar c = true) : c = '!' ∨ c = '?' := by
  simpa [isBangChar] using h

theorem quote_cases {c : Char} (h : isQuoteChar c = true) : c = '"' ∨ c = '\'' := by
  simpa [isQuoteChar] using h

theorem punct_cases {c : Char} (h : isPunctChar c = true) :
    c = ',' ∨ c = '.' ∨ c = ';' ∨ c = ':' ∨ c = '!' ∨ c = '?' := by
  simpa [isPunctChar, or_assoc] using h

theorem ne_space_of_not_space {c : Char} (h : pyIsSpace c = false) :
    (c == ' ') = false := by
  cases he : (c == ' ')
  · rfl
  · exfalso
    have : c = ' ' := by simpa using he
    subst this
    cases h

theorem bang_ne_space {c : Char} (h : isBangChar c = true) : (c == ' ') = false := by
  rcases bang_cases h with e | e <;> subst e <;> decide

theorem bang_not_quote {c : Char} (h : isBangChar c = true) :
    isQuoteChar c = false := by
  rcases bang_cases h with e | e <;> subst e <;> decide

theorem quote_wsOk {q : Char} (h : isQuoteChar q = true) : wsOkC q = true := by
  simp [wsOkC, quote_not_space h]

theorem pf_hyp (t : Char) (ht : followerSet t = true) :
    ∀ x, pfBad followerSet x t = false := by
  intro x
  simp [pfBad, ht]

theorem himp_pf : ∀ a b, pfBad followerSet a b = true →
    pfBad (fun d => d == ' ') a b = true := by
  intro a b h
  simp only [pfBad, Bool.and_eq_true, Bool.not_eq_true'] at h ⊢
  refine ⟨h.1, ?_⟩
  have h2 := h.2
  simp only [followerSet, Bool.or_eq_false_iff] at h2
  exact h2.1.1.1

theorem noPair_spPunct : ∀ (l : List Char),
    noPair (spBad ',') l = true → noPair (spBad '.') l = true →
    noPair (spBad '!') l = true → noPair (spBad '?') l = true →
    noPair (spBad ':') l = true → noPair (spBad ';') l = true →
    noPair spPunctBad l = true := by
  intro l
  induction l with
  | nil => intro _ _ _ _ _ _; rfl
  | cons c rest ih =>
      intro h1 h2 h3 h4 h5 h6
      apply noPair_cons
      · intro y hy
        cases hsp : spPunctBad c y
        · rfl
        · exfalso
          have hsp2 : (c == ' ') = true ∧ isPunctChar y = true := by
            simpa [spPunctBad] using hsp
          have e1 := noPair_head _ _ _ _ h1 hy
          have e2 := noPair_head _ _ _ _ h2 hy
          have e3 := noPair_head _ _ _ _ h3 hy
          have e4 := noPair_head _ _ _ _ h4 hy
          have e5 := noPair_head _ _ _ _ h5 hy
          have e6 := noPair_head _ _ _ _ h6 hy
          rcases punct_cases hsp2.2 with e | e | e | e | e | e <;> subst e
          · simp [spBad, hsp2.1] at e1
          · simp [spBad, hsp2.1] at e2
          · simp [spBad, hsp2.1] at e6
          · simp [spBad, hsp2.1] at e5
          · simp [spBad, hsp2.1] at e3
          · simp [spBad, hsp2.1] at e4
      · exact ih (noPair_tail _ _ _ h1) (noPair_tail _ _ _ h2)
          (noPair_tail _ _ _ h3) (noPair_tail _ _ _ h4)
          (noPair_tail _ _ _ h5) (noPair_tail _ _ _ h6)

theorem hb_of_snd (bad : Char → Char → Bool)
    (h : ∀ x b, isBangChar b = true → bad x b = false) :
    ∀ x a b, isBangChar a = true → isBangChar b = true →
      bad x a = false → bad x b = false :=
  fun x _ b _ hbb _ => h x b hbb

theorem hb_spp : ∀ x a b, isBangChar a = true → isBangChar b = true →
    spPunctBad x a = false → spPunctBad x b = false := by
  intro x a b ha hbb h
  have hpa := bang_punct ha
  have hpb := bang_punct hbb
  simp only [spPunctBad, hpa, Bool.and_true] at h
  simp [spPunctBad, hpb, h]

theorem beq_false_of_quote {q t : Char} (hq : isQuoteChar q = true)
    (ht : isQuoteChar t = false) : (q == t) = false := by
  cases he : (q == t)
  · rfl
  · exfalso
    have : q = t := by simpa using he
    subst this
    rw [hq] at ht
    cases ht

theorem bang_ne {b t : Char} (hb : isBangChar b = true)
    (ht : isBangChar t = false) : (b == t) = false := by
  cases he : (b == t)
  · rfl
  · exfalso
    have : b = t := by simpa using he
    subst this
    rw [hb] at ht
    cases ht

theorem quote_follower {q : Char} (hq : isQuoteChar q = true) :
    followerSet q = true := by
  simp [followerSet, hq]

theorem bang_follower {b : Char} (hb : isBangChar b = true) :
    followerSet b = true := by
  simp [followerSet, bang_punct hb]

theorem spp_of_spBad (t : Char) (ht : isPunctChar t = true) :
    ∀ a b, spBad t a b = true → spPunctBad a b = true := by
  intro a b h
  simp only [spBad, Bool.and_eq_true, beq_iff_eq] at h
  obtain ⟨h1, h2⟩ := h
  subst h2
  simp [spPunctBad, h1, ht]

theorem wsOkB_all (l : List Char) : wsOkB l = l.all wsOkC := rfl

theorem A_chain (y : List Char) :
    normInv (pyStrip (mScan (eScan (qScan (openParen (closeParen
      (replacePair ' ' ';' ';' (replacePair ' ' ':' ':' (replacePair ' ' '?' '?'
        (replacePair ' ' '!' '!' (replacePair ' ' '.' '.'
          (replacePair ' ' ',' ','
            (pScan (dScan (wCollapse y))))))))))))))) = true := by
  set c1 := wCollapse y with hc1
  set c2 := dScan c1 with hc2
  set c3 := pScan c2 with hc3
  set u1 := replacePair ' ' ',' ',' c3 with hu1
  set u2 := replacePair ' ' '.' '.' u1 with hu2
  set u3 := replacePair ' ' '!' '!' u2 with hu3
  set u4 := replacePair ' ' '?' '?' u3 with hu4
  set u5 := replacePair ' ' ':' ':' u4 with hu5
  set u6 := replacePair ' ' ';' ';' u5 with hu6
  set c5 := closeParen u6 with hc5
  set c6 := openParen c5 with hc6
  set c7 := qScan c6 with hc7
  set c8 := eScan c7 with hc8
  set c9 := mScan c8 with hc9
  have F1w : wsOkB c1 = true := by rw [hc1]; exact wCollapse_wsOk _ _ le_rfl
  have F1d : noPair dblBad c1 = true := by rw [hc1]; exact wCollapse_dbl _ _ le_rfl
  have F2w : wsOkB c2 = true := by
    rw [wsOkB_all, hc2]
    exact dScan_all wsOkC _ _ le_rfl (by rw [← wsOkB_all]; exact F1w)
  have F2d : noPair dblBad c2 = true := by
    rw [hc2]
    exact dScan_noPair dblBad
      (fun a b hd hs => by
        simp [dblBad, ne_space_of_not_space (digit_not_space hd)])
      (fun a b hs hd => by
        simp [dblBad, ne_space_of_not_space (punct_not_space (sep_punct hs))])
      _ _ le_rfl F1d
  have hP := pScan_good _ c2 le_rfl F2w F2d
  rw [← hc3] at hP
  have F3w : wsOkB c3 = true := hP.1
  have F3d : noPair dblBad c3 = true := hP.2.1
  have F3pf : noPair (pfBad followerSet) c3 = true :=
    noPair_mono _ _ himp_pf _ hP.2.2
  have G1w : wsOkB u1 = true := by
    rw [wsOkB_all, hu1]
    exact replacePair_all wsOkC ',' (by decide) _ _ le_rfl
      (by rw [← wsOkB_all]; exact F3w)
  have G1d : noPair dblBad u1 = true := by
    rw [hu1]
    exact replacePair_noPair dblBad ',' (fun x => by simp [dblBad]) _ _ le_rfl F3d
  have G1pf : noPair (pfBad followerSet) u1 = true := by
    rw [hu1]
    exact replacePair_noPair _ ',' (pf_hyp ',' (by decide)) _ _ le_rfl F3pf
  have G1c : noPair (spBad ',') u1 = true := by
    rw [hu1]
    exact replacePair_est ',' (by decide) _ _ le_rfl F3d
  have G2w : wsOkB u2 = true := by
    rw [wsOkB_all, hu2]
    exact replacePair_all wsOkC '.' (by decide) _ _ le_rfl
      (by rw [← wsOkB_all]; exact G1w)
  have G2d : noPair dblBad u2 = true := by
    rw [hu2]
    exact replacePair_noPair dblBad '.' (fun x => by simp [dblBad]) _ _ le_rfl G1d
  have G2pf : noPair (pfBad followerSet) u2 = true := by
    rw [hu2]
    exact replacePair_noPair _ '.' (pf_hyp '.' (by decide)) _ _ le_rfl G1pf
  have G2c : noPair (spBad ',') u2 = true := by
    rw [hu2]
    exact replacePair_noPair (spBad ',') '.' (fun x => by simp [spBad]) _ _ le_rfl G1c
  have G2dot : noPair (spBad '.') u2 = true := by
    rw [hu2]
    exact replacePair_est '.' (by decide) _ _ le_rfl G1d
  have G3w : wsOkB u3 = true := by
    rw [wsOkB_all, hu3]
    exact replacePair_all wsOkC '!' (by decide) _ _ le_rfl
      (by rw [← wsOkB_all]; exact G2w)
  have G3d : noPair dblBad u3 = true := by
    rw [hu3]
    exact replacePair_noPair dblBad '!' (fun x => by simp [dblBad]) _ _ le_rfl G2d
  have G3pf : noPair (pfBad followerSet) u3 = true := by
    rw [hu3]
    exact replacePair_noPair _ '!' (pf_hyp '!' (by decide)) _ _ le_rfl G2pf
  have G3c : noPair (spBad ',') u3 = true := by
    rw [hu3]
    exact replacePair_noPair (spBad ',') '!' (fun x => by simp [spBad]) _ _ le_rfl G2c
  have G3dot : noPair (spBad '.') u3 = true := by
    rw [hu3]
    exact replacePair_noPair (spBad '.') '!' (fun x => by simp [spBad]) _ _ le_rfl G2dot
  have G3b : noPair (spBad '!') u3 = true := by
    rw [hu3]
    exact replacePair_est '!' (by decide) _ _ le_rfl G2d
  have G4w : wsOkB u4 = true := by
    rw [wsOkB_all, hu4]
    exact replacePair_all wsOkC '?' (by decide) _ _ le_rfl
      (by rw [← wsOkB_all]; exact G3w)
  have G4d : noPair dblBad u4 = true := by
    rw [hu4]
    exact replacePair_noPair dblBad '?' (fun x => by simp [dblBad]) _ _ le_rfl G3d
  have G4pf : noPair (pfBad followerSet) u4 = true := by
    rw [hu4]
    exact replacePair_noPair _ '?' (pf_hyp '?' (by decide)) _ _ le_rfl G3pf
  have G4c : noPair (spBad ',') u4 = true := by
    rw [hu4]
    exact replacePair_noPair (spBad ',') '?' (fun x => by simp [spBad]) _ _ le_rfl G3c
  have G4dot : noPair (spBad '.') u4 = true := by
    rw [hu4]
    exact replacePair_noPair (spBad '.') '?' (fun x => by simp [spBad]) _ _ le_rfl G3dot
  have G4b : noPair (spBad '!') u4 = true := by
    rw [hu4]
    exact replacePair_noPair (spBad '!') '?' (fun x => by simp [spBad]) _ _ le_rfl G3b
  have G4q : noPair (spBad '?') u4 = true := by
    rw [hu4]
    exact replacePair_est '?' (by decide) _ _ le_rfl G3d
  have G5w : wsOkB u5 = true := by
    rw [wsOkB_all, hu5]
    exact replacePair_all wsOkC ':' (by decide) _ _ le_rfl
      (by rw [← wsOkB_all]; exact G4w)
  have G5d : noPair dblBad u5 = true := by
    rw [hu5]
    exact replacePair_noPair dblBad ':' (fun x => by simp [dblBad]) _ _ le_rfl G4d
  have G5pf : noPair (pfBad followerSet) u5 = true := by
    rw [hu5]
    exact replacePair_noPair _ ':' (pf_hyp ':' (by decide)) _ _ le_rfl G4pf
  have G5c : noPair (spBad ',') u5 = true := by
    rw [hu5]
    exact replacePair_noPair (spBad ',') ':' (fun x => by simp [spBad]) _ _ le_rfl G4c
  have G5dot : noPair (spBad '.') u5 = true := by
    rw [hu5]
    exact replacePair_noPair (spBad '.') ':' (fun x => by simp [spBad]) _ _ le_rfl G4dot
  have G5b : noPair (spBad '!') u5 = true := by
    rw [hu5]
    exact replacePair_noPair (spBad '!') ':' (fun x => by simp [spBad]) _ _ le_rfl G4b
  have G5q : noPair (spBad '?') u5 = true := by
    rw [hu5]
    exact replacePair_noPair (spBad '?') ':' (fun x => by simp [spBad]) _ _ le_rfl G4q
  have G5colon : noPair (spBad ':') u5 = true := by
    rw [hu5]
    exact replacePair_est ':' (by decide) _ _ le_rfl G4d
  have G6w : wsOkB u6 = true := by
    rw [wsOkB_all, hu6]
    exact replacePair_all wsOkC ';' (by decide) _ _ le_rfl
      (by rw [← wsOkB_all]; exact G5w)
  have G6d : noPair dblBad u6 = true := by
    rw [hu6]
    exact replacePair_noPair dblBad ';' (fun x => by simp [dblBad]) _ _ le_rfl G5d
  have G6pf : noPair (pfBad followerSet) u6 = true := by
    rw [hu6]
    exact replacePair_noPair _ ';' (pf_hyp ';' (by decide)) _ _ le_rfl G5pf
  have G6c : noPair (spBad ',') u6 = true := by
    rw [hu6]
    exact replacePair_noPair (spBad ',') ';' (fun x => by simp [spBad]) _ _ le_rfl G5c
  have G6dot : noPair (spBad '.') u6 = true := by
    rw [hu6]
    exact replacePair_noPair (spBad '.') ';' (fun x => by simp [spBad]) _ _ le_rfl G5dot
  have G6b : noPair (spBad '!') u6 = true := by
    rw [hu6]
    exact replacePair_noPair (spBad '!') ';' (fun x => by simp [spBad]) _ _ le_rfl G5b
  have G6q : noPair (spBad '?') u6 = true := by
    rw [hu6]
    exact replacePair_noPair (spBad '?') ';' (fun x => by simp [spBad]) _ _ le_rfl G5q
  have G6colon : noPair (spBad ':') u6 = true := by
    rw [hu6]
    exact replacePair_noPair (spBad ':') ';' (fun x => by simp [spBad]) _ _ le_rfl G5colon
  have G6semi : noPair (spBad ';') u6 = true := by
    rw [hu6]
    exact replacePair_est ';' (by decide) _ _ le_rfl G5d
  have H5w : wsOkB c5 = true := by
    rw [wsOkB_all, hc5]
    exact closeParen_all wsOkC (by decide) _ _ le_rfl
      (by rw [← wsOkB_all]; exact G6w)
  have H5d : noPair dblBad c5 = true := by
    rw [hc5]
    exact closeParen_noPair dblBad (fun x => by simp [dblBad]) _ _ le_rfl G6d
  have H5pf : noPair (pfBad followerSet) c5 = true := by
    rw [hc5]
    exact closeParen_noPair _ (pf_hyp ')' (by decide)) _ _ le_rfl G6pf
  have H5c : noPair (spBad ',') c5 = true := by
    rw [hc5]
    exact closeParen_noPair (spBad ',') (fun x => by simp [spBad]) _ _ le_rfl G6c
  have H5dot : noPair (spBad '.') c5 = true := by
    rw [hc5]
    exact closeParen_noPair (spBad '.') (fun x => by simp [spBad]) _ _ le_rfl G6dot
  have H5b : noPair (spBad '!') c5 = true := by
    rw [hc5]
    exact closeParen_noPair (spBad '!') (fun x => by simp [spBad]) _ _ le_rfl G6b
  have H5q : noPair (spBad '?') c5 = true := by
    rw [hc5]
    exact closeParen_noPair (spBad '?') (fun x => by simp [spBad]) _ _ le_rfl G6q
  have H5colon : noPair (spBad ':') c5 = true := by
    rw [hc5]
    exact closeParen_noPair (spBad ':') (fun x => by simp [spBad]) _ _ le_rfl G6colon
  have H5semi : noPair (spBad ';') c5 = true := by
    rw [hc5]
    exact closeParen_noPair (spBad ';') (fun x => by simp [spBad]) _ _ le_rfl G6semi
  have H5p : noPair (spBad ')') c5 = true := by
    rw [hc5]
    exact closeParen_est _ _ le_rfl G6w G6d
  have H6w : wsOkB c6 = true := by
    rw [wsOkB_all, hc6]
    exact openParen_all wsOkC _ _ le_rfl (by rw [← wsOkB_all]; exact H5w)
  have H6d : noPair dblBad c6 = true := by
    rw [hc6]
    exact openParen_noPair dblBad (fun z => by simp [dblBad]) _ _ le_rfl H5d
  have H6pf : noPair (pfBad followerSet) c6 = true := by
    rw [hc6]
    exact openParen_noPair _
      (fun z => by simp [pfBad, show isPunctChar '(' = false from by decide])
      _ _ le_rfl H5pf
  have H6c : noPair (spBad ',') c6 = true := by
    rw [hc6]
    exact openParen_noPair (spBad ',') (fun z => by simp [spBad]) _ _ le_rfl H5c
  have H6dot : noPair (spBad '.') c6 = true := by
    rw [hc6]
    exact openParen_noPair (spBad '.') (fun z => by simp [spBad]) _ _ le_rfl H5dot
  have H6b : noPair (spBad '!') c6 = true := by
    rw [hc6]
    exact openParen_noPair (spBad '!') (fun z => by simp [spBad]) _ _ le_rfl H5b
  have H6q : noPair (spBad '?') c6 = true := by
    rw [hc6]
    exact openParen_noPair (spBad '?') (fun z => by simp [spBad]) _ _ le_rfl H5q
  have H6colon : noPair (spBad ':') c6 = true := by
    rw [hc6]
    exact openParen_noPair (spBad ':') (fun z => by simp [spBad]) _ _ le_rfl H5colon
  have H6semi : noPair (spBad ';') c6 = true := by
    rw [hc6]
    exact openParen_noPair (spBad ';') (fun z => by simp [spBad]) _ _ le_rfl H5semi
  have H6p : noPair (spBad ')') c6 = true := by
    rw [hc6]
    exact openParen_noPair (spBad ')') (fun z => by simp [spBad]) _ _ le_rfl H5p
  have H6pas : noPair pasBad c6 = true := by
    rw [hc6]
    exact openParen_est _ _ le_rfl
  have H7w : wsOkB c7 = true := by
    rw [wsOkB_all, hc7]
    exact qScan_all wsOkC (fun q hq => quote_wsOk hq) _ _ le_rfl
      (by rw [← wsOkB_all]; exact H6w)
  have H7d : noPair dblBad c7 = true := by
    rw [hc7]
    exact qScan_noPair dblBad
      (fun x q hq => by simp [dblBad, ne_space_of_not_space (quote_not_space hq)])
      (fun q z hq => by simp [dblBad, ne_space_of_not_space (quote_not_space hq)])
      _ _ le_rfl H6d
  have H7c : noPair (spBad ',') c7 = true := by
    rw [hc7]
    exact qScan_noPair (spBad ',')
      (fun x q hq => by simp [spBad, beq_false_of_quote (t := ',') hq (by decide)])
      (fun q z hq => by simp [spBad, ne_space_of_not_space (quote_not_space hq)])
      _ _ le_rfl H6c
  have H7dot : noPair (spBad '.') c7 = true := by
    rw [hc7]
    exact qScan_noPair (spBad '.')
      (fun x q hq => by simp [spBad, beq_false_of_quote (t := '.') hq (by decide)])
      (fun q z hq => by simp [spBad, ne_space_of_not_space (quote_not_space hq)])
      _ _ le_rfl H6dot
  have H7b : noPair (spBad '!') c7 = true := by
    rw [hc7]
    exact qScan_noPair (spBad '!')
      (fun x q hq => by simp [spBad, beq_false_of_quote (t := '!') hq (by decide)])
      (fun q z hq => by simp [spBad, ne_space_of_not_space (quote_not_space hq)])
      _ _ le_rfl H6b
  have H7q : noPair (spBad '?') c7 = true := by
    rw [hc7]
    exact qScan_noPair (spBad '?')
      (fun x q hq => by simp [spBad, beq_false_of_quote (t := '?') hq (by decide)])
      (fun q z hq => by simp [spBad, ne_space_of_not_space (quote_not_space hq)])
      _ _ le_rfl H6q
  have H7colon : noPair (spBad ':') c7 = true := by
    rw [hc7]
    exact qScan_noPair (spBad ':')
      (fun x q hq => by simp [spBad, beq_false_of_quote (t := ':') hq (by decide)])
      (fun q z hq => by simp [spBad, ne_space_of_not_space (quote_not_space hq)])
      _ _ le_rfl H6colon
  have H7semi : noPair (spBad ';') c7 = true := by
    rw [hc7]
    exact qScan_noPair (spBad ';')
      (fun x q hq => by simp [spBad, beq_false_of_quote (t := ';') hq (by decide)])
      (fun q z hq => by simp [spBad, ne_space_of_not_space (quote_not_space hq)])
      _ _ le_rfl H6semi
  have H7p : noPair (spBad ')') c7 = true := by
    rw [hc7]
    exact qScan_noPair (spBad ')')
      (fun x q hq => by simp [spBad, beq_false_of_quote (t := ')') hq (by decide)])
      (fun q z hq => by simp [spBad, ne_space_of_not_space (quote_not_space hq)])
      _ _ le_rfl H6p
  have H7pas : noPair pasBad c7 = true := by
    rw [hc7]
    exact qScan_noPair pasBad
      (fun x q hq => by simp [pasBad, ne_space_of_not_space (quote_not_space hq)])
      (fun q z hq => by simp [pasBad, beq_false_of_quote (t := '(') hq (by decide)])
      _ _ le_rfl H6pas
  have H7pf : noPair (pfBad followerSet) c7 = true := by
    rw [hc7]
    exact qScan_noPair (pfBad followerSet)
      (fun x q hq => by simp [pfBad, quote_follower hq])
      (fun q z hq => by simp [pfBad, quote_not_punct hq])
      _ _ le_rfl H6pf
  have H7qsp : noPair qspBad c7 = true := by
    rw [hc7]
    exact qScan_est _ _ le_rfl H6w H6d
  have H8w : wsOkB c8 = true := by
    rw [wsOkB_all, hc8]
    exact eScan_all wsOkC (by decide) _ _ le_rfl (by rw [← wsOkB_all]; exact H7w)
  have H8d : noPair dblBad c8 = true := by
    rw [hc8]; exact eScan_noPair dblBad _ _ le_rfl H7d
  have H8c : noPair (spBad ',') c8 = true := by
    rw [hc8]; exact eScan_noPair (spBad ',') _ _ le_rfl H7c
  have H8dot : noPair (spBad '.') c8 = true := by
    rw [hc8]; exact eScan_noPair (spBad '.') _ _ le_rfl H7dot
  have H8b : noPair (spBad '!') c8 = true := by
    rw [hc8]; exact eScan_noPair (spBad '!') _ _ le_rfl H7b
  have H8q : noPair (spBad '?') c8 = true := by
    rw [hc8]; exact eScan_noPair (spBad '?') _ _ le_rfl H7q
  have H8colon : noPair (spBad ':') c8 = true := by
    rw [hc8]; exact eScan_noPair (spBad ':') _ _ le_rfl H7colon
  have H8semi : noPair (spBad ';') c8 = true := by
    rw [hc8]; exact eScan_noPair (spBad ';') _ _ le_rfl H7semi
  have H8p : noPair (spBad ')') c8 = true := by
    rw [hc8]; exact eScan_noPair (spBad ')') _ _ le_rfl H7p
  have H8pas : noPair pasBad c8 = true := by
    rw [hc8]; exact eScan_noPair pasBad _ _ le_rfl H7pas
  have H8qsp : noPair qspBad c8 = true := by
    rw [hc8]; exact eScan_noPair qspBad _ _ le_rfl H7qsp
  have H8pf : noPair (pfBad followerSet) c8 = true := by
    rw [hc8]; exact eScan_noPair (pfBad followerSet) _ _ le_rfl H7pf
  have H8no4 : no4dots c8 = true := by
    rw [hc8]; exact eScan_no4 _ _ le_rfl
  have H9w : wsOkB c9 = true := by
    rw [wsOkB_all, hc9]
    exact mScan_all wsOkC _ _ le_rfl (by rw [← wsOkB_all]; exact H8w)
  have H9d : noPair dblBad c9 = true := by
    rw [hc9]
    exact mScan_noPair dblBad
      (hb_of_snd dblBad (fun x b hbb => by simp [dblBad, bang_ne_space hbb]))
      _ _ le_rfl H8d
  have H9c : noPair (spBad ',') c9 = true := by
    rw [hc9]
    exact mScan_noPair (spBad ',')
      (hb_of_snd _ (fun x b hbb => by simp [spBad, bang_ne (t := ',') hbb (by decide)]))
      _ _ le_rfl H8c
  have H9dot : noPair (spBad '.') c9 = true := by
    rw [hc9]
    exact mScan_noPair (spBad '.')
      (hb_of_snd _ (fun x b hbb => by simp [spBad, bang_ne (t := '.') hbb (by decide)]))
      _ _ le_rfl H8dot
  have H9colon : noPair (spBad ':') c9 = true := by
    rw [hc9]
    exact mScan_noPair (spBad ':')
      (hb_of_snd _ (fun x b hbb => by simp [spBad, bang_ne (t := ':') hbb (by decide)]))
      _ _ le_rfl H8colon
  have H9semi : noPair (spBad ';') c9 = true := by
    rw [hc9]
    exact mScan_noPair (spBad ';')
      (hb_of_snd _ (fun x b hbb => by simp [spBad, bang_ne (t := ';') hbb (by decide)]))
      _ _ le_rfl H8semi
  have H9p : noPair (spBad ')') c9 = true := by
    rw [hc9]
    exact mScan_noPair (spBad ')')
      (hb_of_snd _ (fun x b hbb => by simp [spBad, bang_ne (t := ')') hbb (by decide)]))
      _ _ le_rfl H8p
  have H8spp : noPair spPunctBad c8 = true :=
    noPair_spPunct c8 H8c H8dot H8b H8q H8colon H8semi
  have H9spp : noPair spPunctBad c9 = true := by
    rw [hc9]
    exact mScan_noPair spPunctBad hb_spp _ _ le_rfl H8spp
  have H9b : noPair (spBad '!') c9 = true :=
    noPair_mono spPunctBad (spBad '!') (spp_of_spBad '!' (by decide)) _ H9spp
  have H9q : noPair (spBad '?') c9 = true :=
    noPair_mono spPunctBad (spBad '?') (spp_of_spBad '?' (by decide)) _ H9spp
  have H9pas : noPair pasBad c9 = true := by
    rw [hc9]
    exact mScan_noPair pasBad
      (hb_of_snd _ (fun x b hbb => by simp [pasBad, bang_ne_space hbb]))
      _ _ le_rfl H8pas
  have H9qsp : noPair qspBad c9 = true := by
    rw [hc9]
    exact mScan_noPair qspBad
      (hb_of_snd _ (fun x b hbb => by
        simp [qspBad, bang_ne_space hbb, bang_not_quote hbb]))
      _ _ le_rfl H8qsp
  have H9pf : noPair (pfBad followerSet) c9 = true := by
    rw [hc9]
    exact mScan_noPair (pfBad followerSet)
      (hb_of_snd _ (fun x b hbb => by simp [pfBad, bang_follower hbb]))
      _ _ le_rfl H8pf
  have H9bang : noPair bangBad c9 = true := by
    rw [hc9]
    exact mScan_est _ _ le_rfl
  have H9no4 : no4dots c9 = true := by
    rw [hc9]
    exact mScan_no4 _ _ le_rfl H8no4
  have hinf : pyStrip c9 <:+: c9 := pyStrip_within c9
  have Zw : wsOkB (pyStrip c9) = true := by
    rw [wsOkB_all]
    exact all_within wsOkC _ _ hinf (by rw [← wsOkB_all]; exact H9w)
  have Zd : noPair dblBad (pyStrip c9) = true :=
    noPair_within dblBad _ _ hinf H9d
  have Zc : noPair (spBad ',') (pyStrip c9) = true :=
    noPair_within _ _ _ hinf H9c
  have Zdot : noPair (spBad '.') (pyStrip c9) = true :=
    noPair_within _ _ _ hinf H9dot
  have Zb : noPair (spBad '!') (pyStrip c9) = true :=
    noPair_within _ _ _ hinf H9b
  have Zq : noPair (spBad '?') (pyStrip c9) = true :=
    noPair_within _ _ _ hinf H9q
  have Zcolon : noPair (spBad ':') (pyStrip c9) = true :=
    noPair_within _ _ _ hinf H9colon
  have Zsemi : noPair (spBad ';') (pyStrip c9) = true :=
    noPair_within _ _ _ hinf H9semi
  have Zp : noPair (spBad ')') (pyStrip c9) = true :=
    noPair_within _ _ _ hinf H9p
  have Zpas : noPair pasBad (pyStrip c9) = true :=
    noPair_within _ _ _ hinf H9pas
  have Zqsp : noPair qspBad (pyStrip c9) = true :=
    noPair_within _ _ _ hinf H9qsp
  have Zbang : noPair bangBad (pyStrip c9) = true :=
    noPair_within _ _ _ hinf H9bang
  have Zpf : noPair (pfBad followerSet) (pyStrip c9) = true :=
    noPair_within _ _ _ hinf H9pf
  have Zno4 : no4dots (pyStrip c9) = true :=
    no4dots_within _ _ hinf H9no4
  have Zstrip : stripOkB (pyStrip c9) = true := pyStrip_stripOk c9
  unfold normInv
  rw [Zw, Zd, Zc, Zdot, Zb, Zq, Zcolon, Zsemi, Zp, Zpas, Zqsp, Zbang, Zpf,
    Zno4, Zstrip]
  rfl

theorem A_main (x : List Char) : normInv (normalizeText x) = true := by
  rw [normalizeText_eq]
  by_cases h0 : pyStrip x = []
  · rw [if_pos h0]; rfl
  · rw [if_neg h0]; exact A_chain (pyStrip x)

/-- C5: the text normalizer is idempotent — for every input string x,
normalize_text (normalize_text x) equals normalize_text x. The proof runs
through the invariant `normInv` of normalized output: `A_main` shows every
output of `normalizeText` satisfies it, and `normInv_fixed` shows every
string satisfying it is a fixed point of `normalizeText`. -/
theorem C5_normalize_idempotent (x : List Char) :
    normalizeText (normalizeText x) = normalizeText x :=
  normInv_fixed (normalizeText x) (A_main x)
